import Mathlib

/-!
# rgba_bitmap: the RGBA file codec of `rgba_bitmap.c`

A shallow embedding of `rgba_encode_bitmap_to_file_data` and
`rgba_decode_file_data_to_bitmap`, followed by theorems about them.

Conventions of the embedding.

* A buffer is a `List Byte`; a pointer into it is a `Nat` offset.  A read or a
  write outside the buffer makes the helper return `none`, and the two entry
  points then yield `Exec.undefined` (the C program has undefined behaviour).
* `wb` is the number of bits of `unsigned long` and of `size_t` (32 on ILP32
  targets, 64 on LP64 targets).  `int` and `unsigned int` have 32 bits.  Every
  arithmetic operation of the source on these types is reduced modulo the width
  of its type (`umul`, `uadd`, `to_int`, `to_unsigned`).
* `malloc` is assumed to succeed; the block it returns holds arbitrary bytes,
  given by the parameter `heap`.
* A nullable pointer argument is an `Option` (input buffers) or a `Bool`
  (output parameters, `true` meaning non-null).  The result records the returned
  pointer and the value stored through each output parameter, `none` where the
  function stored nothing.
-/

namespace RgbaBitmap

/-! ## Data model -/

/-- An `unsigned char`. -/
abbrev Byte := Fin 256

/-- The enumeration `bitmap_buffer_format` of `rgba_bitmap.h`. -/
inductive bitmap_buffer_format where
  | RGBA
  | ABGR
  | ARGB
  | BGRA
  | RGB
  | BGR
deriving DecidableEq, Repr

/-- Outcome of running a C function: undefined behaviour, or a normal return. -/
inductive Exec (α : Type) where
  | undefined : Exec α
  | returned : α → Exec α
deriving DecidableEq, Repr

/-- What a call of `rgba_encode_bitmap_to_file_data` leaves behind: the returned
pointer (`none` is `NULL`) and the value stored in `*p_output_size`. -/
structure encode_out where
  rgba_file : Option (List Byte)
  output_size : Option Nat
deriving DecidableEq, Repr

/-- What a call of `rgba_decode_file_data_to_bitmap` leaves behind: the returned
pointer (`none` is `NULL`) and the values stored in `*p_width`, `*p_height` and
`*p_output_size`. -/
structure decode_out where
  bitmap : Option (List Byte)
  width : Option Nat
  height : Option Nat
  output_size : Option Nat
deriving DecidableEq, Repr

/-- Cursors and destination buffer of the encoder's per-pixel loop. -/
structure enc_state where
  input_ptr : Nat
  output_ptr : Nat
  rgba_file : List Byte
deriving DecidableEq, Repr

/-- Cursors and destination buffer of the decoder's per-pixel loop. -/
structure dec_state where
  in_ptr : Nat
  output_ptr : Nat
  bitmap : List Byte
deriving DecidableEq, Repr

/-! ## Machine arithmetic and memory -/

/-- Multiplication of two `wb`-bit unsigned integers. -/
def umul (wb a b : Nat) : Nat := (a * b) % 2 ^ wb

/-- Addition of two `wb`-bit unsigned integers. -/
def uadd (wb a b : Nat) : Nat := (a + b) % 2 ^ wb

/-- The `int` whose 32-bit two's complement pattern is `n % 2^32`. -/
def to_int (n : Nat) : Int :=
  if n % 2 ^ 32 < 2 ^ 31 then ((n % 2 ^ 32 : Nat) : Int) else ((n % 2 ^ 32 : Nat) : Int) - 2 ^ 32

/-- Conversion of a signed value to an unsigned type of `bits` bits. -/
def to_unsigned (bits : Nat) (v : Int) : Nat := (v % (2 : Int) ^ bits).toNat

/-- Conversion of an integer value to `unsigned char`. -/
def to_byte (n : Nat) : Byte := ⟨n % 256, Nat.mod_lt n (by decide)⟩

/-- The value of `RGBA_BITMAP_MAGIC_NUMBER`. -/
def RGBA_BITMAP_MAGIC_NUMBER : Nat := 0x52474241

/-- A block of `size` bytes as `malloc` returns it: contents unspecified, here `heap`. -/
def malloc (heap : Nat → Byte) (size : Nat) : List Byte := (List.range size).map heap

/-- The assignment `buf[i] = v`; `none` outside the buffer. -/
def store (buf : List Byte) (i : Nat) (v : Byte) : Option (List Byte) :=
  if i < buf.length then some (buf.set i v) else none

/-- The call `memcpy(&dst[d], &src[s], n)`; `none` when either range leaves its buffer. -/
def memcpy (dst : List Byte) (d : Nat) (src : List Byte) (s n : Nat) : Option (List Byte) :=
  if d + n ≤ dst.length ∧ s + n ≤ src.length then
    some (dst.take d ++ (src.drop s).take n ++ dst.drop (d + n))
  else none

/-- The macro `READ_BIG_ENDIAN_UINT32(&buf[ptr])`.  Its operands are promoted to
`int`, so the value is an `int`; a first byte of 0x80 or more shifts into the sign bit. -/
def READ_BIG_ENDIAN_UINT32 (buf : List Byte) (ptr : Nat) : Option Int := do
  let b0 ← buf[ptr]?
  let b1 ← buf[ptr + 1]?
  let b2 ← buf[ptr + 2]?
  let b3 ← buf[ptr + 3]?
  pure (to_int (b0.val <<< 24 ||| b1.val <<< 16 ||| b2.val <<< 8 ||| b3.val))

/-- The macro `WRITE_BIG_ENDIAN_UINT32(&buf[ptr], u32)`. -/
def WRITE_BIG_ENDIAN_UINT32 (buf : List Byte) (ptr u32 : Nat) : Option (List Byte) := do
  let buf ← store buf ptr (to_byte ((u32 >>> 24) &&& 0xFF))
  let buf ← store buf (ptr + 1) (to_byte ((u32 >>> 16) &&& 0xFF))
  let buf ← store buf (ptr + 2) (to_byte ((u32 >>> 8) &&& 0xFF))
  store buf (ptr + 3) (to_byte (u32 &&& 0xFF))

/-- The loop `for (i = start; i < start + count; i++) body`, threading the state. -/
def forLoop {σ : Type} (body : Nat → σ → Option σ) : Nat → Nat → σ → Option σ
  | 0, _, s => some s
  | count + 1, i, s => (body i s).bind (forLoop body count (i + 1))

/-- Bytes per pixel of a buffer format: 3 for `RGB` and `BGR`, otherwise 4. -/
def pixel_size (format : bitmap_buffer_format) : Nat :=
  if format = bitmap_buffer_format.RGB ∨ format = bitmap_buffer_format.BGR then 3 else 4

/-! ## Encoder -/

/-- The `switch` of the encoder: reads one pixel at `input_ptr` in the given
format, returning `r, g, b, a` and the advanced `input_ptr`. -/
def encode_read_pixel (input_format : bitmap_buffer_format) (input_buffer : List Byte)
    (input_ptr : Nat) : Option (Byte × Byte × Byte × Byte × Nat) :=
  match input_format with
  | bitmap_buffer_format.RGBA => do
    let r ← input_buffer[input_ptr]?
    let g ← input_buffer[input_ptr + 1]?
    let b ← input_buffer[input_ptr + 2]?
    let a ← input_buffer[input_ptr + 3]?
    pure (r, g, b, a, input_ptr + 4)
  | bitmap_buffer_format.ABGR => do
    let a ← input_buffer[input_ptr]?
    let b ← input_buffer[input_ptr + 1]?
    let g ← input_buffer[input_ptr + 2]?
    let r ← input_buffer[input_ptr + 3]?
    pure (r, g, b, a, input_ptr + 4)
  | bitmap_buffer_format.ARGB => do
    let a ← input_buffer[input_ptr]?
    let r ← input_buffer[input_ptr + 1]?
    let g ← input_buffer[input_ptr + 2]?
    let b ← input_buffer[input_ptr + 3]?
    pure (r, g, b, a, input_ptr + 4)
  | bitmap_buffer_format.BGRA => do
    let b ← input_buffer[input_ptr]?
    let g ← input_buffer[input_ptr + 1]?
    let r ← input_buffer[input_ptr + 2]?
    let a ← input_buffer[input_ptr + 3]?
    pure (r, g, b, a, input_ptr + 4)
  | bitmap_buffer_format.RGB => do
    let r ← input_buffer[input_ptr]?
    let g ← input_buffer[input_ptr + 1]?
    let b ← input_buffer[input_ptr + 2]?
    pure (r, g, b, 0xFF, input_ptr + 3)
  | bitmap_buffer_format.BGR => do
    let b ← input_buffer[input_ptr]?
    let g ← input_buffer[input_ptr + 1]?
    let r ← input_buffer[input_ptr + 2]?
    pure (r, g, b, 0xFF, input_ptr + 3)

/-- Body of the encoder's inner loop: one pixel read, four bytes written. -/
def encode_pixel (input_format : bitmap_buffer_format) (input_buffer : List Byte)
    (s : enc_state) : Option enc_state := do
  let (r, g, b, a, input_ptr) ← encode_read_pixel input_format input_buffer s.input_ptr
  let f ← store s.rgba_file s.output_ptr r
  let f ← store f (s.output_ptr + 1) g
  let f ← store f (s.output_ptr + 2) b
  let f ← store f (s.output_ptr + 3) a
  pure ⟨input_ptr, s.output_ptr + 4, f⟩

/-- Body of the encoder's outer loop: row `y`, which starts at
`&input_buffer[y * input_row_size]`. -/
def encode_row (wb : Nat) (input_format : bitmap_buffer_format) (input_buffer : List Byte)
    (width input_row_size : Nat) (y : Nat) (s : enc_state) : Option enc_state :=
  forLoop (fun _ st => encode_pixel input_format input_buffer st) width 0
    ⟨umul wb y input_row_size, s.output_ptr, s.rgba_file⟩

/-- The function `rgba_encode_bitmap_to_file_data`. -/
def rgba_encode_bitmap_to_file_data (wb : Nat) (heap : Nat → Byte)
    (input_buffer : Option (List Byte)) (width height input_row_size : Nat)
    (input_format : bitmap_buffer_format) (p_output_size : Bool) : Exec encode_out :=
  match input_buffer with
  | none => Exec.returned ⟨none, none⟩
  | some input =>
    if p_output_size = false ∨ width = 0 ∨ height = 0 then Exec.returned ⟨none, none⟩
    else
      let input_pixel_size := pixel_size input_format
      if input_row_size ≠ 0 ∧ input_row_size < umul wb input_pixel_size width then
        Exec.returned ⟨none, none⟩
      else
        let input_row_size :=
          if input_row_size = 0 then umul wb input_pixel_size width else input_row_size
        let output_size := uadd wb 12 (umul wb (umul wb width height) 4)
        let rgba_file := malloc heap output_size
        let written : Option (List Byte) := do
          let f ← WRITE_BIG_ENDIAN_UINT32 rgba_file 0 RGBA_BITMAP_MAGIC_NUMBER
          let f ← WRITE_BIG_ENDIAN_UINT32 f 4 width
          let f ← WRITE_BIG_ENDIAN_UINT32 f 8 height
          if input_format = bitmap_buffer_format.RGBA ∧ input_row_size = umul wb width 4 then
            memcpy f 12 input 0 (umul wb (umul wb width height) 4)
          else
            (forLoop (encode_row wb input_format input width input_row_size) height 0
              ⟨0, 12, f⟩).map (fun s => s.rgba_file)
        match written with
        | none => Exec.undefined
        | some f => Exec.returned ⟨some f, some output_size⟩

/-! ## Decoder -/

/-- The `switch` of the decoder: writes one pixel at `output_ptr` in the desired
format, returning the bitmap and the advanced `output_ptr`. -/
def decode_write_pixel (desired_output_format : bitmap_buffer_format) (bitmap : List Byte)
    (output_ptr : Nat) (r g b a : Byte) : Option (List Byte × Nat) :=
  match desired_output_format with
  | bitmap_buffer_format.RGBA => do
    let m ← store bitmap output_ptr r
    let m ← store m (output_ptr + 1) g
    let m ← store m (output_ptr + 2) b
    let m ← store m (output_ptr + 3) a
    pure (m, output_ptr + 4)
  | bitmap_buffer_format.ABGR => do
    let m ← store bitmap output_ptr a
    let m ← store m (output_ptr + 1) b
    let m ← store m (output_ptr + 2) g
    let m ← store m (output_ptr + 3) r
    pure (m, output_ptr + 4)
  | bitmap_buffer_format.ARGB => do
    let m ← store bitmap output_ptr a
    let m ← store m (output_ptr + 1) r
    let m ← store m (output_ptr + 2) g
    let m ← store m (output_ptr + 3) b
    pure (m, output_ptr + 4)
  | bitmap_buffer_format.BGRA => do
    let m ← store bitmap output_ptr b
    let m ← store m (output_ptr + 1) g
    let m ← store m (output_ptr + 2) r
    let m ← store m (output_ptr + 3) a
    pure (m, output_ptr + 4)
  | bitmap_buffer_format.RGB => do
    let m ← store bitmap output_ptr r
    let m ← store m (output_ptr + 1) g
    let m ← store m (output_ptr + 2) b
    pure (m, output_ptr + 3)
  | bitmap_buffer_format.BGR => do
    let m ← store bitmap output_ptr b
    let m ← store m (output_ptr + 1) g
    let m ← store m (output_ptr + 2) r
    pure (m, output_ptr + 3)

/-- Body of the decoder's inner loop: four bytes read, one pixel written. -/
def decode_pixel (desired_output_format : bitmap_buffer_format) (file_data : List Byte)
    (s : dec_state) : Option dec_state := do
  let r ← file_data[s.in_ptr]?
  let g ← file_data[s.in_ptr + 1]?
  let b ← file_data[s.in_ptr + 2]?
  let a ← file_data[s.in_ptr + 3]?
  let (m, output_ptr) ← decode_write_pixel desired_output_format s.bitmap s.output_ptr r g b a
  pure ⟨s.in_ptr + 4, output_ptr, m⟩

/-- Body of the decoder's outer loop: row `y`, which starts at
`&bitmap[y * output_row_size]`. -/
def decode_row (wb : Nat) (desired_output_format : bitmap_buffer_format) (file_data : List Byte)
    (width output_row_size : Nat) (y : Nat) (s : dec_state) : Option dec_state :=
  forLoop (fun _ st => decode_pixel desired_output_format file_data st) width 0
    ⟨s.in_ptr, umul wb y output_row_size, s.bitmap⟩

/-- The row size the decoder computes from the width, the pixel size and
`row_alignment_bytes`; `remainder` is an `int`. -/
def decode_output_row_size (wb width output_pixel_size row_alignment_bytes : Nat) : Nat :=
  let output_row_size := umul wb width output_pixel_size
  if row_alignment_bytes > 1 then
    let remainder : Int := to_int (output_row_size % row_alignment_bytes)
    if remainder > 0 then
      uadd wb output_row_size (to_unsigned 32 ((row_alignment_bytes : Int) - remainder))
    else output_row_size
  else output_row_size

/-- The function `rgba_decode_file_data_to_bitmap`. -/
def rgba_decode_file_data_to_bitmap (wb : Nat) (heap : Nat → Byte)
    (file_data : Option (List Byte)) (file_data_length : Nat)
    (desired_output_format : bitmap_buffer_format) (row_alignment_bytes : Nat)
    (p_width p_height p_output_size : Bool) : Exec decode_out :=
  match file_data with
  | none => Exec.returned ⟨none, none, none, none⟩
  | some data =>
    if p_width = false ∨ p_height = false then Exec.returned ⟨none, none, none, none⟩
    else if p_output_size = false then Exec.undefined
    else if file_data_length < 12 then Exec.returned ⟨none, none, none, some 0⟩
    else
      match READ_BIG_ENDIAN_UINT32 data 0 with
      | none => Exec.undefined
      | some magic =>
        if to_unsigned wb magic ≠ RGBA_BITMAP_MAGIC_NUMBER then
          Exec.returned ⟨none, none, none, some 0⟩
        else
          match READ_BIG_ENDIAN_UINT32 data 4, READ_BIG_ENDIAN_UINT32 data 8 with
          | some w, some h =>
            let width := to_unsigned wb w
            let height := to_unsigned wb h
            if file_data_length < uadd wb 12 (umul wb (umul wb width height) 4) then
              Exec.returned ⟨none, none, none, some 0⟩
            else
              let output_pixel_size := pixel_size desired_output_format
              let output_row_size :=
                decode_output_row_size wb width output_pixel_size row_alignment_bytes
              let bitmap := malloc heap (umul wb output_row_size height)
              let input_row_size := umul wb width 4
              let written : Option (List Byte) :=
                if desired_output_format = bitmap_buffer_format.RGBA
                    ∧ output_row_size = input_row_size then
                  memcpy bitmap 0 data 12 (umul wb (umul wb width height) 4)
                else
                  (forLoop (decode_row wb desired_output_format data width output_row_size)
                    height 0 ⟨12, 0, bitmap⟩).map (fun s => s.bitmap)
              match written with
              | none => Exec.undefined
              | some m =>
                Exec.returned ⟨some m, some width, some height, some (umul wb output_row_size height)⟩
          | _, _ => Exec.undefined

/-! ## Specification vocabulary -/

/-- The four bytes holding the low 32 bits of `v`, most significant byte first. -/
def be32 (v : Nat) : List Byte :=
  [to_byte (v / 2 ^ 24 % 256), to_byte (v / 2 ^ 16 % 256), to_byte (v / 2 ^ 8 % 256),
    to_byte (v % 256)]

/-- The 12-byte header of an RGBA file: magic, width, height. -/
def file_header (width height : Nat) : List Byte :=
  be32 RGBA_BITMAP_MAGIC_NUMBER ++ be32 width ++ be32 height

/-- The row size the encoder works with: the minimum row size when the caller passed 0. -/
def effective_row_size (format : bitmap_buffer_format) (width input_row_size : Nat) : Nat :=
  if input_row_size = 0 then width * pixel_size format else input_row_size

/-- The number that four bytes hold, most significant byte first. -/
def be32_value (bs : List Byte) : Nat :=
  match bs with
  | [b0, b1, b2, b3] => b0.val * 2 ^ 24 + b1.val * 2 ^ 16 + b2.val * 2 ^ 8 + b3.val
  | _ => 0

/-- The bytes of one pixel `(r, g, b, a)` in the byte order of a buffer format. -/
def pixel_bytes (format : bitmap_buffer_format) (p : Byte × Byte × Byte × Byte) : List Byte :=
  match format, p with
  | bitmap_buffer_format.RGBA, (r, g, b, a) => [r, g, b, a]
  | bitmap_buffer_format.ABGR, (r, g, b, a) => [a, b, g, r]
  | bitmap_buffer_format.ARGB, (r, g, b, a) => [a, r, g, b]
  | bitmap_buffer_format.BGRA, (r, g, b, a) => [b, g, r, a]
  | bitmap_buffer_format.RGB, (r, g, b, _) => [r, g, b]
  | bitmap_buffer_format.BGR, (r, g, b, _) => [b, g, r]

/-- A logical image, given as its pixels `(r, g, b, a)` in row-major order, written out
as a packed buffer in the byte order of a buffer format. -/
def serialize (format : bitmap_buffer_format) (image : List (Byte × Byte × Byte × Byte)) :
    List Byte :=
  image.flatMap (pixel_bytes format)

/-- Channel `k` (0 = R, 1 = G, 2 = B, otherwise A) of a pixel `(r, g, b, a)`. -/
def pixel_channel (p : Byte × Byte × Byte × Byte) (k : Nat) : Byte :=
  match k with
  | 0 => p.1
  | 1 => p.2.1
  | 2 => p.2.2.1
  | _ => p.2.2.2

/-- The smallest multiple of `a` that is at least `n` (for `a > 0`). -/
def aligned_row_size (n a : Nat) : Nat := (n + a - 1) / a * a

/-- Offset inside a pixel of the given format of channel `k` (0 = R, 1 = G, 2 = B, 3 = A). -/
def channel_offset (format : bitmap_buffer_format) (k : Nat) : Nat :=
  match format, k with
  | bitmap_buffer_format.RGBA, k => k
  | bitmap_buffer_format.ABGR, k => 3 - k
  | bitmap_buffer_format.ARGB, k => if k = 3 then 0 else k + 1
  | bitmap_buffer_format.BGRA, k => if k = 3 then 3 else 2 - k
  | bitmap_buffer_format.RGB, k => k
  | bitmap_buffer_format.BGR, k => 2 - k

/-- Channel `k` (0 = R, 1 = G, 2 = B, 3 = A) of the pixel stored at offset `ip` of `input`;
the alpha of a three-byte pixel is 0xFF. -/
def source_channel (format : bitmap_buffer_format) (input : List Byte) (ip k : Nat) : Byte :=
  if k = 3 ∧ pixel_size format = 3 then 0xFF else (input[ip + channel_offset format k]?).getD 0

open bitmap_buffer_format

/-! ## Machine arithmetic lemmas -/

theorem shift_or_eq_add (b0 b1 b2 b3 : Nat) (h1 : b1 < 256) (h2 : b2 < 256) (h3 : b3 < 256) :
    b0 <<< 24 ||| b1 <<< 16 ||| b2 <<< 8 ||| b3
      = b0 * 2 ^ 24 + b1 * 2 ^ 16 + b2 * 2 ^ 8 + b3 := by
  have e1 : b0 <<< 24 ||| b1 <<< 16 = 2 ^ 16 * (b0 * 2 ^ 8 + b1) := by
    rw [Nat.shiftLeft_eq, Nat.shiftLeft_eq, Nat.mul_comm b0,
      ← Nat.mul_add_lt_is_or (by omega) b0]
    omega
  have e2 : 2 ^ 16 * (b0 * 2 ^ 8 + b1) ||| b2 <<< 8 = 2 ^ 8 * (b0 * 2 ^ 16 + b1 * 2 ^ 8 + b2) := by
    rw [Nat.shiftLeft_eq, ← Nat.mul_add_lt_is_or (by omega) (b0 * 2 ^ 8 + b1)]
    omega
  rw [e1, e2, ← Nat.mul_add_lt_is_or (by omega) _]
  omega

theorem and_255 (x : Nat) : x &&& 0xFF = x % 256 :=
  Nat.and_pow_two_sub_one_eq_mod x 8

theorem to_int_eq_of_lt {n : Nat} (h : n < 2 ^ 31) : to_int n = (n : Int) := by
  have : n % 2 ^ 32 = n := Nat.mod_eq_of_lt (by omega)
  unfold to_int
  rw [this, if_pos h]

theorem to_unsigned_natCast {bits n : Nat} (h : n < 2 ^ bits) : to_unsigned bits (n : Int) = n := by
  unfold to_unsigned
  have : ((n : Int) % (2 : Int) ^ bits) = ((n % 2 ^ bits : Nat) : Int) := by push_cast; rfl
  rw [this, Nat.mod_eq_of_lt h]; simp

/-! ## Loop lemmas of the encoder -/

theorem umul_eq {wb a b : Nat} (h : a * b < 2 ^ wb) : umul wb a b = a * b :=
  Nat.mod_eq_of_lt h

theorem uadd_eq {wb a b : Nat} (h : a + b < 2 ^ wb) : uadd wb a b = a + b :=
  Nat.mod_eq_of_lt h

theorem store_eq_some {buf : List Byte} {i : Nat} (v : Byte) (h : i < buf.length) :
    store buf i v = some (buf.set i v) := by
  simp [store, h]

theorem encode_read_pixel_eq (fmt : bitmap_buffer_format) (input : List Byte) (ip : Nat)
    (h : ip + pixel_size fmt ≤ input.length) :
    encode_read_pixel fmt input ip = some (source_channel fmt input ip 0,
      source_channel fmt input ip 1, source_channel fmt input ip 2,
      source_channel fmt input ip 3, ip + pixel_size fmt) := by
  cases fmt <;> simp [pixel_size] at h <;>
    simp [encode_read_pixel, pixel_size, channel_offset, source_channel,
      List.getElem?_eq_getElem,
      show ip < input.length by omega, show ip + 1 < input.length by omega,
      show ip + 2 < input.length by omega]
  all_goals simp [List.getElem?_eq_getElem, show ip + 3 < input.length by omega]

theorem encode_pixel_eq (fmt : bitmap_buffer_format) (input : List Byte) (s : enc_state)
    (hin : s.input_ptr + pixel_size fmt ≤ input.length)
    (hout : s.output_ptr + 4 ≤ s.rgba_file.length) :
    encode_pixel fmt input s = some ⟨s.input_ptr + pixel_size fmt, s.output_ptr + 4,
      (((s.rgba_file.set s.output_ptr (source_channel fmt input s.input_ptr 0)).set
        (s.output_ptr + 1) (source_channel fmt input s.input_ptr 1)).set
        (s.output_ptr + 2) (source_channel fmt input s.input_ptr 2)).set
        (s.output_ptr + 3) (source_channel fmt input s.input_ptr 3)⟩ := by
  simp [encode_pixel, encode_read_pixel_eq fmt input s.input_ptr hin, store,
    show s.output_ptr < s.rgba_file.length by omega,
    show s.output_ptr + 1 < s.rgba_file.length by omega,
    show s.output_ptr + 2 < s.rgba_file.length by omega,
    show s.output_ptr + 3 < s.rgba_file.length by omega]

theorem getElem?_set4 (f : List Byte) (p : Nat) (v0 v1 v2 v3 : Byte) (h : p + 4 ≤ f.length)
    (i : Nat) :
    ((((f.set p v0).set (p + 1) v1).set (p + 2) v2).set (p + 3) v3)[i]? =
      if i = p then some v0 else if i = p + 1 then some v1 else if i = p + 2 then some v2
      else if i = p + 3 then some v3 else f[i]? := by
  simp only [List.getElem?_set, List.length_set]
  split_ifs <;> first | rfl | omega

theorem encode_pixels_spec (fmt : bitmap_buffer_format) (input : List Byte) :
    ∀ (n x0 : Nat) (s : enc_state),
      s.input_ptr + n * pixel_size fmt ≤ input.length →
      s.output_ptr + 4 * n ≤ s.rgba_file.length →
      ∃ f, forLoop (fun _ st => encode_pixel fmt input st) n x0 s
            = some ⟨s.input_ptr + n * pixel_size fmt, s.output_ptr + 4 * n, f⟩
        ∧ f.length = s.rgba_file.length
        ∧ (∀ i, i < s.output_ptr ∨ s.output_ptr + 4 * n ≤ i → f[i]? = s.rgba_file[i]?)
        ∧ (∀ x k, x < n → k < 4 → f[s.output_ptr + 4 * x + k]?
            = some (source_channel fmt input (s.input_ptr + x * pixel_size fmt) k)) := by
  intro n
  induction n with
  | zero =>
    intro x0 s _ _
    exact ⟨s.rgba_file, by simp [forLoop], rfl, fun _ _ => rfl, fun x k hx _ => by omega⟩
  | succ n ih =>
    intro x0 s hin hout
    have hp : 0 < pixel_size fmt := by cases fmt <;> simp [pixel_size]
    have hmul : (n + 1) * pixel_size fmt = n * pixel_size fmt + pixel_size fmt := Nat.succ_mul _ _
    have h1 := encode_pixel_eq fmt input s (by omega) (by omega)
    obtain ⟨f, hf, hlen, hout', hpix⟩ := ih (x0 + 1) ⟨s.input_ptr + pixel_size fmt,
      s.output_ptr + 4,
      (((s.rgba_file.set s.output_ptr (source_channel fmt input s.input_ptr 0)).set
        (s.output_ptr + 1) (source_channel fmt input s.input_ptr 1)).set
        (s.output_ptr + 2) (source_channel fmt input s.input_ptr 2)).set
        (s.output_ptr + 3) (source_channel fmt input s.input_ptr 3)⟩
      (by show _ + _ + _ ≤ _; omega)
      (by show _ + 4 + _ ≤ _; simp only [List.length_set]; omega)
    simp only [List.length_set] at hlen hout' hpix
    refine ⟨f, ?_, hlen, ?_, ?_⟩
    · simp only [forLoop, h1, Option.some_bind, hf]
      congr 2 <;> omega
    · intro i hi
      rw [hout' i (by omega), getElem?_set4 _ _ _ _ _ _ (by omega)]
      split_ifs <;> first | rfl | omega
    · intro x k hx hk
      rcases Nat.eq_zero_or_pos x with h0 | hpos
      · subst h0
        rw [hout' _ (by omega), getElem?_set4 _ _ _ _ _ _ (by omega)]
        interval_cases k <;> simp
      · obtain ⟨x', rfl⟩ : ∃ x', x = x' + 1 := ⟨x - 1, by omega⟩
        have := hpix x' k (by omega) hk
        have e1 : s.output_ptr + 4 + 4 * x' + k = s.output_ptr + 4 * (x' + 1) + k := by omega
        have e2 : s.input_ptr + pixel_size fmt + x' * pixel_size fmt
            = s.input_ptr + (x' + 1) * pixel_size fmt := by
          have : (x' + 1) * pixel_size fmt = x' * pixel_size fmt + pixel_size fmt := by ring
          omega
        rw [e1, e2] at this
        exact this

theorem encode_rows_spec (wb : Nat) (fmt : bitmap_buffer_format) (input : List Byte)
    (width stride : Nat) :
    ∀ (n y0 : Nat) (s : enc_state),
      (∀ y, y < n → umul wb (y0 + y) stride + width * pixel_size fmt ≤ input.length) →
      s.output_ptr + 4 * (n * width) ≤ s.rgba_file.length →
      ∃ s', forLoop (encode_row wb fmt input width stride) n y0 s = some s'
        ∧ s'.output_ptr = s.output_ptr + 4 * (n * width)
        ∧ s'.rgba_file.length = s.rgba_file.length
        ∧ (∀ i, i < s.output_ptr ∨ s.output_ptr + 4 * (n * width) ≤ i →
            s'.rgba_file[i]? = s.rgba_file[i]?)
        ∧ (∀ y x k, y < n → x < width → k < 4 →
            s'.rgba_file[s.output_ptr + 4 * (y * width + x) + k]?
              = some (source_channel fmt input
                  (umul wb (y0 + y) stride + x * pixel_size fmt) k)) := by
  intro n
  induction n with
  | zero =>
    intro y0 s _ _
    exact ⟨s, by simp [forLoop], by simp, rfl, fun _ _ => rfl, fun y x k hy _ _ => by omega⟩
  | succ n ih =>
    intro y0 s hin hout
    have hmul : (n + 1) * width = n * width + width := Nat.succ_mul _ _
    obtain ⟨f, hf, hlen, hout1, hpix1⟩ := encode_pixels_spec fmt input width 0
      ⟨umul wb y0 stride, s.output_ptr, s.rgba_file⟩ (by simpa using hin 0 (by omega))
      (by show s.output_ptr + 4 * width ≤ s.rgba_file.length; omega)
    simp only [] at hf hlen hout1 hpix1
    obtain ⟨s', hs', hop, hlen2, hout2, hpix2⟩ := ih (y0 + 1)
      ⟨umul wb y0 stride + width * pixel_size fmt, s.output_ptr + 4 * width, f⟩
      (fun y hy => by have := hin (y + 1) (by omega); rwa [show y0 + 1 + y = y0 + (y + 1) by omega])
      (by show _ + _ + _ ≤ _; rw [hlen]; omega)
    simp only [] at hop hlen2 hout2 hpix2
    refine ⟨s', ?_, by omega, by omega, ?_, ?_⟩
    · simp only [forLoop, encode_row, hf, Option.some_bind, hs']
    · intro i hi
      rw [hout2 i (by omega), hout1 i (by omega)]
    · intro y x k hy hx hk
      rcases Nat.eq_zero_or_pos y with h0 | hpos
      · subst h0
        rw [hout2 _ (by simp only [Nat.zero_mul, Nat.zero_add]; omega)]
        simpa using hpix1 x k hx hk
      · obtain ⟨y', rfl⟩ : ∃ y', y = y' + 1 := ⟨y - 1, by omega⟩
        have := hpix2 y' x k (by omega) hx hk
        have e1 : s.output_ptr + 4 * width + 4 * (y' * width + x) + k
            = s.output_ptr + 4 * ((y' + 1) * width + x) + k := by
          have : (y' + 1) * width = y' * width + width := by ring
          omega
        rw [e1, show y0 + 1 + y' = y0 + (y' + 1) by omega] at this
        exact this

/-! ## The encoder in closed form -/

theorem getElem?_be32 (v i : Nat) :
    (be32 v)[i]? = if i = 0 then some (to_byte (v / 2 ^ 24 % 256))
      else if i = 1 then some (to_byte (v / 2 ^ 16 % 256))
      else if i = 2 then some (to_byte (v / 2 ^ 8 % 256))
      else if i = 3 then some (to_byte (v % 256)) else none := by
  match i with
  | 0 | 1 | 2 | 3 => simp [be32]
  | i + 4 => simp [be32]

theorem WRITE_BIG_ENDIAN_UINT32_spec (buf : List Byte) (ptr v : Nat)
    (h : ptr + 4 ≤ buf.length) :
    ∃ f, WRITE_BIG_ENDIAN_UINT32 buf ptr v = some f ∧ f.length = buf.length
      ∧ ∀ i, f[i]? = if ptr ≤ i ∧ i < ptr + 4 then (be32 v)[i - ptr]? else buf[i]? := by
  refine ⟨(((buf.set ptr (to_byte (v / 2 ^ 24 % 256))).set (ptr + 1)
          (to_byte (v / 2 ^ 16 % 256))).set (ptr + 2) (to_byte (v / 2 ^ 8 % 256))).set
          (ptr + 3) (to_byte (v % 256)), ?_, by simp, ?_⟩
  · simp [WRITE_BIG_ENDIAN_UINT32, and_255, Nat.shiftRight_eq_div_pow, store,
      show ptr < buf.length by omega, show ptr + 1 < buf.length by omega,
      show ptr + 2 < buf.length by omega, show ptr + 3 < buf.length by omega]
  · intro i
    rw [getElem?_set4 _ _ _ _ _ _ h, getElem?_be32]
    split_ifs <;> first | rfl | omega

/-- The three header writes of the encoder. -/
theorem write_header_spec (buf : List Byte) (width height : Nat) (h : 12 ≤ buf.length) :
    ∃ f1 f2 f, WRITE_BIG_ENDIAN_UINT32 buf 0 RGBA_BITMAP_MAGIC_NUMBER = some f1
      ∧ WRITE_BIG_ENDIAN_UINT32 f1 4 width = some f2
      ∧ WRITE_BIG_ENDIAN_UINT32 f2 8 height = some f
      ∧ f.length = buf.length
      ∧ (∀ i, i < 12 → f[i]? = (file_header width height)[i]?)
      ∧ (∀ i, 12 ≤ i → f[i]? = buf[i]?) := by
  obtain ⟨f1, h1, l1, g1⟩ := WRITE_BIG_ENDIAN_UINT32_spec buf 0 RGBA_BITMAP_MAGIC_NUMBER (by omega)
  obtain ⟨f2, h2, l2, g2⟩ := WRITE_BIG_ENDIAN_UINT32_spec f1 4 width (by omega)
  obtain ⟨f3, h3, l3, g3⟩ := WRITE_BIG_ENDIAN_UINT32_spec f2 8 height (by omega)
  refine ⟨f1, f2, f3, h1, h2, h3, by omega, ?_, ?_⟩
  · intro i hi
    rw [g3, g2, g1]
    have hl : ∀ v, (be32 v).length = 4 := fun v => rfl
    simp only [file_header, List.getElem?_append, hl, List.length_append]
    split_ifs <;> first | rfl | omega
  · intro i hi
    rw [g3, g2, g1]
    split_ifs <;> first | rfl | omega

theorem length_malloc (heap : Nat → Byte) (n : Nat) : (malloc heap n).length = n := by
  simp [malloc]

theorem memcpy_spec (dst : List Byte) (d : Nat) (src : List Byte) (s n : Nat)
    (hd : d + n ≤ dst.length) (hs : s + n ≤ src.length) :
    ∃ f, memcpy dst d src s n = some f ∧ f.length = dst.length
      ∧ ∀ i, f[i]? = if d ≤ i ∧ i < d + n then src[s + (i - d)]? else dst[i]? := by
  refine ⟨dst.take d ++ (src.drop s).take n ++ dst.drop (d + n), by simp [memcpy, hd, hs],
    by simp; omega, ?_⟩
  intro i
  simp only [List.getElem?_append, List.length_append, List.length_take, List.length_drop,
    List.getElem?_take, List.getElem?_drop]
  have e1 : min d dst.length = d := by omega
  have e2 : min n (src.length - s) = n := by omega
  rw [e1, e2]
  split_ifs <;> first | rfl | omega | (congr 1; omega)

theorem mul_le_of_lt_pred {y h s : Nat} (hy : y < h) : y * s ≤ (h - 1) * s :=
  Nat.mul_le_mul_right s (by omega)

/-- Closed form of a successful encode: the header, then for every pixel the four
channels read from the source. -/
theorem encode_spec (wb : Nat) (heap : Nat → Byte) (input : List Byte)
    (w h stride : Nat) (fmt : bitmap_buffer_format)
    (hw : 0 < w) (hh : 0 < h) (hs : stride = 0 ∨ w * pixel_size fmt ≤ stride)
    (hbuf : (h - 1) * effective_row_size fmt w stride + w * pixel_size fmt ≤ input.length)
    (hlen : input.length < 2 ^ wb) (hfit : 12 + w * h * 4 < 2 ^ wb) :
    ∃ f, rgba_encode_bitmap_to_file_data wb heap (some input) w h stride fmt true
        = Exec.returned ⟨some f, some (12 + w * h * 4)⟩
      ∧ f.length = 12 + w * h * 4
      ∧ (∀ i, i < 12 → f[i]? = (file_header w h)[i]?)
      ∧ (∀ y x k, y < h → x < w → k < 4 → f[12 + 4 * (y * w + x) + k]?
          = some (source_channel fmt input
              (y * effective_row_size fmt w stride + x * pixel_size fmt) k)) := by
  have hp : 0 < pixel_size fmt := by cases fmt <;> simp [pixel_size]
  have hpw : pixel_size fmt * w < 2 ^ wb := by rw [Nat.mul_comm]; omega
  have e1 : umul wb (pixel_size fmt) w = w * pixel_size fmt := by
    rw [umul_eq hpw, Nat.mul_comm]
  have hwh : w * h < 2 ^ wb := by omega
  have e2 : umul wb (umul wb w h) 4 = w * h * 4 := by
    rw [umul_eq hwh, umul_eq (by omega)]
  have e3 : uadd wb 12 (w * h * 4) = 12 + w * h * 4 := uadd_eq hfit
  have hchk : ¬ (stride ≠ 0 ∧ stride < w * pixel_size fmt) := by
    rintro ⟨h0, h1⟩; rcases hs with h2 | h2 <;> omega
  have hrs : (if stride = 0 then w * pixel_size fmt else stride)
      = effective_row_size fmt w stride := rfl
  obtain ⟨f1, f2, f0, hf1, hf2, hf0, l0, g0, g0'⟩ := write_header_spec (malloc heap (12 + w * h * 4)) w h
    (by rw [length_malloc]; omega)
  rw [length_malloc] at l0
  simp only [rgba_encode_bitmap_to_file_data, e1, e2, e3, hchk, if_false,
    show ¬ (true = false ∨ w = 0 ∨ h = 0) by simp; omega, hrs]
  simp only [bind, hf1, hf2, hf0, Option.some_bind]
  by_cases hfast : fmt = bitmap_buffer_format.RGBA ∧ effective_row_size fmt w stride = umul wb w 4
  · obtain ⟨hfmt, hrow⟩ := hfast
    subst hfmt
    have hps : pixel_size bitmap_buffer_format.RGBA = 4 := rfl
    have e4 : umul wb w 4 = w * 4 := by rw [← hps]; exact umul_eq (by rw [Nat.mul_comm]; exact hpw)
    rw [e4] at hrow
    rw [hrow, hps] at hbuf
    have hin : w * h * 4 ≤ input.length := by
      have : (h - 1) * (w * 4) + w * 4 = w * h * 4 := by
        obtain ⟨h', rfl⟩ : ∃ h', h = h' + 1 := ⟨h - 1, by omega⟩
        simp only [Nat.add_sub_cancel]; ring
      omega
    obtain ⟨f, hf, lf, gf⟩ := memcpy_spec f0 12 input 0 (w * h * 4) (by omega) (by omega)
    refine ⟨f, ?_, by omega, ?_, ?_⟩
    · simp only [hrow, e4, and_self, if_true, hf]
    · intro i hi
      rw [gf, if_neg (by omega), g0 i hi]
    · intro y x k hy hx hk
      have hyw : y * w + x < w * h := by
        have : y * w + w ≤ h * w := by
          have := Nat.mul_le_mul_right w (show y + 1 ≤ h by omega)
          rwa [Nat.add_mul, Nat.one_mul] at this
        rw [Nat.mul_comm w h]; omega
      rw [gf, if_pos (by omega), hrow, hps]
      simp only [source_channel, channel_offset, hps, show ¬ (k = 3 ∧ 4 = 3) by omega, if_false]
      have e5 : 0 + (12 + 4 * (y * w + x) + k - 12) = y * (w * 4) + x * 4 + k := by
        have : y * (w * 4) = 4 * (y * w) := by ring
        omega
      rw [e5, List.getElem?_eq_getElem (by rw [← e5]; omega)]
      rfl
  · obtain ⟨s', hs', hop, hl', gout, gpix⟩ := encode_rows_spec wb fmt input w
      (effective_row_size fmt w stride) h 0 ⟨0, 12, f0⟩
      (fun y hy => by
        have := mul_le_of_lt_pred (s := effective_row_size fmt w stride) hy
        rw [Nat.zero_add, umul_eq (by omega)]; omega)
      (by show 12 + 4 * (h * w) ≤ f0.length; rw [l0, Nat.mul_comm h w]; omega)
    simp only [] at hop hl' gout gpix
    refine ⟨s'.rgba_file, ?_, by omega, ?_, ?_⟩
    · simp only [hfast, if_false, hs', Option.map_some']
    · intro i hi
      rw [gout i (by omega), g0 i hi]
    · intro y x k hy hx hk
      have := gpix y x k hy hx hk
      have hy' := mul_le_of_lt_pred (s := effective_row_size fmt w stride) hy
      rwa [Nat.zero_add, umul_eq (by omega)] at this

/-! ## Loop lemmas of the decoder -/

theorem channel_offset_lt (fmt : bitmap_buffer_format) (k : Nat) (hk : k < 4)
    (hc : k < 3 ∨ pixel_size fmt = 4) : channel_offset fmt k < pixel_size fmt := by
  cases fmt <;> simp [pixel_size] at hc ⊢ <;> simp only [channel_offset] <;>
    first | omega | (split_ifs <;> omega)

theorem getElem?_set3 (f : List Byte) (p : Nat) (v0 v1 v2 : Byte) (h : p + 3 ≤ f.length)
    (i : Nat) :
    (((f.set p v0).set (p + 1) v1).set (p + 2) v2)[i]? =
      if i = p then some v0 else if i = p + 1 then some v1 else if i = p + 2 then some v2
      else f[i]? := by
  simp only [List.getElem?_set, List.length_set]
  split_ifs <;> first | rfl | omega

theorem decode_write_pixel_spec (fmt : bitmap_buffer_format) (bitmap : List Byte) (op : Nat)
    (c : Nat → Byte) (hout : op + pixel_size fmt ≤ bitmap.length) :
    ∃ m, decode_write_pixel fmt bitmap op (c 0) (c 1) (c 2) (c 3) = some (m, op + pixel_size fmt)
      ∧ m.length = bitmap.length
      ∧ (∀ i, i < op ∨ op + pixel_size fmt ≤ i → m[i]? = bitmap[i]?)
      ∧ (∀ k, k < 4 → (k < 3 ∨ pixel_size fmt = 4) →
          m[op + channel_offset fmt k]? = some (c k)) := by
  cases fmt <;> simp only [pixel_size, reduceCtorEq, or_self, or_false, or_true, false_or,
      if_true, if_false] at hout ⊢
  case RGB | BGR =>
    simp only [decode_write_pixel, store, bind, pure, Option.bind, List.length_set,
      show op < bitmap.length by omega, show op + 1 < bitmap.length by omega,
      show op + 2 < bitmap.length by omega, if_true]
    refine ⟨_, rfl, by simp, ?_, ?_⟩
    · intro i hi
      rw [getElem?_set3 _ _ _ _ _ (by omega)]
      split_ifs <;> first | rfl | omega
    · intro k hk hc
      rw [getElem?_set3 _ _ _ _ _ (by omega)]
      have hk3 : k < 3 := by omega
      interval_cases k <;> simp [channel_offset]
  all_goals
    simp only [decode_write_pixel, store, bind, pure, Option.bind, List.length_set,
      show op < bitmap.length by omega, show op + 1 < bitmap.length by omega,
      show op + 2 < bitmap.length by omega, show op + 3 < bitmap.length by omega, if_true]
    refine ⟨_, rfl, by simp, ?_, ?_⟩
    · intro i hi
      rw [getElem?_set4 _ _ _ _ _ _ (by omega)]
      split_ifs <;> first | rfl | omega
    · intro k hk hc
      rw [getElem?_set4 _ _ _ _ _ _ (by omega)]
      interval_cases k <;> simp [channel_offset]

theorem decode_pixel_spec (fmt : bitmap_buffer_format) (data : List Byte) (s : dec_state)
    (hin : s.in_ptr + 4 ≤ data.length)
    (hout : s.output_ptr + pixel_size fmt ≤ s.bitmap.length) :
    ∃ m, decode_pixel fmt data s = some ⟨s.in_ptr + 4, s.output_ptr + pixel_size fmt, m⟩
      ∧ m.length = s.bitmap.length
      ∧ (∀ i, i < s.output_ptr ∨ s.output_ptr + pixel_size fmt ≤ i → m[i]? = s.bitmap[i]?)
      ∧ (∀ k, k < 4 → (k < 3 ∨ pixel_size fmt = 4) →
          m[s.output_ptr + channel_offset fmt k]? = data[s.in_ptr + k]?) := by
  obtain ⟨m, hm, hl, hu, hc⟩ := decode_write_pixel_spec fmt s.bitmap s.output_ptr
    (fun k => data.getD (s.in_ptr + k) 0) hout
  have hget : ∀ k, k < 4 → data[s.in_ptr + k]? = some (data.getD (s.in_ptr + k) 0) := by
    intro k hk
    rw [List.getD_eq_getElem?_getD, List.getElem?_eq_getElem (by omega)]; rfl
  refine ⟨m, ?_, hl, hu, ?_⟩
  · have g0 := hget 0 (by omega)
    have g1 := hget 1 (by omega)
    have g2 := hget 2 (by omega)
    have g3 := hget 3 (by omega)
    rw [Nat.add_zero] at g0
    simp only [Nat.add_zero] at hm
    simp only [decode_pixel, bind, g0, g1, g2, g3, Option.some_bind, hm, pure]
  · intro k hk hk'
    rw [hc k hk hk', hget k hk]

theorem decode_pixels_spec (fmt : bitmap_buffer_format) (data : List Byte) :
    ∀ (n x0 : Nat) (s : dec_state),
      s.in_ptr + 4 * n ≤ data.length →
      s.output_ptr + n * pixel_size fmt ≤ s.bitmap.length →
      ∃ m, forLoop (fun _ st => decode_pixel fmt data st) n x0 s
            = some ⟨s.in_ptr + 4 * n, s.output_ptr + n * pixel_size fmt, m⟩
        ∧ m.length = s.bitmap.length
        ∧ (∀ i, i < s.output_ptr ∨ s.output_ptr + n * pixel_size fmt ≤ i →
            m[i]? = s.bitmap[i]?)
        ∧ (∀ x k, x < n → k < 4 → (k < 3 ∨ pixel_size fmt = 4) →
            m[s.output_ptr + x * pixel_size fmt + channel_offset fmt k]?
              = data[s.in_ptr + 4 * x + k]?) := by
  intro n
  induction n with
  | zero =>
    intro x0 s _ _
    exact ⟨s.bitmap, by simp [forLoop], rfl, fun _ _ => rfl, fun x k hx _ _ => by omega⟩
  | succ n ih =>
    intro x0 s hin hout
    have hmul : (n + 1) * pixel_size fmt = n * pixel_size fmt + pixel_size fmt := by ring
    obtain ⟨m1, h1, l1, u1, c1⟩ := decode_pixel_spec fmt data s (by omega) (by omega)
    obtain ⟨m, hm, lm, um, cm⟩ := ih (x0 + 1) ⟨s.in_ptr + 4, s.output_ptr + pixel_size fmt, m1⟩
      (by show s.in_ptr + 4 + 4 * n ≤ data.length; omega)
      (by show s.output_ptr + pixel_size fmt + n * pixel_size fmt ≤ m1.length; omega)
    simp only [] at hm lm um cm
    refine ⟨m, ?_, by omega, ?_, ?_⟩
    · simp only [forLoop, h1, Option.some_bind, hm]
      congr 2 <;> omega
    · intro i hi
      rw [um i (by omega), u1 i (by omega)]
    · intro x k hx hk hc
      have hoff := channel_offset_lt fmt k hk hc
      rcases Nat.eq_zero_or_pos x with h0 | hpos
      · subst h0
        rw [um _ (by omega)]
        simpa using c1 k hk hc
      · obtain ⟨x', rfl⟩ : ∃ x', x = x' + 1 := ⟨x - 1, by omega⟩
        have := cm x' k (by omega) hk hc
        have e1 : s.output_ptr + pixel_size fmt + x' * pixel_size fmt
            = s.output_ptr + (x' + 1) * pixel_size fmt := by
          have : (x' + 1) * pixel_size fmt = x' * pixel_size fmt + pixel_size fmt := by ring
          omega
        rw [e1, show s.in_ptr + 4 + 4 * x' + k = s.in_ptr + 4 * (x' + 1) + k by omega] at this
        exact this

theorem decode_rows_spec (wb : Nat) (fmt : bitmap_buffer_format) (data : List Byte)
    (width S : Nat) (hS : width * pixel_size fmt ≤ S) :
    ∀ (n y0 : Nat) (s : dec_state),
      (y0 + n) * S < 2 ^ wb ∨ n = 0 →
      s.in_ptr + 4 * (n * width) ≤ data.length →
      y0 * S + n * S ≤ s.bitmap.length →
      ∃ s', forLoop (decode_row wb fmt data width S) n y0 s = some s'
        ∧ s'.bitmap.length = s.bitmap.length
        ∧ (∀ i, i < y0 * S → s'.bitmap[i]? = s.bitmap[i]?)
        ∧ (∀ y x k, y < n → x < width → k < 4 → (k < 3 ∨ pixel_size fmt = 4) →
            s'.bitmap[(y0 + y) * S + x * pixel_size fmt + channel_offset fmt k]?
              = data[s.in_ptr + 4 * (y * width + x) + k]?) := by
  intro n
  induction n with
  | zero =>
    intro y0 s _ _ _
    exact ⟨s, by simp [forLoop], rfl, fun _ _ => rfl, fun y x k hy _ _ _ => by omega⟩
  | succ n ih =>
    intro y0 s hwrap hin hout
    have hmul : (n + 1) * width = n * width + width := by ring
    have hmulS : (n + 1) * S = n * S + S := by ring
    have hy0 : y0 * S < 2 ^ wb := by
      rcases hwrap with h | h
      · have : y0 * S ≤ (y0 + (n + 1)) * S := Nat.mul_le_mul_right S (by omega)
        omega
      · omega
    obtain ⟨m1, h1, l1, u1, c1⟩ := decode_pixels_spec fmt data width 0
      ⟨s.in_ptr, umul wb y0 S, s.bitmap⟩
      (by show s.in_ptr + 4 * width ≤ data.length; omega)
      (by show umul wb y0 S + width * pixel_size fmt ≤ s.bitmap.length
          rw [umul_eq hy0]; omega)
    simp only [umul_eq hy0] at h1 l1 u1 c1
    have hS' : (y0 + 1) * S = y0 * S + S := by ring
    obtain ⟨s', hs', l2, u2, c2⟩ := ih (y0 + 1)
      ⟨s.in_ptr + 4 * width, y0 * S + width * pixel_size fmt, m1⟩
      (by
        rcases hwrap with h | h
        · left; rwa [show y0 + 1 + n = y0 + (n + 1) by omega]
        · omega)
      (by show s.in_ptr + 4 * width + 4 * (n * width) ≤ data.length; omega)
      (by show (y0 + 1) * S + n * S ≤ m1.length; omega)
    simp only [] at l2 u2 c2
    refine ⟨s', ?_, by omega, ?_, ?_⟩
    · simp only [forLoop, decode_row, umul_eq hy0, h1, Option.some_bind, hs']
    · intro i hi
      rw [u2 i (by omega), u1 i (by omega)]
    · intro y x k hy hx hk hc
      have hoff := channel_offset_lt fmt k hk hc
      have hxw : x * pixel_size fmt + pixel_size fmt ≤ width * pixel_size fmt := by
        have := Nat.mul_le_mul_right (pixel_size fmt) (show x + 1 ≤ width by omega)
        rwa [Nat.add_mul, Nat.one_mul] at this
      rcases Nat.eq_zero_or_pos y with h0 | hpos
      · subst h0
        rw [u2 _ (by rw [Nat.add_zero]; omega), Nat.add_zero]
        simpa using c1 x k hx hk hc
      · obtain ⟨y', rfl⟩ : ∃ y', y = y' + 1 := ⟨y - 1, by omega⟩
        have := c2 y' x k (by omega) hx hk hc
        have e1 : s.in_ptr + 4 * width + 4 * (y' * width + x) + k
            = s.in_ptr + 4 * ((y' + 1) * width + x) + k := by
          have : (y' + 1) * width = y' * width + width := by ring
          omega
        rw [e1, show y0 + 1 + y' = y0 + (y' + 1) by omega] at this
        exact this

/-! ## The decoder in closed form -/

theorem to_byte_val (n : Nat) : (to_byte n).val = n % 256 := rfl

theorem READ_BIG_ENDIAN_UINT32_be32 (data : List Byte) (ptr v : Nat)
    (h : ∀ j, j < 4 → data[ptr + j]? = (be32 v)[j]?) :
    READ_BIG_ENDIAN_UINT32 data ptr = some (to_int (v % 2 ^ 32)) := by
  have h0 := h 0 (by omega)
  have h1 := h 1 (by omega)
  have h2 := h 2 (by omega)
  have h3 := h 3 (by omega)
  simp only [getElem?_be32, Nat.add_zero] at h0 h1 h2 h3
  simp only [READ_BIG_ENDIAN_UINT32, bind, pure, h0, h1, h2, h3, Option.some_bind]
  simp only [if_true, if_false, to_byte_val, OfNat.ofNat_ne_zero, OfNat.ofNat_ne_one,
    Nat.succ_ne_self, Option.some_bind, reduceCtorEq]
  rw [shift_or_eq_add _ _ _ _ (by omega) (by omega) (by omega)]
  congr 2
  omega

theorem to_unsigned_to_int (wb v : Nat) (hwb : 32 ≤ wb)
    (hv : v < 2 ^ 31 ∨ (wb = 32 ∧ v < 2 ^ 32)) :
    to_unsigned wb (to_int (v % 2 ^ 32)) = v := by
  have hpow : (2 : Nat) ^ 32 ≤ 2 ^ wb := Nat.pow_le_pow_right (by omega) hwb
  rcases hv with hv | ⟨rfl, hv⟩
  · rw [Nat.mod_eq_of_lt (by omega), to_int_eq_of_lt hv, to_unsigned_natCast (by omega)]
  · rw [Nat.mod_eq_of_lt hv]
    by_cases h31 : v < 2 ^ 31
    · rw [to_int_eq_of_lt h31, to_unsigned_natCast hv]
    · unfold to_int to_unsigned
      rw [Nat.mod_eq_of_lt hv, if_neg h31]
      omega

theorem getElem?_malloc (heap : Nat → Byte) (n i : Nat) :
    (malloc heap n)[i]? = if i < n then some (heap i) else none := by
  unfold malloc
  split_ifs with h
  · simp [List.getElem?_range h]
  · simp [List.getElem?_eq_none (show (List.range n).length ≤ i by simp; omega)]

theorem decode_output_row_size_lt (wb W p a : Nat) :
    decode_output_row_size wb W p a < 2 ^ wb := by
  have hpos : 0 < 2 ^ wb := Nat.pow_pos (by omega)
  unfold decode_output_row_size umul uadd
  simp only []
  split_ifs <;> exact Nat.mod_lt _ hpos

/-- Closed form of a successful decode: dimensions from the header, and every
channel of every pixel at its place in the output row. -/
theorem decode_spec (wb : Nat) (heap : Nat → Byte) (data : List Byte) (L : Nat)
    (fmt : bitmap_buffer_format) (a W H : Nat) (hwb : 32 ≤ wb)
    (hhdr : ∀ i, i < 12 → data[i]? = (file_header W H)[i]?)
    (hW : W < 2 ^ 31 ∨ (wb = 32 ∧ W < 2 ^ 32)) (hH : H < 2 ^ 31 ∨ (wb = 32 ∧ H < 2 ^ 32))
    (hL : 12 + W * H * 4 ≤ L) (hLd : L ≤ data.length) (hLw : L < 2 ^ wb)
    (hS1 : W * pixel_size fmt ≤ decode_output_row_size wb W (pixel_size fmt) a)
    (hS2 : decode_output_row_size wb W (pixel_size fmt) a * H < 2 ^ wb) :
    ∃ m, rgba_decode_file_data_to_bitmap wb heap (some data) L fmt a true true true
        = Exec.returned ⟨some m, some W, some H,
            some (decode_output_row_size wb W (pixel_size fmt) a * H)⟩
      ∧ m.length = decode_output_row_size wb W (pixel_size fmt) a * H
      ∧ (∀ y x k, y < H → x < W → k < 4 → (k < 3 ∨ pixel_size fmt = 4) →
          m[y * decode_output_row_size wb W (pixel_size fmt) a + x * pixel_size fmt
              + channel_offset fmt k]? = data[12 + 4 * (y * W + x) + k]?) := by
  have hl4 : ∀ v, (be32 v).length = 4 := fun v => rfl
  have hmagic : READ_BIG_ENDIAN_UINT32 data 0 = some (to_int (RGBA_BITMAP_MAGIC_NUMBER % 2 ^ 32)) := by
    apply READ_BIG_ENDIAN_UINT32_be32
    intro j hj
    rw [hhdr _ (by omega)]
    simp only [file_header, List.getElem?_append, hl4, List.length_append]
    rw [if_pos (by omega), if_pos (by omega), Nat.zero_add]
  have hrw : READ_BIG_ENDIAN_UINT32 data 4 = some (to_int (W % 2 ^ 32)) := by
    apply READ_BIG_ENDIAN_UINT32_be32
    intro j hj
    rw [hhdr _ (by omega)]
    simp only [file_header, List.getElem?_append, hl4, List.length_append]
    rw [if_pos (by omega), if_neg (by omega)]
    congr 1; omega
  have hrh : READ_BIG_ENDIAN_UINT32 data 8 = some (to_int (H % 2 ^ 32)) := by
    apply READ_BIG_ENDIAN_UINT32_be32
    intro j hj
    rw [hhdr _ (by omega)]
    simp only [file_header, List.getElem?_append, hl4, List.length_append]
    rw [if_neg (by omega)]
    congr 1; omega
  have hm := to_unsigned_to_int wb RGBA_BITMAP_MAGIC_NUMBER hwb (Or.inl (by decide))
  have hw := to_unsigned_to_int wb W hwb hW
  have hh := to_unsigned_to_int wb H hwb hH
  have e2 : umul wb (umul wb W H) 4 = W * H * 4 := by
    rw [@umul_eq wb W H (by omega), umul_eq (by omega)]
  have e3 : uadd wb 12 (W * H * 4) = 12 + W * H * 4 := uadd_eq (by omega)
  have hSlt := decode_output_row_size_lt wb W (pixel_size fmt) a
  have hchk : ¬ L < 12 + W * H * 4 := by omega
  simp only [rgba_decode_file_data_to_bitmap, hmagic, hrw, hrh, hm, hw, hh, e2, e3, hchk,
    Bool.true_eq_false, or_self, show ¬ L < 12 by omega, if_false, ne_eq, not_true_eq_false]
  generalize decode_output_row_size wb W (pixel_size fmt) a = S at hS1 hS2 hSlt ⊢
  have e4 : umul wb S H = S * H := umul_eq hS2
  simp only [e4]
  by_cases hfast : fmt = bitmap_buffer_format.RGBA ∧ S = umul wb W 4
  · obtain ⟨hfmt, hrow⟩ := hfast
    subst hfmt
    have hps : pixel_size bitmap_buffer_format.RGBA = 4 := rfl
    rw [hps] at hS1
    have e5 : umul wb W 4 = W * 4 := umul_eq (by omega)
    have hrow0 := hrow
    rw [e5] at hrow
    have hSH : S * H = W * H * 4 := by rw [hrow]; ring
    obtain ⟨m, hm', lm, gm⟩ := memcpy_spec (malloc heap (S * H)) 0 data 12 (W * H * 4)
      (by rw [length_malloc]; omega) (by omega)
    rw [length_malloc] at lm
    refine ⟨m, ?_, lm, ?_⟩
    · rw [if_pos ⟨rfl, hrow0⟩, hm']
    · intro y x k hy hx hk _
      have hyw : y * W + x < W * H := by
        have : y * W + W ≤ H * W := by
          have := Nat.mul_le_mul_right W (show y + 1 ≤ H by omega)
          rwa [Nat.add_mul, Nat.one_mul] at this
        rw [Nat.mul_comm W H]; omega
      have e6 : y * S + x * 4 + channel_offset bitmap_buffer_format.RGBA k = 4 * (y * W + x) + k := by
        have : y * (W * 4) = 4 * (y * W) := by ring
        simp only [channel_offset, hrow]; omega
      rw [hps, e6, gm, if_pos (by omega)]
      congr 1; omega
  · obtain ⟨s', hs', l', _, gpix⟩ := decode_rows_spec wb fmt data W S hS1 H 0
      ⟨12, 0, malloc heap (S * H)⟩ (Or.inl (by rw [Nat.zero_add, Nat.mul_comm]; exact hS2))
      (by show 12 + 4 * (H * W) ≤ data.length; rw [Nat.mul_comm H W]; omega)
      (by show 0 * S + H * S ≤ (malloc heap (S * H)).length
          rw [length_malloc, Nat.mul_comm H S]; omega)
    simp only [length_malloc] at l' gpix
    refine ⟨s'.bitmap, ?_, l', ?_⟩
    · simp only [hfast, if_false, hs', Option.map_some']
    · intro y x k hy hx hk hc
      have := gpix y x k hy hx hk hc
      rwa [Nat.zero_add] at this

/-! ## Inversion of a successful encode -/

theorem forLoop_invariant {σ : Type} (body : Nat → σ → Option σ) (P : Nat → σ → Prop)
    (hbody : ∀ j t t', body j t = some t' → P j t → P (j + 1) t') :
    ∀ (n i : Nat) (s s' : σ), P i s → forLoop body n i s = some s' → P (i + n) s' := by
  intro n
  induction n with
  | zero =>
    intro i s s' hP h
    simp only [forLoop, Option.some.injEq] at h
    subst h; exact hP
  | succ n ih =>
    intro i s s' hP h
    simp only [forLoop] at h
    cases hb : body i s with
    | none => simp [hb] at h
    | some t =>
      rw [hb, Option.some_bind] at h
      have := ih (i + 1) t s' (hbody i s t hb hP) h
      rwa [show i + 1 + n = i + (n + 1) by omega] at this

theorem store_some_lt {buf buf' : List Byte} {i : Nat} {v : Byte}
    (h : store buf i v = some buf') : i < buf.length := by
  unfold store at h
  split_ifs at h with hi
  exact hi

theorem encode_pixel_bounds (fmt : bitmap_buffer_format) (input : List Byte)
    (s s' : enc_state) (h : encode_pixel fmt input s = some s') :
    s.output_ptr + 4 ≤ s.rgba_file.length := by
  by_contra hcon
  have hlt : ¬ s.output_ptr + 3 < s.rgba_file.length := by omega
  cases hr : encode_read_pixel fmt input s.input_ptr with
  | none => simp [encode_pixel, hr] at h
  | some v =>
    obtain ⟨r, g, b, a, ip⟩ := v
    simp only [encode_pixel, hr, bind, Option.some_bind, Option.bind_eq_some, pure] at h
    obtain ⟨f1, h1, f2, h2, f3, h3, f4, h4, _⟩ := h
    have := store_some_lt h4
    have l1 : f1.length = s.rgba_file.length := by
      unfold store at h1; split_ifs at h1; simp only [Option.some.injEq] at h1; subst h1; simp
    have l2 : f2.length = f1.length := by
      unfold store at h2; split_ifs at h2; simp only [Option.some.injEq] at h2; subst h2; simp
    have l3 : f3.length = f2.length := by
      unfold store at h3; split_ifs at h3; simp only [Option.some.injEq] at h3; subst h3; simp
    omega

theorem store_spec {buf buf' : List Byte} {i : Nat} {v : Byte}
    (h : store buf i v = some buf') :
    i < buf.length ∧ buf'.length = buf.length ∧ ∀ j, j ≠ i → buf'[j]? = buf[j]? := by
  unfold store at h
  split_ifs at h with hi
  simp only [Option.some.injEq] at h
  subst h
  exact ⟨hi, by simp, fun j hj => List.getElem?_set_ne (Ne.symm hj)⟩

theorem encode_pixel_step (fmt : bitmap_buffer_format) (input : List Byte)
    (s s' : enc_state) (h : encode_pixel fmt input s = some s') :
    s.output_ptr + 4 ≤ s.rgba_file.length ∧ s'.output_ptr = s.output_ptr + 4
      ∧ s'.rgba_file.length = s.rgba_file.length
      ∧ ∀ i, i < s.output_ptr → s'.rgba_file[i]? = s.rgba_file[i]? := by
  cases hr : encode_read_pixel fmt input s.input_ptr with
  | none => simp [encode_pixel, hr] at h
  | some v =>
    obtain ⟨r, g, b, a, ip⟩ := v
    simp only [encode_pixel, hr, bind, Option.some_bind, Option.bind_eq_some, pure,
      Option.some.injEq] at h
    obtain ⟨f1, h1, f2, h2, f3, h3, f4, h4, rfl⟩ := h
    obtain ⟨b1, l1, g1⟩ := store_spec h1
    obtain ⟨b2, l2, g2⟩ := store_spec h2
    obtain ⟨b3, l3, g3⟩ := store_spec h3
    obtain ⟨b4, l4, g4⟩ := store_spec h4
    refine ⟨by omega, rfl, by simp only []; omega, ?_⟩
    intro i hi
    simp only []
    rw [g4 i (by omega), g3 i (by omega), g2 i (by omega), g1 i (by omega)]

/-- What a successful run of the encoder's inner loop leaves unchanged. -/
theorem encode_pixels_step (fmt : bitmap_buffer_format) (input : List Byte) (n x0 : Nat)
    (s s' : enc_state)
    (h : forLoop (fun _ st => encode_pixel fmt input st) n x0 s = some s')
    (h0 : s.output_ptr ≤ s.rgba_file.length) :
    s'.output_ptr = s.output_ptr + 4 * n ∧ s'.output_ptr ≤ s'.rgba_file.length
      ∧ s'.rgba_file.length = s.rgba_file.length
      ∧ ∀ i, i < s.output_ptr → s'.rgba_file[i]? = s.rgba_file[i]? := by
  have := forLoop_invariant (fun _ st => encode_pixel fmt input st)
    (fun x t => t.output_ptr = s.output_ptr + 4 * (x - x0) ∧ t.output_ptr ≤ t.rgba_file.length
      ∧ t.rgba_file.length = s.rgba_file.length
      ∧ (x0 ≤ x) ∧ ∀ i, i < s.output_ptr → t.rgba_file[i]? = s.rgba_file[i]?)
    (by
      intro j t t' hb ⟨p1, p2, p3, p4, p5⟩
      obtain ⟨q1, q2, q3, q4⟩ := encode_pixel_step fmt input t t' hb
      refine ⟨by omega, by omega, by omega, by omega, ?_⟩
      intro i hi
      rw [q4 i (by omega), p5 i hi])
    n x0 s s' ⟨by simp, h0, rfl, le_refl _, fun _ _ => rfl⟩ h
  obtain ⟨p1, p2, p3, _, p5⟩ := this
  exact ⟨by rw [p1]; congr 2; omega, p2, p3, p5⟩

/-- What a successful run of the encoder's outer loop leaves unchanged. -/
theorem encode_rows_step (wb : Nat) (fmt : bitmap_buffer_format) (input : List Byte)
    (width stride n y0 : Nat) (s s' : enc_state)
    (h : forLoop (encode_row wb fmt input width stride) n y0 s = some s')
    (h0 : s.output_ptr ≤ s.rgba_file.length) :
    s'.output_ptr = s.output_ptr + 4 * (n * width) ∧ s'.output_ptr ≤ s'.rgba_file.length
      ∧ s'.rgba_file.length = s.rgba_file.length
      ∧ ∀ i, i < s.output_ptr → s'.rgba_file[i]? = s.rgba_file[i]? := by
  have := forLoop_invariant (encode_row wb fmt input width stride)
    (fun y t => t.output_ptr = s.output_ptr + 4 * ((y - y0) * width)
      ∧ t.output_ptr ≤ t.rgba_file.length
      ∧ t.rgba_file.length = s.rgba_file.length
      ∧ (y0 ≤ y) ∧ ∀ i, i < s.output_ptr → t.rgba_file[i]? = s.rgba_file[i]?)
    (by
      intro j t t' hb ⟨p1, p2, p3, p4, p5⟩
      obtain ⟨q1, q2, q3, q4⟩ := encode_pixels_step fmt input width 0 _ t' hb p2
      simp only [] at q1 q2 q3 q4
      have e : (j + 1 - y0) * width = (j - y0) * width + width := by
        rw [show j + 1 - y0 = (j - y0) + 1 by omega]; ring
      refine ⟨by omega, by omega, by omega, by omega, ?_⟩
      intro i hi
      rw [q4 i (by omega), p5 i hi])
    n y0 s s' ⟨by simp, h0, rfl, le_refl _, fun _ _ => rfl⟩ h
  obtain ⟨p1, p2, p3, _, p5⟩ := this
  exact ⟨by rw [p1]; congr 3; omega, p2, p3, p5⟩

theorem WRITE_BIG_ENDIAN_UINT32_bounds {buf buf' : List Byte} {ptr v : Nat}
    (h : WRITE_BIG_ENDIAN_UINT32 buf ptr v = some buf') : ptr + 4 ≤ buf.length := by
  simp only [WRITE_BIG_ENDIAN_UINT32, bind, Option.bind_eq_some] at h
  obtain ⟨f1, h1, f2, h2, f3, h3, h4⟩ := h
  obtain ⟨_, l1, _⟩ := store_spec h1
  obtain ⟨_, l2, _⟩ := store_spec h2
  obtain ⟨_, l3, _⟩ := store_spec h3
  obtain ⟨b4, _, _⟩ := store_spec h4
  omega

/-- Inversion of a successful encode: the checks passed, the block has the size the
code computed, it starts with the header, and on the per-pixel path every pixel
fits in the block. -/
theorem encode_success (wb : Nat) (heap : Nat → Byte) (input : Option (List Byte))
    (w h stride : Nat) (fmt : bitmap_buffer_format) (ps : Bool) (f : List Byte)
    (n : Option Nat)
    (hs : rgba_encode_bitmap_to_file_data wb heap input w h stride fmt ps
      = Exec.returned ⟨some f, n⟩) :
    0 < w ∧ 0 < h ∧ ps = true ∧ input ≠ none
      ∧ ¬ (stride ≠ 0 ∧ stride < umul wb (pixel_size fmt) w)
      ∧ n = some (uadd wb 12 (umul wb (umul wb w h) 4))
      ∧ f.length = uadd wb 12 (umul wb (umul wb w h) 4)
      ∧ (∀ i, i < 12 → f[i]? = (file_header w h)[i]?)
      ∧ (¬ (fmt = bitmap_buffer_format.RGBA ∧ (if stride = 0 then umul wb (pixel_size fmt) w else stride)
            = umul wb w 4) → 12 + 4 * (h * w) ≤ f.length) := by
  cases input with
  | none => simp [rgba_encode_bitmap_to_file_data] at hs
  | some inp =>
    unfold rgba_encode_bitmap_to_file_data at hs
    simp only [] at hs
    by_cases c1 : ps = false ∨ w = 0 ∨ h = 0
    · rw [if_pos c1] at hs; simp at hs
    by_cases c2 : stride ≠ 0 ∧ stride < umul wb (pixel_size fmt) w
    · rw [if_neg c1, if_pos c2] at hs; simp at hs
    rw [if_neg c1, if_neg c2] at hs
    · have hw : 0 < w := by omega
      have hh : 0 < h := by omega
      have hps : ps = true := by
        cases ps
        · exact absurd (Or.inl rfl) c1
        · rfl
      refine ⟨hw, hh, hps, by simp, c2, ?_⟩
      generalize hN : uadd wb 12 (umul wb (umul wb w h) 4) = N at hs ⊢
      generalize hrs : (if stride = 0 then umul wb (pixel_size fmt) w else stride) = rs at hs ⊢
      cases hw0 : WRITE_BIG_ENDIAN_UINT32 (malloc heap N) 0 RGBA_BITMAP_MAGIC_NUMBER with
      | none => simp [hw0, bind] at hs
      | some f1 =>
        cases hw1 : WRITE_BIG_ENDIAN_UINT32 f1 4 w with
        | none => simp [hw0, hw1, bind] at hs
        | some f2 =>
          cases hw2 : WRITE_BIG_ENDIAN_UINT32 f2 8 h with
          | none => simp [hw0, hw1, hw2, bind] at hs
          | some f0 =>
            have b0 := WRITE_BIG_ENDIAN_UINT32_bounds hw0
            rw [length_malloc] at b0
            have h12 : 12 ≤ N := by
              have b2 := WRITE_BIG_ENDIAN_UINT32_bounds hw2
              obtain ⟨t1, ht1, lt1, _⟩ := WRITE_BIG_ENDIAN_UINT32_spec (malloc heap N) 0
                RGBA_BITMAP_MAGIC_NUMBER (by rw [length_malloc]; omega)
              rw [hw0, Option.some.injEq] at ht1; subst ht1
              have b1 := WRITE_BIG_ENDIAN_UINT32_bounds hw1
              obtain ⟨t2, ht2, lt2, _⟩ := WRITE_BIG_ENDIAN_UINT32_spec f1 4 w b1
              rw [hw1, Option.some.injEq] at ht2; subst ht2
              rw [length_malloc] at lt1
              omega
            obtain ⟨g1, g2, g0, e1, e2, e3, l0, hd, _⟩ :=
              write_header_spec (malloc heap N) w h (by rw [length_malloc]; exact h12)
            rw [hw0, Option.some.injEq] at e1; subst e1
            rw [hw1, Option.some.injEq] at e2; subst e2
            rw [hw2, Option.some.injEq] at e3; subst e3
            rw [length_malloc] at l0
            simp only [hw0, hw1, hw2, bind, Option.some_bind] at hs
            by_cases cf : fmt = bitmap_buffer_format.RGBA ∧ rs = umul wb w 4
            · rw [if_pos cf] at hs
              cases hm : memcpy f0 12 inp 0 (umul wb (umul wb w h) 4) with
              | none => simp [hm] at hs
              | some m =>
                simp only [hm, Exec.returned.injEq, encode_out.mk.injEq, Option.some.injEq] at hs
                obtain ⟨rfl, rfl⟩ := hs
                have hb : 12 + umul wb (umul wb w h) 4 ≤ f0.length ∧
                    0 + umul wb (umul wb w h) 4 ≤ inp.length := by
                  unfold memcpy at hm
                  split_ifs at hm with hc
                  exact hc
                obtain ⟨m', hm', lm', gm'⟩ := memcpy_spec f0 12 inp 0 _ hb.1 hb.2
                rw [hm, Option.some.injEq] at hm'; subst hm'
                refine ⟨rfl, by omega, ?_, fun hneg => absurd cf hneg⟩
                intro i hi
                rw [gm', if_neg (by omega), hd i hi]
            · rw [if_neg cf] at hs
              cases hl : forLoop (encode_row wb fmt inp w rs) h 0 ⟨0, 12, f0⟩ with
              | none => simp [hl] at hs
              | some s' =>
                simp only [hl, Option.map_some', Exec.returned.injEq, encode_out.mk.injEq,
                  Option.some.injEq] at hs
                obtain ⟨rfl, rfl⟩ := hs
                obtain ⟨q1, q2, q3, q4⟩ := encode_rows_step wb fmt inp w rs h 0 _ s' hl
                  (by show 12 ≤ f0.length; omega)
                simp only [] at q1 q2 q3 q4
                refine ⟨rfl, by omega, ?_, fun _ => by omega⟩
                intro i hi
                rw [q4 i hi, hd i hi]

/-! ## Further lemmas -/

theorem output_size_formula (wb w h : Nat) :
    uadd wb 12 (umul wb (umul wb w h) 4) = (12 + w * h * 4) % 2 ^ wb := by
  unfold uadd umul
  rw [Nat.add_mod, Nat.mod_mod, Nat.mul_mod, Nat.mod_mod, ← Nat.mul_mod, ← Nat.add_mod]

theorem be32_value_be32 (v : Nat) : be32_value (be32 v) = v % 2 ^ 32 := by
  simp only [be32_value, be32, to_byte_val]
  omega

theorem take_header {f : List Byte} {w h : Nat}
    (hd : ∀ i, i < 12 → f[i]? = (file_header w h)[i]?) : f.take 12 = file_header w h := by
  apply List.ext_getElem?
  intro i
  by_cases hi : i < 12
  · rw [List.getElem?_take_of_lt hi, hd i hi]
  · rw [List.getElem?_eq_none (by simp; omega), List.getElem?_eq_none (by simp [file_header, be32]; omega)]

theorem header_fields {f : List Byte} {w h : Nat}
    (hd : ∀ i, i < 12 → f[i]? = (file_header w h)[i]?) :
    f.take 4 = be32 RGBA_BITMAP_MAGIC_NUMBER ∧ (f.drop 4).take 4 = be32 w
      ∧ (f.drop 8).take 4 = be32 h := by
  have h12 := take_header hd
  have e1 : f.take 4 = (f.take 12).take 4 := by rw [List.take_take]; rfl
  have e2 : (f.drop 4).take 4 = ((f.take 12).drop 4).take 4 := by
    rw [List.drop_take, List.take_take]; rfl
  have e3 : (f.drop 8).take 4 = ((f.take 12).drop 8).take 4 := by
    rw [List.drop_take, List.take_take]; rfl
  rw [e1, e2, e3, h12]
  simp [file_header, be32]

theorem READ_BIG_ENDIAN_UINT32_eq (data : List Byte) (ptr : Nat) (b0 b1 b2 b3 : Byte)
    (h0 : data[ptr]? = some b0) (h1 : data[ptr + 1]? = some b1)
    (h2 : data[ptr + 2]? = some b2) (h3 : data[ptr + 3]? = some b3) :
    READ_BIG_ENDIAN_UINT32 data ptr
      = some (to_int (b0.val * 2 ^ 24 + b1.val * 2 ^ 16 + b2.val * 2 ^ 8 + b3.val)) := by
  simp only [READ_BIG_ENDIAN_UINT32, bind, pure, h0, h1, h2, h3, Option.some_bind]
  rw [shift_or_eq_add _ _ _ _ b1.isLt b2.isLt b3.isLt]

/-- A 32-bit pattern read by the macro equals the magic number only when it is the
magic number: the conversion to `unsigned long` is injective on patterns. -/
theorem to_unsigned_to_int_eq_magic (wb p : Nat) (hwb : 32 ≤ wb) (hp : p < 2 ^ 32)
    (h : to_unsigned wb (to_int p) = RGBA_BITMAP_MAGIC_NUMBER) : p = RGBA_BITMAP_MAGIC_NUMBER := by
  have hpow : (2 : Nat) ^ 32 ≤ 2 ^ wb := Nat.pow_le_pow_right (by omega) hwb
  by_cases h31 : p < 2 ^ 31
  · rw [to_int_eq_of_lt h31, to_unsigned_natCast (by omega)] at h
    exact h
  · exfalso
    unfold to_int to_unsigned at h
    rw [Nat.mod_eq_of_lt hp, if_neg h31] at h
    have hM : RGBA_BITMAP_MAGIC_NUMBER = 1380401729 := rfl
    rw [hM] at h
    have hc : ((2 : Int) ^ wb) = ((2 ^ wb : Nat) : Int) := by push_cast; rfl
    rw [hc] at h
    generalize 2 ^ wb = M at h hpow
    have e : (((p : Int) - 2 ^ 32) % (M : Int)) = (p : Int) - 2 ^ 32 + M := by
      rw [← Int.add_emod_self, Int.emod_eq_of_lt (by omega) (by omega)]
    rw [e] at h
    omega

theorem index_decomp (w h i : Nat) (hw : 0 < w) (hi : i < w * h * 4) :
    ∃ y x k, y < h ∧ x < w ∧ k < 4 ∧ i = 4 * (y * w + x) + k := by
  refine ⟨i / 4 / w, i / 4 % w, i % 4, ?_, Nat.mod_lt _ hw, Nat.mod_lt _ (by omega), ?_⟩
  · rw [Nat.div_lt_iff_lt_mul hw, Nat.mul_comm h w]; omega
  · have := Nat.div_add_mod (i / 4) w
    rw [Nat.mul_comm w] at this
    omega

theorem decode_output_row_size_packed (wb W p a : Nat) (ha : a ≤ 1) (h : W * p < 2 ^ wb) :
    decode_output_row_size wb W p a = W * p := by
  unfold decode_output_row_size
  simp only [show ¬ a > 1 by omega, if_false, umul_eq h]

theorem mul_mul_le_of_pos {w h : Nat} (c : Nat) (hh : 0 < h) : w * c ≤ w * h * c := by
  have : w * 1 ≤ w * h := Nat.mul_le_mul_left w hh
  rw [Nat.mul_one] at this
  exact Nat.mul_le_mul_right c this

theorem length_pixel_bytes (fmt : bitmap_buffer_format) (p : Byte × Byte × Byte × Byte) :
    (pixel_bytes fmt p).length = pixel_size fmt := by
  obtain ⟨r, g, b, a⟩ := p
  cases fmt <;> rfl

theorem length_serialize (fmt : bitmap_buffer_format) (img : List (Byte × Byte × Byte × Byte)) :
    (serialize fmt img).length = img.length * pixel_size fmt := by
  induction img with
  | nil => simp [serialize]
  | cons p rest ih =>
    have : serialize fmt (p :: rest) = pixel_bytes fmt p ++ serialize fmt rest := by
      simp [serialize]
    rw [this, List.length_append, ih, length_pixel_bytes, List.length_cons]
    ring

theorem getElem?_pixel_bytes (fmt : bitmap_buffer_format) (p : Byte × Byte × Byte × Byte)
    (k : Nat) (hk : k < 4) (hc : k < 3 ∨ pixel_size fmt = 4) :
    (pixel_bytes fmt p)[channel_offset fmt k]? = some (pixel_channel p k) := by
  obtain ⟨r, g, b, a⟩ := p
  cases fmt <;> simp [pixel_size] at hc <;> interval_cases k <;> rfl

theorem getElem?_serialize (fmt : bitmap_buffer_format) :
    ∀ (img : List (Byte × Byte × Byte × Byte)) (q k : Nat) (p : Byte × Byte × Byte × Byte),
      img[q]? = some p → k < 4 → (k < 3 ∨ pixel_size fmt = 4) →
      (serialize fmt img)[q * pixel_size fmt + channel_offset fmt k]? = some (pixel_channel p k) := by
  intro img
  induction img with
  | nil => intro q k p h; simp at h
  | cons p0 rest ih =>
    intro q k p h hk hc
    have hs : serialize fmt (p0 :: rest) = pixel_bytes fmt p0 ++ serialize fmt rest := by
      simp [serialize]
    have hoff := channel_offset_lt fmt k hk hc
    rw [hs]
    cases q with
    | zero =>
      simp only [List.getElem?_cons_zero, Option.some.injEq] at h
      subst h
      rw [Nat.zero_mul, Nat.zero_add, List.getElem?_append_left (by rw [length_pixel_bytes]; exact hoff)]
      exact getElem?_pixel_bytes fmt p0 k hk hc
    | succ q =>
      simp only [List.getElem?_cons_succ] at h
      rw [List.getElem?_append_right (by rw [length_pixel_bytes, Nat.succ_mul]; omega),
        length_pixel_bytes]
      have e : (q + 1) * pixel_size fmt + channel_offset fmt k - pixel_size fmt
          = q * pixel_size fmt + channel_offset fmt k := by rw [Nat.succ_mul]; omega
      rw [e]
      exact ih q k p h hk hc

theorem length_file_header (w h : Nat) : (file_header w h).length = 12 := rfl

/-- Encoding a packed four-byte-per-pixel serialisation of an image yields the
header followed by the image in R, G, B, A order. -/
theorem encode_serialized (wb : Nat) (heap : Nat → Byte) (fmt : bitmap_buffer_format)
    (img : List (Byte × Byte × Byte × Byte)) (w h : Nat)
    (hfmt : pixel_size fmt = 4) (hw : 0 < w) (hh : 0 < h)
    (himg : img.length = w * h) (hfit : 12 + w * h * 4 < 2 ^ wb) :
    rgba_encode_bitmap_to_file_data wb heap (some (serialize fmt img)) w h 0 fmt true
      = Exec.returned ⟨some (file_header w h ++ serialize RGBA img), some (12 + w * h * 4)⟩ := by
  have hrs : effective_row_size fmt w 0 = w * 4 := by simp [effective_row_size, hfmt]
  have hrow : (h - 1) * (w * 4) + w * 4 = w * h * 4 := by
    obtain ⟨h', rfl⟩ : ∃ h', h = h' + 1 := ⟨h - 1, by omega⟩
    simp only [Nat.add_sub_cancel]; ring
  have hlen : (serialize fmt img).length = w * h * 4 := by
    rw [length_serialize, himg, hfmt]
  have hlenR : (serialize RGBA img).length = w * h * 4 := by
    rw [length_serialize, himg]; rfl
  obtain ⟨f, hf, hl, hd, hp⟩ := encode_spec wb heap (serialize fmt img) w h 0 fmt hw hh
    (Or.inl rfl) (by rw [hrs, hfmt, hlen]; omega) (by omega) hfit
  rw [hf]
  have hfe : f = file_header w h ++ serialize RGBA img := by
    apply List.ext_getElem?
    intro i
    by_cases hi : i < 12
    · rw [hd i hi, List.getElem?_append_left (by rw [length_file_header]; exact hi)]
    · by_cases hi2 : i < 12 + w * h * 4
      · obtain ⟨y, x, k, hy, hx, hk, hik⟩ := index_decomp w h (i - 12) hw (by omega)
        have hi' : i = 12 + 4 * (y * w + x) + k := by omega
        subst hi'
        have hq : y * w + x < img.length := by omega
        have hget : img[y * w + x]? = some (img[y * w + x]) := List.getElem?_eq_getElem hq
        have g1 := getElem?_serialize fmt img (y * w + x) k _ hget hk (Or.inr hfmt)
        have g2 := getElem?_serialize RGBA img (y * w + x) k _ hget hk (Or.inr rfl)
        rw [hp y x k hy hx hk, hrs, hfmt,
          List.getElem?_append_right (by rw [length_file_header]; omega), length_file_header]
        have e2 : 12 + 4 * (y * w + x) + k - 12
            = (y * w + x) * pixel_size RGBA + channel_offset RGBA k := by
          simp only [channel_offset, show pixel_size RGBA = 4 from rfl]; omega
        rw [e2, g2]
        simp only [source_channel, hfmt, show ¬ (k = 3 ∧ 4 = 3) by omega, if_false]
        have e1 : y * (w * 4) + x * 4 + channel_offset fmt k
            = (y * w + x) * pixel_size fmt + channel_offset fmt k := by
          rw [hfmt]; ring
        rw [e1, g1]
        rfl
      · rw [List.getElem?_eq_none (by omega),
          List.getElem?_eq_none (by rw [List.length_append, length_file_header, hlenR]; omega)]
  rw [hfe]

theorem some_getD_getElem? (l : List Byte) (i : Nat) (h : i < l.length) :
    some ((l[i]?).getD 0) = l[i]? := by
  rw [List.getElem?_eq_getElem h]; rfl

theorem aligned_row_size_eq (n a : Nat) (ha : 0 < a) :
    aligned_row_size n a = if n % a = 0 then n else n + (a - n % a) := by
  unfold aligned_row_size
  have hdm := Nat.div_add_mod n a
  have hr := Nat.mod_lt n ha
  generalize n / a = q at hdm
  generalize n % a = r at hdm hr
  subst hdm
  split_ifs with h0
  · subst h0
    have : (a * q + 0 + a - 1) / a = q := by
      apply Nat.div_eq_of_lt_le
      · rw [Nat.mul_comm]; omega
      · rw [Nat.succ_mul, Nat.mul_comm q a]; omega
    rw [this, Nat.mul_comm]; rfl
  · have : (a * q + r + a - 1) / a = q + 1 := by
      apply Nat.div_eq_of_lt_le
      · rw [Nat.add_mul, Nat.one_mul, Nat.mul_comm q a]; omega
      · rw [Nat.succ_mul, Nat.add_mul, Nat.one_mul, Nat.mul_comm q a]; omega
    rw [this, Nat.add_mul, Nat.one_mul, Nat.mul_comm q a]
    omega

theorem aligned_row_size_spec (n a : Nat) (ha : 0 < a) :
    a ∣ aligned_row_size n a ∧ n ≤ aligned_row_size n a
      ∧ ∀ T, a ∣ T → n ≤ T → aligned_row_size n a ≤ T := by
  refine ⟨Dvd.intro_left _ rfl, ?_, ?_⟩
  · rw [aligned_row_size_eq n a ha]; split_ifs <;> omega
  · rintro T ⟨t, rfl⟩ hT
    rw [aligned_row_size_eq n a ha]
    have hdm := Nat.div_add_mod n a
    have hr := Nat.mod_lt n ha
    generalize n / a = q at hdm
    generalize n % a = r at hdm hr ⊢
    subst hdm
    split_ifs with h0
    · exact hT
    · have hlt : a * q < a * t := by omega
      have hqt : q < t := Nat.lt_of_mul_lt_mul_left hlt
      have : a * (q + 1) ≤ a * t := Nat.mul_le_mul_left a hqt
      rw [Nat.mul_add, Nat.mul_one] at this
      omega

/-- Under the stated bounds the row size computed by the decoder is the smallest
multiple of the alignment that holds a row. -/
theorem decode_output_row_size_aligned (wb W p a : Nat) (ha : 1 < a) (ha32 : a < 2 ^ 32)
    (hr : (W * p) % a < 2 ^ 31) (hrow : aligned_row_size (W * p) a < 2 ^ wb) :
    decode_output_row_size wb W p a = aligned_row_size (W * p) a := by
  have hle := (aligned_row_size_spec (W * p) a (by omega)).2.1
  have hal := aligned_row_size_eq (W * p) a (by omega)
  have hmod := Nat.mod_lt (W * p) (show 0 < a by omega)
  unfold decode_output_row_size
  simp only [show a > 1 from ha, if_true, umul_eq (show W * p < 2 ^ wb by omega)]
  rw [to_int_eq_of_lt hr, hal]
  by_cases h0 : (W * p) % a = 0
  · rw [if_pos h0, if_neg (by rw [h0]; decide)]
  · rw [if_neg h0, if_pos (by omega)]
    have e : ((a : Int) - ((W * p % a : Nat) : Int)) = ((a - W * p % a : Nat) : Int) := by
      omega
    rw [e, to_unsigned_natCast (by omega), uadd_eq (by rw [hal, if_neg h0] at hrow; exact hrow)]

theorem channel_offset_surj (fmt : bitmap_buffer_format) (off : Nat)
    (h : off < pixel_size fmt) :
    ∃ k, k < 4 ∧ (k < 3 ∨ pixel_size fmt = 4) ∧ channel_offset fmt k = off := by
  cases fmt <;> simp only [pixel_size, reduceCtorEq, or_self, or_false, or_true, false_or,
    if_true, if_false] at h ⊢
  case RGBA => exact ⟨off, h, trivial, rfl⟩
  case ABGR => exact ⟨3 - off, by omega, trivial, by simp only [channel_offset]; omega⟩
  case ARGB =>
    rcases Nat.eq_zero_or_pos off with rfl | hp
    · exact ⟨3, by omega, trivial, rfl⟩
    · exact ⟨off - 1, by omega, trivial, by
        simp only [channel_offset, show ¬ (off - 1 = 3) by omega, if_false]; omega⟩
  case BGRA =>
    by_cases h3 : off = 3
    · subst h3; exact ⟨3, by omega, trivial, rfl⟩
    · exact ⟨2 - off, by omega, trivial, by
        simp only [channel_offset, show ¬ (2 - off = 3) by omega, if_false]; omega⟩
  case RGB => exact ⟨off, by omega, Or.inl h, rfl⟩
  case BGR => exact ⟨2 - off, by omega, Or.inl (by omega), by simp only [channel_offset]; omega⟩

theorem pixel_size_le (fmt : bitmap_buffer_format) : 0 < pixel_size fmt ∧ pixel_size fmt ≤ 4 := by
  cases fmt <;> simp [pixel_size]

/-! ## The claims -/

/-- C1 (amended): for every width and height that are positive and below `2^31` (below
`2^32` where `unsigned long` has 32 bits) and every packed RGBA buffer of
`width*height*4` bytes whose file size `12 + width*height*4` is representable, encoding
with stride 0 and layout RGBA succeeds, and decoding the result with its reported length,
layout RGBA and alignment 0 succeeds, returns the buffer byte for byte and reports the
same width and height. -/
theorem C1_round_trip (wb : Nat) (heap heap2 : Nat → Byte) (w h : Nat) (buf : List Byte)
    (hwb : 32 ≤ wb) (hw : 0 < w) (hh : 0 < h)
    (hW : w < 2 ^ 31 ∨ (wb = 32 ∧ w < 2 ^ 32)) (hH : h < 2 ^ 31 ∨ (wb = 32 ∧ h < 2 ^ 32))
    (hbuf : buf.length = w * h * 4) (hfit : 12 + w * h * 4 < 2 ^ wb) :
    ∃ f, rgba_encode_bitmap_to_file_data wb heap (some buf) w h 0 RGBA true
          = Exec.returned ⟨some f, some (12 + w * h * 4)⟩
      ∧ rgba_decode_file_data_to_bitmap wb heap2 (some f) (12 + w * h * 4) RGBA 0
          true true true
          = Exec.returned ⟨some buf, some w, some h, some (w * h * 4)⟩ := by
  have hps : pixel_size RGBA = 4 := rfl
  have hrs : effective_row_size RGBA w 0 = w * 4 := rfl
  have hrow : (h - 1) * (w * 4) + w * 4 = w * h * 4 := by
    obtain ⟨h', rfl⟩ : ∃ h', h = h' + 1 := ⟨h - 1, by omega⟩
    simp only [Nat.add_sub_cancel]; ring
  obtain ⟨f, hf, hl, hd, hp⟩ := encode_spec wb heap buf w h 0 RGBA hw hh (Or.inl rfl)
    (by rw [hrs, hps]; omega) (by omega) hfit
  have hw4 : w * 4 ≤ w * h * 4 := mul_mul_le_of_pos 4 hh
  have hS : decode_output_row_size wb w (pixel_size RGBA) 0 = w * 4 :=
    decode_output_row_size_packed wb w 4 0 (by omega) (by omega)
  have e : w * 4 * h = w * h * 4 := by ring
  obtain ⟨m, hm, lm, gm⟩ := decode_spec wb heap2 f (12 + w * h * 4) RGBA 0 w h hwb hd hW hH
    (le_refl _) (by omega) hfit (by rw [hS, hps]) (by rw [hS, e]; omega)
  rw [hS] at hm lm gm
  rw [e] at hm lm
  refine ⟨f, hf, ?_⟩
  rw [hm]
  have hmb : m = buf := by
    apply List.ext_getElem?
    intro i
    by_cases hi : i < w * h * 4
    · obtain ⟨y, x, k, hy, hx, hk, rfl⟩ := index_decomp w h i hw hi
      have g1 := gm y x k hy hx hk (Or.inr rfl)
      have g2 := hp y x k hy hx hk
      rw [hps] at g1
      rw [hrs, hps] at g2
      have e1 : y * (w * 4) + x * 4 + channel_offset RGBA k = 4 * (y * w + x) + k := by
        have : y * (w * 4) = 4 * (y * w) := by ring
        simp only [channel_offset]; omega
      rw [e1, g2] at g1
      rw [g1]
      simp only [source_channel, channel_offset, hps, show ¬ (k = 3 ∧ 4 = 3) by omega, if_false]
      have e2 : y * (w * 4) + x * 4 + k = 4 * (y * w + x) + k := by
        have : y * (w * 4) = 4 * (y * w) := by ring
        omega
      rw [e2, List.getElem?_eq_getElem (by omega)]
      rfl
    · rw [List.getElem?_eq_none (by omega), List.getElem?_eq_none (by omega)]
  rw [hmb]

/-- C1, instance: a 2 × 1 image on a 64-bit platform. -/
theorem C1_round_trip_witness :
    ∃ f, rgba_encode_bitmap_to_file_data 64 (fun _ => 0) (some [1, 2, 3, 4, 5, 6, 7, 8]) 2 1 0
          RGBA true = Exec.returned ⟨some f, some (12 + 2 * 1 * 4)⟩
      ∧ rgba_decode_file_data_to_bitmap 64 (fun _ => 9) (some f) (12 + 2 * 1 * 4) RGBA 0
          true true true
          = Exec.returned ⟨some [1, 2, 3, 4, 5, 6, 7, 8], some 2, some 1, some (2 * 1 * 4)⟩ :=
  C1_round_trip 64 (fun _ => 0) (fun _ => 9) 2 1 [1, 2, 3, 4, 5, 6, 7, 8] (by decide)
    (by decide) (by decide) (Or.inl (by decide)) (Or.inl (by decide)) (by decide) (by decide)

/-- C1 (counterexample): with 64-bit `unsigned long`, a `2^32` by 1 RGBA bitmap (a packed
buffer of `2^34` bytes) is encoded successfully, but the header keeps only the low 32
bits of the width; decoding the file succeeds with width 0 and an empty bitmap, so neither
the buffer nor the width `2^32` comes back. -/
theorem C1_counterexample :
    ∃ f, rgba_encode_bitmap_to_file_data 64 (fun _ => 0) (some (List.replicate (2 ^ 34) 0))
          (2 ^ 32) 1 0 RGBA true = Exec.returned ⟨some f, some (12 + 2 ^ 34)⟩
      ∧ rgba_decode_file_data_to_bitmap 64 (fun _ => 0) (some f) (12 + 2 ^ 34) RGBA 0
          true true true = Exec.returned ⟨some [], some 0, some 1, some 0⟩ := by
  obtain ⟨f, hf, hl, hd, _⟩ := encode_spec 64 (fun _ => 0) (List.replicate (2 ^ 34) 0)
    (2 ^ 32) 1 0 RGBA (by decide) (by decide) (Or.inl rfl)
    (by rw [List.length_replicate]; decide) (by rw [List.length_replicate]; decide)
    (by decide)
  refine ⟨f, hf, ?_⟩
  have hhdr : file_header (2 ^ 32) 1 = file_header 0 1 := by decide
  rw [hhdr] at hd
  have hS : decode_output_row_size 64 0 (pixel_size RGBA) 0 = 0 := by decide
  obtain ⟨m, hm, lm, _⟩ := decode_spec 64 (fun _ => 0) f (12 + 2 ^ 34) RGBA 0 0 1 (by decide)
    hd (Or.inl (by decide)) (Or.inl (by decide)) (by decide) (by rw [hl]; decide) (by decide)
    (by rw [hS]; decide) (by rw [hS]; decide)
  rw [hS] at hm lm
  have : m = [] := List.length_eq_zero.mp (by simpa using lm)
  rw [hm, this]

/-- C2 (amended): on every successful encode the returned block and `*p_output_size`
both have the size the code computed in `size_t` arithmetic, `(12 + width*height*4) mod 2^wb`;
this is `12 + width*height*4` whenever that number is representable. -/
theorem C2_encode_output_size (wb : Nat) (heap : Nat → Byte) (input : Option (List Byte))
    (w h stride : Nat) (fmt : bitmap_buffer_format) (ps : Bool) (f : List Byte)
    (n : Option Nat)
    (hs : rgba_encode_bitmap_to_file_data wb heap input w h stride fmt ps
      = Exec.returned ⟨some f, n⟩) :
    f.length = (12 + w * h * 4) % 2 ^ wb ∧ n = some ((12 + w * h * 4) % 2 ^ wb)
      ∧ (12 + w * h * 4 < 2 ^ wb → f.length = 12 + w * h * 4 ∧ n = some (12 + w * h * 4)) := by
  obtain ⟨_, _, _, _, _, hn, hl, _, _⟩ := encode_success wb heap input w h stride fmt ps f n hs
  rw [output_size_formula] at hn hl
  refine ⟨hl, hn, fun hfit => ?_⟩
  rw [Nat.mod_eq_of_lt hfit] at hn hl
  exact ⟨hl, hn⟩

/-- C2, instance: a 1 × 2 RGBA image on a 64-bit platform. -/
theorem C2_encode_output_size_witness :
    rgba_encode_bitmap_to_file_data 64 (fun _ => 0) (some [1, 2, 3, 4, 5, 6, 7, 8]) 1 2 0
        RGBA true
      = Exec.returned ⟨some [0x52, 0x47, 0x42, 0x41, 0, 0, 0, 1, 0, 0, 0, 2,
          1, 2, 3, 4, 5, 6, 7, 8], some 20⟩
    ∧ ([0x52, 0x47, 0x42, 0x41, 0, 0, 0, 1, 0, 0, 0, 2, 1, 2, 3, 4, 5, 6, 7, 8] : List Byte).length
        = (12 + 1 * 2 * 4) % 2 ^ 64 :=
  ⟨by decide, (C2_encode_output_size 64 (fun _ => 0) (some [1, 2, 3, 4, 5, 6, 7, 8]) 1 2 0
      RGBA true [0x52, 0x47, 0x42, 0x41, 0, 0, 0, 1, 0, 0, 0, 2, 1, 2, 3, 4, 5, 6, 7, 8]
      (some 20) (by decide)).1⟩

/-- C2 (counterexample): with 64-bit `size_t`, width `2^62`, height 1, layout RGBA and
stride 0 the product `width*height*4` wraps to 0; the encoder succeeds and returns a
12-byte block with `*p_output_size = 12`, not `12 + width*height*4`. -/
theorem C2_counterexample :
    rgba_encode_bitmap_to_file_data 64 (fun _ => 0) (some [0]) (2 ^ 62) 1 0 RGBA true
      = Exec.returned ⟨some [0x52, 0x47, 0x42, 0x41, 0, 0, 0, 0, 0, 0, 0, 1], some 12⟩
    ∧ (12 : Nat) ≠ 12 + 2 ^ 62 * 1 * 4 := by
  decide

/-- C3 (amended): on every successful encode bytes 0..3 of the output are
0x52, 0x47, 0x42, 0x41, and bytes 4..7 and 8..11 hold, most significant byte first, the
low 32 bits of the width and of the height: the header's numbers are `width mod 2^32`
and `height mod 2^32`, which are the arguments themselves when these are below `2^32`. -/
theorem C3_encode_header (wb : Nat) (heap : Nat → Byte) (input : Option (List Byte))
    (w h stride : Nat) (fmt : bitmap_buffer_format) (ps : Bool) (f : List Byte)
    (n : Option Nat)
    (hs : rgba_encode_bitmap_to_file_data wb heap input w h stride fmt ps
      = Exec.returned ⟨some f, n⟩) :
    f.take 4 = [0x52, 0x47, 0x42, 0x41]
      ∧ be32_value ((f.drop 4).take 4) = w % 2 ^ 32
      ∧ be32_value ((f.drop 8).take 4) = h % 2 ^ 32
      ∧ (w < 2 ^ 32 → be32_value ((f.drop 4).take 4) = w)
      ∧ (h < 2 ^ 32 → be32_value ((f.drop 8).take 4) = h) := by
  obtain ⟨_, _, _, _, _, _, _, hd, _⟩ := encode_success wb heap input w h stride fmt ps f n hs
  obtain ⟨h1, h2, h3⟩ := header_fields hd
  rw [h1, h2, h3, be32_value_be32, be32_value_be32]
  exact ⟨by decide, rfl, rfl, fun hw => Nat.mod_eq_of_lt hw, fun hh => Nat.mod_eq_of_lt hh⟩

/-- C3, instance: a 1 × 2 RGBA image on a 64-bit platform. -/
theorem C3_encode_header_witness :
    ([0x52, 0x47, 0x42, 0x41, 0, 0, 0, 1, 0, 0, 0, 2, 1, 2, 3, 4, 5, 6, 7, 8] : List Byte).take 4
        = [0x52, 0x47, 0x42, 0x41]
      ∧ be32_value ((([0x52, 0x47, 0x42, 0x41, 0, 0, 0, 1, 0, 0, 0, 2, 1, 2, 3, 4, 5, 6, 7, 8] :
          List Byte).drop 4).take 4) = 1 % 2 ^ 32
      ∧ be32_value ((([0x52, 0x47, 0x42, 0x41, 0, 0, 0, 1, 0, 0, 0, 2, 1, 2, 3, 4, 5, 6, 7, 8] :
          List Byte).drop 8).take 4) = 2 % 2 ^ 32
      ∧ (1 < 2 ^ 32 → be32_value ((([0x52, 0x47, 0x42, 0x41, 0, 0, 0, 1, 0, 0, 0, 2, 1, 2, 3, 4,
          5, 6, 7, 8] : List Byte).drop 4).take 4) = 1)
      ∧ (2 < 2 ^ 32 → be32_value ((([0x52, 0x47, 0x42, 0x41, 0, 0, 0, 1, 0, 0, 0, 2, 1, 2, 3, 4,
          5, 6, 7, 8] : List Byte).drop 8).take 4) = 2) :=
  C3_encode_header 64 (fun _ => 0) (some [1, 2, 3, 4, 5, 6, 7, 8]) 1 2 0 RGBA true
    [0x52, 0x47, 0x42, 0x41, 0, 0, 0, 1, 0, 0, 0, 2, 1, 2, 3, 4, 5, 6, 7, 8] (some 20)
    (by decide)

/-- C3 (counterexample): with 64-bit `unsigned long`, encoding a `2^32` by 1 RGBA
bitmap (a packed buffer of `2^34` bytes) succeeds, and bytes 4..7 of the file are all
zero: the header's width is 0, not the width `2^32` passed in. -/
theorem C3_counterexample :
    ∃ f, rgba_encode_bitmap_to_file_data 64 (fun _ => 0) (some (List.replicate (2 ^ 34) 0))
          (2 ^ 32) 1 0 RGBA true = Exec.returned ⟨some f, some (12 + 2 ^ 34)⟩
      ∧ (f.drop 4).take 4 = [0, 0, 0, 0]
      ∧ be32_value ((f.drop 4).take 4) ≠ 2 ^ 32 := by
  obtain ⟨f, hf, _, hd, _⟩ := encode_spec 64 (fun _ => 0) (List.replicate (2 ^ 34) 0)
    (2 ^ 32) 1 0 RGBA (by decide) (by decide) (Or.inl rfl)
    (by rw [List.length_replicate]; decide) (by rw [List.length_replicate]; decide)
    (by decide)
  refine ⟨f, hf, ?_⟩
  obtain ⟨_, h2, _⟩ := header_fields hd
  rw [h2]
  decide

/-- C4 (amended): with a non-null output-size pointer the encoder returns `NULL`
exactly when the source buffer is null, the width is 0, the height is 0, or the stride is
non-zero and smaller than `width × pixel size` as computed in `size_t` arithmetic, that is
modulo `2^wb`. -/
theorem C4_encode_null_iff (wb : Nat) (heap : Nat → Byte) (input : Option (List Byte))
    (w h stride : Nat) (fmt : bitmap_buffer_format) :
    (∃ n, rgba_encode_bitmap_to_file_data wb heap input w h stride fmt true
        = Exec.returned ⟨none, n⟩)
      ↔ (input = none ∨ w = 0 ∨ h = 0
          ∨ (stride ≠ 0 ∧ stride < (pixel_size fmt * w) % 2 ^ wb)) := by
  cases input with
  | none => simp [rgba_encode_bitmap_to_file_data]
  | some inp =>
    unfold rgba_encode_bitmap_to_file_data
    simp only [Bool.true_eq_false, false_or, reduceCtorEq]
    by_cases c1 : w = 0 ∨ h = 0
    · rw [if_pos c1]
      constructor
      · intro _; rcases c1 with c | c
        · exact Or.inl c
        · exact Or.inr (Or.inl c)
      · intro _; exact ⟨none, rfl⟩
    rw [if_neg c1]
    by_cases c2 : stride ≠ 0 ∧ stride < umul wb (pixel_size fmt) w
    · rw [if_pos c2]
      constructor
      · intro _; exact Or.inr (Or.inr c2)
      · intro _; exact ⟨none, rfl⟩
    rw [if_neg c2]
    constructor
    · rintro ⟨n, hn⟩
      exfalso
      revert hn
      generalize (do
        let f ← WRITE_BIG_ENDIAN_UINT32 (malloc heap (uadd wb 12 (umul wb (umul wb w h) 4))) 0
          RGBA_BITMAP_MAGIC_NUMBER
        let f ← WRITE_BIG_ENDIAN_UINT32 f 4 w
        let f ← WRITE_BIG_ENDIAN_UINT32 f 8 h
        if fmt = RGBA ∧ (if stride = 0 then umul wb (pixel_size fmt) w else stride)
            = umul wb w 4 then
          memcpy f 12 inp 0 (umul wb (umul wb w h) 4)
        else
          (forLoop (encode_row wb fmt inp w
              (if stride = 0 then umul wb (pixel_size fmt) w else stride)) h 0
            ⟨0, 12, f⟩).map (fun s => s.rgba_file) : Option (List Byte)) = written
      cases written <;> simp
    · rintro (c | c | c)
      · exact absurd (Or.inl c) c1
      · exact absurd (Or.inr c) c1
      · exact absurd c c2

/-- C4 (counterexample): with 64-bit `size_t`, width `2^62 + 1`, layout RGBA and stride 4
the product `width × 4` wraps to 4; the stride, although non-zero and smaller than
`width × 4`, is accepted and the call returns a 16-byte file instead of `NULL`. -/
theorem C4_counterexample :
    rgba_encode_bitmap_to_file_data 64 (fun _ => 0) (some [1, 2, 3, 4]) (2 ^ 62 + 1) 1 4
        RGBA true
      = Exec.returned ⟨some [0x52, 0x47, 0x42, 0x41, 0, 0, 0, 1, 0, 0, 0, 1, 1, 2, 3, 4],
          some 16⟩
    ∧ (4 ≠ 0 ∧ 4 < (2 ^ 62 + 1) * 4) := by
  decide

/-- C5: with valid output pointers, decoding returns `NULL` for every length below 12,
and for every buffer of at least 12 bytes whose first four bytes are not
0x52, 0x47, 0x42, 0x41, whatever the layout and the alignment. -/
theorem C5_decode_rejects_header (wb : Nat) (heap : Nat → Byte) (data : List Byte)
    (len : Nat) (fmt : bitmap_buffer_format) (a : Nat) (hwb : 32 ≤ wb)
    (h : len < 12 ∨ (12 ≤ len ∧ len ≤ data.length ∧ data.take 4 ≠ [0x52, 0x47, 0x42, 0x41])) :
    rgba_decode_file_data_to_bitmap wb heap (some data) len fmt a true true true
      = Exec.returned ⟨none, none, none, some 0⟩ := by
  unfold rgba_decode_file_data_to_bitmap
  simp only [Bool.true_eq_false, or_self, if_false]
  rcases h with h | ⟨h12, hlen, hne⟩
  · rw [if_pos h]
  · rw [if_neg (by omega)]
    rcases data with _ | ⟨b0, _ | ⟨b1, _ | ⟨b2, _ | ⟨b3, rest⟩⟩⟩⟩
    · simp at hlen; omega
    · simp at hlen; omega
    · simp at hlen; omega
    · simp at hlen; omega
    · rw [READ_BIG_ENDIAN_UINT32_eq _ 0 b0 b1 b2 b3 (by simp) (by simp) (by simp) (by simp)]
      simp only []
      by_cases hm : to_unsigned wb (to_int (b0.val * 2 ^ 24 + b1.val * 2 ^ 16 + b2.val * 2 ^ 8
          + b3.val)) = RGBA_BITMAP_MAGIC_NUMBER
      · exfalso
        have := to_unsigned_to_int_eq_magic wb _ hwb (by omega) hm
        have hM : RGBA_BITMAP_MAGIC_NUMBER = 1380401729 := rfl
        rw [hM] at this
        apply hne
        have e0 : b0 = 0x52 := Fin.ext (by show b0.val = 82; omega)
        have e1 : b1 = 0x47 := Fin.ext (by show b1.val = 71; omega)
        have e2 : b2 = 0x42 := Fin.ext (by show b2.val = 66; omega)
        have e3 : b3 = 0x41 := Fin.ext (by show b3.val = 65; omega)
        rw [e0, e1, e2, e3]
        rfl
      · rw [if_pos hm]

/-- C5, instance: a 16-byte buffer whose fourth byte is 0x40. -/
theorem C5_decode_rejects_header_witness :
    rgba_decode_file_data_to_bitmap 64 (fun _ => 0)
        (some [0x52, 0x47, 0x42, 0x40, 0, 0, 0, 1, 0, 0, 0, 1, 9, 9, 9, 9]) 16 ABGR 4
        true true true
      = Exec.returned ⟨none, none, none, some 0⟩ :=
  C5_decode_rejects_header 64 (fun _ => 0)
    [0x52, 0x47, 0x42, 0x40, 0, 0, 0, 1, 0, 0, 0, 1, 9, 9, 9, 9] 16 ABGR 4 (by decide)
    (Or.inr ⟨by decide, by decide, by decide⟩)

/-- C6 (failing inputs): a file whose declared `width × height × 4` exceeds the bytes
after the header is accepted when the size computation wraps.  With 32-bit
`unsigned long`, a 16-byte file declaring 1073741825 × 1 pixels decodes to a 4-byte
bitmap; with 64-bit `unsigned long`, a 12-byte file with width and height bytes
`80 00 00 00` is accepted too. -/
theorem C6_decode_accepts_wrapped_size :
    rgba_decode_file_data_to_bitmap 32 (fun _ => 0)
        (some [0x52, 0x47, 0x42, 0x41, 0x40, 0, 0, 1, 0, 0, 0, 1, 9, 8, 7, 6]) 16 RGBA 0
        true true true
      = Exec.returned ⟨some [9, 8, 7, 6], some 1073741825, some 1, some 4⟩
    ∧ 16 - 12 < 1073741825 * 1 * 4
    ∧ rgba_decode_file_data_to_bitmap 64 (fun _ => 0)
        (some [0x52, 0x47, 0x42, 0x41, 0x80, 0, 0, 0, 0x80, 0, 0, 0]) 12 RGBA 0
        true true true
      = Exec.returned ⟨some [], some 18446744071562067968, some 18446744071562067968, some 0⟩ := by
  decide

/-- C7: for every positive width and height whose file size is representable and every
logical image of `width × height` pixels, the packed RGBA, BGRA, ARGB and ABGR
serialisations of the image, each encoded with its own layout tag and stride 0, give the
same file bytes (and the same reported size). -/
theorem C7_layout_equivalence (wb : Nat) (heap1 heap2 heap3 heap4 : Nat → Byte)
    (img : List (Byte × Byte × Byte × Byte)) (w h : Nat) (hw : 0 < w) (hh : 0 < h)
    (himg : img.length = w * h) (hfit : 12 + w * h * 4 < 2 ^ wb) :
    ∃ f, rgba_encode_bitmap_to_file_data wb heap1 (some (serialize RGBA img)) w h 0 RGBA true
          = Exec.returned ⟨some f, some (12 + w * h * 4)⟩
      ∧ rgba_encode_bitmap_to_file_data wb heap2 (some (serialize BGRA img)) w h 0 BGRA true
          = Exec.returned ⟨some f, some (12 + w * h * 4)⟩
      ∧ rgba_encode_bitmap_to_file_data wb heap3 (some (serialize ARGB img)) w h 0 ARGB true
          = Exec.returned ⟨some f, some (12 + w * h * 4)⟩
      ∧ rgba_encode_bitmap_to_file_data wb heap4 (some (serialize ABGR img)) w h 0 ABGR true
          = Exec.returned ⟨some f, some (12 + w * h * 4)⟩ :=
  ⟨file_header w h ++ serialize RGBA img,
    encode_serialized wb heap1 RGBA img w h rfl hw hh himg hfit,
    encode_serialized wb heap2 BGRA img w h rfl hw hh himg hfit,
    encode_serialized wb heap3 ARGB img w h rfl hw hh himg hfit,
    encode_serialized wb heap4 ABGR img w h rfl hw hh himg hfit⟩

/-- C7, instance: a 2 × 1 image on a 64-bit platform. -/
theorem C7_layout_equivalence_witness :
    ∃ f, rgba_encode_bitmap_to_file_data 64 (fun _ => 0)
          (some (serialize RGBA [(1, 2, 3, 4), (5, 6, 7, 8)])) 2 1 0 RGBA true
          = Exec.returned ⟨some f, some (12 + 2 * 1 * 4)⟩
      ∧ rgba_encode_bitmap_to_file_data 64 (fun _ => 1)
          (some (serialize BGRA [(1, 2, 3, 4), (5, 6, 7, 8)])) 2 1 0 BGRA true
          = Exec.returned ⟨some f, some (12 + 2 * 1 * 4)⟩
      ∧ rgba_encode_bitmap_to_file_data 64 (fun _ => 2)
          (some (serialize ARGB [(1, 2, 3, 4), (5, 6, 7, 8)])) 2 1 0 ARGB true
          = Exec.returned ⟨some f, some (12 + 2 * 1 * 4)⟩
      ∧ rgba_encode_bitmap_to_file_data 64 (fun _ => 3)
          (some (serialize ABGR [(1, 2, 3, 4), (5, 6, 7, 8)])) 2 1 0 ABGR true
          = Exec.returned ⟨some f, some (12 + 2 * 1 * 4)⟩ :=
  C7_layout_equivalence 64 (fun _ => 0) (fun _ => 1) (fun _ => 2) (fun _ => 3)
    [(1, 2, 3, 4), (5, 6, 7, 8)] 2 1 (by decide) (by decide) (by decide) (by decide)

/-- C8: on every successful encode of an RGB or BGR source whose buffer holds the
`height` rows at the effective stride, every pixel `i < width*height` of the output has
alpha byte `12 + 4*i + 3` equal to 0xFF, and its bytes `12 + 4*i`, `+1`, `+2` are the R, G
and B of source pixel `(i mod width, i div width)`: source bytes `+0, +1, +2` of that pixel
for RGB and `+2, +1, +0` for BGR. -/
theorem C8_alpha_defaulting (wb : Nat) (heap : Nat → Byte) (input : List Byte)
    (w h stride : Nat) (fmt : bitmap_buffer_format) (ps : Bool) (f : List Byte)
    (n : Option Nat) (hfmt : fmt = RGB ∨ fmt = BGR)
    (hs : rgba_encode_bitmap_to_file_data wb heap (some input) w h stride fmt ps
      = Exec.returned ⟨some f, n⟩)
    (hbuf : (h - 1) * effective_row_size fmt w stride + w * 3 ≤ input.length)
    (hlen : input.length < 2 ^ wb) :
    ∀ i, i < w * h →
      f[12 + 4 * i + 3]? = some 0xFF
      ∧ (fmt = RGB →
          f[12 + 4 * i]? = input[i / w * effective_row_size fmt w stride + i % w * 3]?
          ∧ f[12 + 4 * i + 1]? = input[i / w * effective_row_size fmt w stride + i % w * 3 + 1]?
          ∧ f[12 + 4 * i + 2]? = input[i / w * effective_row_size fmt w stride + i % w * 3 + 2]?)
      ∧ (fmt = BGR →
          f[12 + 4 * i]? = input[i / w * effective_row_size fmt w stride + i % w * 3 + 2]?
          ∧ f[12 + 4 * i + 1]? = input[i / w * effective_row_size fmt w stride + i % w * 3 + 1]?
          ∧ f[12 + 4 * i + 2]? = input[i / w * effective_row_size fmt w stride + i % w * 3]?) := by
  have hps : pixel_size fmt = 3 := by rcases hfmt with rfl | rfl <;> rfl
  obtain ⟨hw, hh, hpt, _, hchk, _, hl, _, hslow⟩ :=
    encode_success wb heap (some input) w h stride fmt ps f n hs
  subst hpt
  have hw3 : w * 3 ≤ input.length := by omega
  have e1 : umul wb (pixel_size fmt) w = w * 3 := by
    rw [hps, umul_eq (by omega), Nat.mul_comm]
  rw [e1] at hchk
  have hfit : 12 + w * h * 4 < 2 ^ wb := by
    have h1 := hslow (by rintro ⟨rfl, _⟩; simp [pixel_size] at hps)
    have h2 : uadd wb 12 (umul wb (umul wb w h) 4) < 2 ^ wb :=
      Nat.mod_lt _ (Nat.pow_pos (by omega))
    have : h * w = w * h := Nat.mul_comm h w
    omega
  obtain ⟨f', hf', _, _, hp⟩ := encode_spec wb heap input w h stride fmt hw hh
    (by rw [hps]; by_cases h0 : stride = 0
        · exact Or.inl h0
        · exact Or.inr (by omega))
    (by rw [hps]; exact hbuf) hlen hfit
  rw [hs] at hf'
  simp only [Exec.returned.injEq, encode_out.mk.injEq, Option.some.injEq] at hf'
  obtain ⟨rfl, _⟩ := hf'
  intro i hi
  have hy : i / w < h := by rw [Nat.div_lt_iff_lt_mul hw, Nat.mul_comm]; exact hi
  have hx : i % w < w := Nat.mod_lt _ hw
  have hdm : i / w * w + i % w = i := by
    have := Nat.div_add_mod i w
    rw [Nat.mul_comm] at this; exact this
  have hrowle := mul_le_of_lt_pred (s := effective_row_size fmt w stride) hy
  have key : ∀ k, k < 4 → f[12 + 4 * i + k]? = some (source_channel fmt input
      (i / w * effective_row_size fmt w stride + i % w * 3) k) := by
    intro k hk
    have := hp (i / w) (i % w) k hy hx hk
    rwa [hdm, hps] at this
  have k0 := key 0 (by omega)
  have k1 := key 1 (by omega)
  have k2 := key 2 (by omega)
  have k3 := key 3 (by omega)
  rw [Nat.add_zero] at k0
  refine ⟨?_, ?_, ?_⟩
  · rw [k3]; simp [source_channel, hps]
  · rintro rfl
    rw [k0, k1, k2]
    simp only [source_channel, channel_offset, hps, show ¬ ((0 : Nat) = 3 ∧ 3 = 3) by omega,
      show ¬ ((1 : Nat) = 3 ∧ 3 = 3) by omega, show ¬ ((2 : Nat) = 3 ∧ 3 = 3) by omega,
      if_false, Nat.add_zero]
    exact ⟨some_getD_getElem? _ _ (by omega), some_getD_getElem? _ _ (by omega),
      some_getD_getElem? _ _ (by omega)⟩
  · rintro rfl
    rw [k0, k1, k2]
    simp only [source_channel, channel_offset, hps, show ¬ ((0 : Nat) = 3 ∧ 3 = 3) by omega,
      show ¬ ((1 : Nat) = 3 ∧ 3 = 3) by omega, show ¬ ((2 : Nat) = 3 ∧ 3 = 3) by omega,
      if_false, Nat.add_zero]
    exact ⟨some_getD_getElem? _ _ (by omega), some_getD_getElem? _ _ (by omega),
      some_getD_getElem? _ _ (by omega)⟩

/-- C8, instance: pixel 3 of a 2 × 2 BGR image with stride 7 on a 64-bit platform. -/
theorem C8_alpha_defaulting_witness :
    3 < 2 * 2
      ∧ ([0x52, 0x47, 0x42, 0x41, 0, 0, 0, 2, 0, 0, 0, 2, 3, 2, 1, 255, 6, 5, 4, 255,
          9, 8, 7, 255, 12, 11, 10, 255] : List Byte)[12 + 4 * 3 + 3]? = some 0xFF
      ∧ (BGR = RGB →
          ([0x52, 0x47, 0x42, 0x41, 0, 0, 0, 2, 0, 0, 0, 2, 3, 2, 1, 255, 6, 5, 4, 255,
          9, 8, 7, 255, 12, 11, 10, 255] : List Byte)[12 + 4 * 3]?
            = ([1, 2, 3, 4, 5, 6, 99, 7, 8, 9, 10, 11, 12] : List Byte)[3 / 2 * effective_row_size BGR 2 7 + 3 % 2 * 3]?
          ∧ ([0x52, 0x47, 0x42, 0x41, 0, 0, 0, 2, 0, 0, 0, 2, 3, 2, 1, 255, 6, 5, 4, 255,
          9, 8, 7, 255, 12, 11, 10, 255] : List Byte)[12 + 4 * 3 + 1]?
            = ([1, 2, 3, 4, 5, 6, 99, 7, 8, 9, 10, 11, 12] : List Byte)[3 / 2 * effective_row_size BGR 2 7 + 3 % 2 * 3 + 1]?
          ∧ ([0x52, 0x47, 0x42, 0x41, 0, 0, 0, 2, 0, 0, 0, 2, 3, 2, 1, 255, 6, 5, 4, 255,
          9, 8, 7, 255, 12, 11, 10, 255] : List Byte)[12 + 4 * 3 + 2]?
            = ([1, 2, 3, 4, 5, 6, 99, 7, 8, 9, 10, 11, 12] : List Byte)[3 / 2 * effective_row_size BGR 2 7 + 3 % 2 * 3 + 2]?)
      ∧ (BGR = BGR →
          ([0x52, 0x47, 0x42, 0x41, 0, 0, 0, 2, 0, 0, 0, 2, 3, 2, 1, 255, 6, 5, 4, 255,
          9, 8, 7, 255, 12, 11, 10, 255] : List Byte)[12 + 4 * 3]?
            = ([1, 2, 3, 4, 5, 6, 99, 7, 8, 9, 10, 11, 12] : List Byte)[3 / 2 * effective_row_size BGR 2 7 + 3 % 2 * 3 + 2]?
          ∧ ([0x52, 0x47, 0x42, 0x41, 0, 0, 0, 2, 0, 0, 0, 2, 3, 2, 1, 255, 6, 5, 4, 255,
          9, 8, 7, 255, 12, 11, 10, 255] : List Byte)[12 + 4 * 3 + 1]?
            = ([1, 2, 3, 4, 5, 6, 99, 7, 8, 9, 10, 11, 12] : List Byte)[3 / 2 * effective_row_size BGR 2 7 + 3 % 2 * 3 + 1]?
          ∧ ([0x52, 0x47, 0x42, 0x41, 0, 0, 0, 2, 0, 0, 0, 2, 3, 2, 1, 255, 6, 5, 4, 255,
          9, 8, 7, 255, 12, 11, 10, 255] : List Byte)[12 + 4 * 3 + 2]?
            = ([1, 2, 3, 4, 5, 6, 99, 7, 8, 9, 10, 11, 12] : List Byte)[3 / 2 * effective_row_size BGR 2 7 + 3 % 2 * 3]?) :=
  ⟨by decide,
    C8_alpha_defaulting 64 (fun _ => 0) [1, 2, 3, 4, 5, 6, 99, 7, 8, 9, 10, 11, 12] 2 2 7 BGR
      true [0x52, 0x47, 0x42, 0x41, 0, 0, 0, 2, 0, 0, 0, 2, 3, 2, 1, 255, 6, 5, 4, 255,
        9, 8, 7, 255, 12, 11, 10, 255] (some 28) (Or.inr rfl) (by decide) (by decide)
      (by decide) 3 (by decide)⟩

/-- C9 (amended): take a well-formed file (header of `W × H`, at least `12 + W*H*4`
bytes) whose dimensions are below `2^31` (below `2^32` where `unsigned long` has 32
bits), any target layout and an alignment `a > 1` such that the remainder of the minimum
row size by `a` fits an `int` and that the aligned row size `S` and `S × H` are
representable.  Then `S` is the smallest multiple of `a` that is at least
`W × pixel size`, decoding yields a bitmap of `S × H` bytes (and reports that size), and
every byte `j < W × pixel size` of every row `y` equals the byte at
`y × (W × pixel size) + j` of the alignment-0 decode of the same file and layout. -/
theorem C9_alignment (wb : Nat) (heap heap0 : Nat → Byte) (data : List Byte)
    (fmt : bitmap_buffer_format) (a W H : Nat) (hwb : 32 ≤ wb)
    (hhdr : data.take 12 = file_header W H)
    (hW : W < 2 ^ 31 ∨ (wb = 32 ∧ W < 2 ^ 32)) (hH : H < 2 ^ 31 ∨ (wb = 32 ∧ H < 2 ^ 32))
    (hL : 12 + W * H * 4 ≤ data.length) (hLw : data.length < 2 ^ wb)
    (ha : 1 < a) (ha32 : a < 2 ^ 32)
    (hr : (W * pixel_size fmt) % a < 2 ^ 31)
    (hrow : aligned_row_size (W * pixel_size fmt) a < 2 ^ wb)
    (hfit : aligned_row_size (W * pixel_size fmt) a * H < 2 ^ wb) :
    (a ∣ aligned_row_size (W * pixel_size fmt) a
      ∧ W * pixel_size fmt ≤ aligned_row_size (W * pixel_size fmt) a
      ∧ ∀ T, a ∣ T → W * pixel_size fmt ≤ T → aligned_row_size (W * pixel_size fmt) a ≤ T)
    ∧ ∃ m m0,
        rgba_decode_file_data_to_bitmap wb heap (some data) data.length fmt a true true true
          = Exec.returned ⟨some m, some W, some H,
              some (aligned_row_size (W * pixel_size fmt) a * H)⟩
        ∧ m.length = aligned_row_size (W * pixel_size fmt) a * H
        ∧ rgba_decode_file_data_to_bitmap wb heap0 (some data) data.length fmt 0 true true true
          = Exec.returned ⟨some m0, some W, some H, some (W * pixel_size fmt * H)⟩
        ∧ ∀ y j, y < H → j < W * pixel_size fmt →
            m[y * aligned_row_size (W * pixel_size fmt) a + j]?
              = m0[y * (W * pixel_size fmt) + j]? := by
  obtain ⟨hp0, hp4⟩ := pixel_size_le fmt
  have hspec := aligned_row_size_spec (W * pixel_size fmt) a (by omega)
  have hd : ∀ i, i < 12 → data[i]? = (file_header W H)[i]? := by
    intro i hi
    rw [← hhdr, List.getElem?_take_of_lt hi]
  have hWp : W * pixel_size fmt ≤ W * 4 := Nat.mul_le_mul_left W hp4
  have hWpH : W * pixel_size fmt * H ≤ W * H * 4 := by
    have := Nat.mul_le_mul_right H hWp
    have e : W * 4 * H = W * H * 4 := by ring
    omega
  have hSa := decode_output_row_size_aligned wb W (pixel_size fmt) a ha ha32 hr hrow
  have hS0 := decode_output_row_size_packed wb W (pixel_size fmt) 0 (by omega)
    (by have := hspec.2.1; omega)
  obtain ⟨m, hm, lm, gm⟩ := decode_spec wb heap data data.length fmt a W H hwb hd hW hH hL
    (le_refl _) hLw (by rw [hSa]; exact hspec.2.1) (by rw [hSa]; exact hfit)
  obtain ⟨m0, hm0, _, gm0⟩ := decode_spec wb heap0 data data.length fmt 0 W H hwb hd hW hH hL
    (le_refl _) hLw (by rw [hS0]) (by rw [hS0]; omega)
  rw [hSa] at hm lm gm
  rw [hS0] at hm0 gm0
  refine ⟨hspec, m, m0, hm, lm, hm0, ?_⟩
  intro y j hy hj
  have hx : j / pixel_size fmt < W := by
    rw [Nat.div_lt_iff_lt_mul hp0]; exact hj
  obtain ⟨k, hk, hc, hoff⟩ := channel_offset_surj fmt (j % pixel_size fmt) (Nat.mod_lt _ hp0)
  have hj' : j = j / pixel_size fmt * pixel_size fmt + channel_offset fmt k := by
    rw [hoff]
    have := Nat.div_add_mod j (pixel_size fmt)
    rw [Nat.mul_comm] at this
    omega
  have g1 := gm y (j / pixel_size fmt) k hy hx hk hc
  have g2 := gm0 y (j / pixel_size fmt) k hy hx hk hc
  rw [Nat.add_assoc, ← hj'] at g1 g2
  rw [g1, g2]

/-- C9, instance: the 20-byte file of a 1 × 2 image decoded to BGR with alignment 4. -/
theorem C9_alignment_witness :
    (4 ∣ aligned_row_size (1 * pixel_size BGR) 4
      ∧ 1 * pixel_size BGR ≤ aligned_row_size (1 * pixel_size BGR) 4
      ∧ ∀ T, 4 ∣ T → 1 * pixel_size BGR ≤ T → aligned_row_size (1 * pixel_size BGR) 4 ≤ T)
    ∧ ∃ m m0,
        rgba_decode_file_data_to_bitmap 64 (fun _ => 0)
            (some [0x52, 0x47, 0x42, 0x41, 0, 0, 0, 1, 0, 0, 0, 2, 1, 2, 3, 4, 5, 6, 7, 8])
            ([0x52, 0x47, 0x42, 0x41, 0, 0, 0, 1, 0, 0, 0, 2, 1, 2, 3, 4, 5, 6, 7, 8] :
              List Byte).length BGR 4 true true true
          = Exec.returned ⟨some m, some 1, some 2,
              some (aligned_row_size (1 * pixel_size BGR) 4 * 2)⟩
        ∧ m.length = aligned_row_size (1 * pixel_size BGR) 4 * 2
        ∧ rgba_decode_file_data_to_bitmap 64 (fun _ => 7)
            (some [0x52, 0x47, 0x42, 0x41, 0, 0, 0, 1, 0, 0, 0, 2, 1, 2, 3, 4, 5, 6, 7, 8])
            ([0x52, 0x47, 0x42, 0x41, 0, 0, 0, 1, 0, 0, 0, 2, 1, 2, 3, 4, 5, 6, 7, 8] :
              List Byte).length BGR 0 true true true
          = Exec.returned ⟨some m0, some 1, some 2, some (1 * pixel_size BGR * 2)⟩
        ∧ ∀ y j, y < 2 → j < 1 * pixel_size BGR →
            m[y * aligned_row_size (1 * pixel_size BGR) 4 + j]?
              = m0[y * (1 * pixel_size BGR) + j]? :=
  C9_alignment 64 (fun _ => 0) (fun _ => 7)
    [0x52, 0x47, 0x42, 0x41, 0, 0, 0, 1, 0, 0, 0, 2, 1, 2, 3, 4, 5, 6, 7, 8] BGR 4 1 2
    (by decide) (by decide) (Or.inl (by decide)) (Or.inl (by decide)) (by decide) (by decide)
    (by decide) (by decide) (by decide) (by decide) (by decide)

/-- C9 (counterexample): with 32-bit `size_t`, the 20-byte file of a 1 × 2 image decoded
to RGBA with alignment `2^31` has row size `2^31`, so the bitmap size `2^31 × 2` wraps to
0; the block is empty and the first pixel is written outside it: the call has undefined
behaviour instead of yielding a bitmap of `S × height` bytes. -/
theorem C9_counterexample :
    rgba_decode_file_data_to_bitmap 32 (fun _ => 0)
        (some [0x52, 0x47, 0x42, 0x41, 0, 0, 0, 1, 0, 0, 0, 2, 1, 2, 3, 4, 5, 6, 7, 8]) 20
        RGBA (2 ^ 31) true true true = Exec.undefined := by
  decide

/-- C10: on every platform of the model (`unsigned long` of at least 32 bits, any
contents of the allocated block) encoding the 2×1 RGB image 10,20,30,40,50,60 with
stride 0 returns the 20 bytes 52 47 42 41 00 00 00 02 00 00 00 01 0A 14 1E FF 28 32 3C FF
and reports size 20. -/
theorem C10_concrete_scenario (wb : Nat) (heap : Nat → Byte) (hwb : 32 ≤ wb) :
    rgba_encode_bitmap_to_file_data wb heap (some [10, 20, 30, 40, 50, 60]) 2 1 0 RGB true
      = Exec.returned ⟨some [0x52, 0x47, 0x42, 0x41, 0x00, 0x00, 0x00, 0x02,
          0x00, 0x00, 0x00, 0x01, 0x0A, 0x14, 0x1E, 0xFF, 0x28, 0x32, 0x3C, 0xFF], some 20⟩ := by
  have hpow : (2 : Nat) ^ 32 ≤ 2 ^ wb := Nat.pow_le_pow_right (by omega) hwb
  obtain ⟨f, hf, hl, hd, hp⟩ := encode_spec wb heap [10, 20, 30, 40, 50, 60] 2 1 0 RGB
    (by decide) (by decide) (Or.inl rfl) (by decide)
    (by simp only [List.length_cons, List.length_nil]; omega) (by omega)
  rw [hf]
  have hfe : f = [0x52, 0x47, 0x42, 0x41, 0x00, 0x00, 0x00, 0x02,
      0x00, 0x00, 0x00, 0x01, 0x0A, 0x14, 0x1E, 0xFF, 0x28, 0x32, 0x3C, 0xFF] := by
    apply List.ext_getElem?
    intro i
    by_cases hi : i < 12
    · rw [hd i hi]
      interval_cases i <;> rfl
    · by_cases hi2 : i < 20
      · have key : ∀ x k, x < 2 → k < 4 → f[12 + 4 * x + k]?
            = some (source_channel RGB [10, 20, 30, 40, 50, 60] (x * 3) k) := by
          intro x k hx hk
          have := hp 0 x k (by omega) hx hk
          simpa [pixel_size] using this
        have h0 := key ((i - 12) / 4) ((i - 12) % 4) (by omega) (by omega)
        rw [show 12 + 4 * ((i - 12) / 4) + (i - 12) % 4 = i by omega] at h0
        rw [h0]
        interval_cases i <;> rfl
      · rw [List.getElem?_eq_none (by omega), List.getElem?_eq_none (by simp; omega)]
  rw [hfe]

/-- C10, instance: a 64-bit platform with a zeroed heap. -/
theorem C10_concrete_scenario_witness :
    rgba_encode_bitmap_to_file_data 64 (fun _ => 0) (some [10, 20, 30, 40, 50, 60]) 2 1 0 RGB
        true
      = Exec.returned ⟨some [0x52, 0x47, 0x42, 0x41, 0x00, 0x00, 0x00, 0x02,
          0x00, 0x00, 0x00, 0x01, 0x0A, 0x14, 0x1E, 0xFF, 0x28, 0x32, 0x3C, 0xFF], some 20⟩ :=
  C10_concrete_scenario 64 (fun _ => 0) (by decide)

/-! ## Lemmas for the remaining claims -/

/-- Wrong magic: the decoder returns `NULL` after storing 0 in `*p_output_size`. -/
theorem decode_wrong_magic (wb : Nat) (heap : Nat → Byte) (data : List Byte)
    (len : Nat) (fmt : bitmap_buffer_format) (a : Nat) (hwb : 32 ≤ wb)
    (h12 : 12 ≤ len) (hlen : len ≤ data.length)
    (hne : data.take 4 ≠ [0x52, 0x47, 0x42, 0x41]) :
    rgba_decode_file_data_to_bitmap wb heap (some data) len fmt a true true true
      = Exec.returned ⟨none, none, none, some 0⟩ := by
  unfold rgba_decode_file_data_to_bitmap
  simp only [Bool.true_eq_false, or_self, if_false]
  rw [if_neg (by omega)]
  rcases data with _ | ⟨b0, _ | ⟨b1, _ | ⟨b2, _ | ⟨b3, rest⟩⟩⟩⟩
  · simp at hlen; omega
  · simp at hlen; omega
  · simp at hlen; omega
  · simp at hlen; omega
  · rw [READ_BIG_ENDIAN_UINT32_eq _ 0 b0 b1 b2 b3 (by simp) (by simp) (by simp) (by simp)]
    simp only []
    by_cases hm : to_unsigned wb (to_int (b0.val * 2 ^ 24 + b1.val * 2 ^ 16 + b2.val * 2 ^ 8
        + b3.val)) = RGBA_BITMAP_MAGIC_NUMBER
    · exfalso
      have := to_unsigned_to_int_eq_magic wb _ hwb (by omega) hm
      have hM : RGBA_BITMAP_MAGIC_NUMBER = 1380401729 := rfl
      rw [hM] at this
      apply hne
      have e0 : b0 = 0x52 := Fin.ext (by show b0.val = 82; omega)
      have e1 : b1 = 0x47 := Fin.ext (by show b1.val = 71; omega)
      have e2 : b2 = 0x42 := Fin.ext (by show b2.val = 66; omega)
      have e3 : b3 = 0x41 := Fin.ext (by show b3.val = 65; omega)
      rw [e0, e1, e2, e3]
      rfl
    · rw [if_pos hm]

/-- The three header reads of the decoder on a buffer that starts with a header. -/
theorem read_header (data : List Byte) (W H : Nat)
    (hhdr : ∀ i, i < 12 → data[i]? = (file_header W H)[i]?) :
    READ_BIG_ENDIAN_UINT32 data 0 = some (to_int (RGBA_BITMAP_MAGIC_NUMBER % 2 ^ 32))
      ∧ READ_BIG_ENDIAN_UINT32 data 4 = some (to_int (W % 2 ^ 32))
      ∧ READ_BIG_ENDIAN_UINT32 data 8 = some (to_int (H % 2 ^ 32)) := by
  have hl4 : ∀ v, (be32 v).length = 4 := fun v => rfl
  refine ⟨?_, ?_, ?_⟩
  · apply READ_BIG_ENDIAN_UINT32_be32
    intro j hj
    rw [hhdr _ (by omega)]
    simp only [file_header, List.getElem?_append, hl4, List.length_append]
    rw [if_pos (by omega), if_pos (by omega), Nat.zero_add]
  · apply READ_BIG_ENDIAN_UINT32_be32
    intro j hj
    rw [hhdr _ (by omega)]
    simp only [file_header, List.getElem?_append, hl4, List.length_append]
    rw [if_pos (by omega), if_neg (by omega)]
    congr 1; omega
  · apply READ_BIG_ENDIAN_UINT32_be32
    intro j hj
    rw [hhdr _ (by omega)]
    simp only [file_header, List.getElem?_append, hl4, List.length_append]
    rw [if_neg (by omega)]
    congr 1; omega

/-- Truncated payload: the decoder returns `NULL` after storing 0 in `*p_output_size`. -/
theorem decode_truncated (wb : Nat) (heap : Nat → Byte) (data : List Byte)
    (len : Nat) (fmt : bitmap_buffer_format) (a W H : Nat) (hwb : 32 ≤ wb)
    (h12 : 12 ≤ len)
    (hhdr : ∀ i, i < 12 → data[i]? = (file_header W H)[i]?)
    (hW : W < 2 ^ 31 ∨ (wb = 32 ∧ W < 2 ^ 32)) (hH : H < 2 ^ 31 ∨ (wb = 32 ∧ H < 2 ^ 32))
    (hfit : 12 + W * H * 4 < 2 ^ wb) (hshort : len < 12 + W * H * 4) :
    rgba_decode_file_data_to_bitmap wb heap (some data) len fmt a true true true
      = Exec.returned ⟨none, none, none, some 0⟩ := by
  obtain ⟨hmagic, hrw, hrh⟩ := read_header data W H hhdr
  have hm := to_unsigned_to_int wb RGBA_BITMAP_MAGIC_NUMBER hwb (Or.inl (by decide))
  have hw := to_unsigned_to_int wb W hwb hW
  have hh := to_unsigned_to_int wb H hwb hH
  have e2 : umul wb (umul wb W H) 4 = W * H * 4 := by
    rw [@umul_eq wb W H (by omega), umul_eq (by omega)]
  have e3 : uadd wb 12 (W * H * 4) = 12 + W * H * 4 := uadd_eq (by omega)
  simp only [rgba_decode_file_data_to_bitmap, hmagic, hrw, hrh, hm, hw, hh, e2, e3, hshort,
    Bool.true_eq_false, or_self, show ¬ len < 12 by omega, if_false, if_true, ne_eq,
    not_true_eq_false]

theorem source_channel_congr (fmt : bitmap_buffer_format) (i1 i2 : List Byte) (p1 p2 k : Nat)
    (hk : k < 4) (h : ∀ j, j < pixel_size fmt → i1[p1 + j]? = i2[p2 + j]?) :
    source_channel fmt i1 p1 k = source_channel fmt i2 p2 k := by
  unfold source_channel
  by_cases hc : k = 3 ∧ pixel_size fmt = 3
  · rw [if_pos hc, if_pos hc]
  · rw [if_neg hc, if_neg hc]
    have hp := pixel_size_le fmt
    have hlt : channel_offset fmt k < pixel_size fmt := by
      apply channel_offset_lt fmt k hk
      by_cases h3 : k < 3
      · exact Or.inl h3
      · right
        have : k = 3 := by omega
        cases fmt <;> simp [pixel_size] at hc ⊢ <;> omega
    rw [h _ hlt]

/-- Two files of the same dimensions are equal when their headers and all their pixel
bytes are. -/
theorem file_ext (f1 f2 : List Byte) (w h : Nat) (hw : 0 < w)
    (l1 : f1.length = 12 + w * h * 4) (l2 : f2.length = 12 + w * h * 4)
    (hd : ∀ i, i < 12 → f1[i]? = f2[i]?)
    (hp : ∀ y x k, y < h → x < w → k < 4 →
      f1[12 + 4 * (y * w + x) + k]? = f2[12 + 4 * (y * w + x) + k]?) : f1 = f2 := by
  apply List.ext_getElem?
  intro i
  by_cases hi : i < 12
  · exact hd i hi
  · by_cases hi2 : i < 12 + w * h * 4
    · obtain ⟨y, x, k, hy, hx, hk, hik⟩ := index_decomp w h (i - 12) hw (by omega)
      have hi' : i = 12 + 4 * (y * w + x) + k := by omega
      rw [hi']
      exact hp y x k hy hx hk
    · rw [List.getElem?_eq_none (by omega), List.getElem?_eq_none (by omega)]

/-- Two encodes of the same dimensions and layout: both succeed, and an output pixel
depends only on the bytes of its own source pixel. -/
theorem encode_congr (wb : Nat) (heap1 heap2 : Nat → Byte) (input1 input2 : List Byte)
    (w h s1 s2 : Nat) (fmt : bitmap_buffer_format) (hw : 0 < w) (hh : 0 < h)
    (hs1 : s1 = 0 ∨ w * pixel_size fmt ≤ s1) (hs2 : s2 = 0 ∨ w * pixel_size fmt ≤ s2)
    (hbuf1 : (h - 1) * effective_row_size fmt w s1 + w * pixel_size fmt ≤ input1.length)
    (hbuf2 : (h - 1) * effective_row_size fmt w s2 + w * pixel_size fmt ≤ input2.length)
    (hlen1 : input1.length < 2 ^ wb) (hlen2 : input2.length < 2 ^ wb)
    (hfit : 12 + w * h * 4 < 2 ^ wb) :
    ∃ f1 f2, rgba_encode_bitmap_to_file_data wb heap1 (some input1) w h s1 fmt true
          = Exec.returned ⟨some f1, some (12 + w * h * 4)⟩
      ∧ rgba_encode_bitmap_to_file_data wb heap2 (some input2) w h s2 fmt true
          = Exec.returned ⟨some f2, some (12 + w * h * 4)⟩
      ∧ (∀ y x, y < h → x < w →
          (∀ j, j < pixel_size fmt →
            input1[y * effective_row_size fmt w s1 + x * pixel_size fmt + j]?
              = input2[y * effective_row_size fmt w s2 + x * pixel_size fmt + j]?) →
          ∀ k, k < 4 → f1[12 + 4 * (y * w + x) + k]? = f2[12 + 4 * (y * w + x) + k]?)
      ∧ ((∀ y j, y < h → j < w * pixel_size fmt →
            input1[y * effective_row_size fmt w s1 + j]?
              = input2[y * effective_row_size fmt w s2 + j]?) → f1 = f2) := by
  obtain ⟨f1, hf1, l1, d1, p1⟩ := encode_spec wb heap1 input1 w h s1 fmt hw hh hs1 hbuf1 hlen1 hfit
  obtain ⟨f2, hf2, l2, d2, p2⟩ := encode_spec wb heap2 input2 w h s2 fmt hw hh hs2 hbuf2 hlen2 hfit
  have hpix : ∀ y x, y < h → x < w →
      (∀ j, j < pixel_size fmt →
        input1[y * effective_row_size fmt w s1 + x * pixel_size fmt + j]?
          = input2[y * effective_row_size fmt w s2 + x * pixel_size fmt + j]?) →
      ∀ k, k < 4 → f1[12 + 4 * (y * w + x) + k]? = f2[12 + 4 * (y * w + x) + k]? := by
    intro y x hy hx hj k hk
    rw [p1 y x k hy hx hk, p2 y x k hy hx hk,
      source_channel_congr fmt input1 input2 _ _ k hk hj]
  refine ⟨f1, f2, hf1, hf2, hpix, ?_⟩
  intro hall
  apply file_ext f1 f2 w h hw l1 l2 (fun i hi => by rw [d1 i hi, d2 i hi])
  intro y x k hy hx hk
  apply hpix y x hy hx _ k hk
  intro j hj
  have hxp : x * pixel_size fmt + j < w * pixel_size fmt := by
    have := Nat.mul_le_mul_right (pixel_size fmt) (show x + 1 ≤ w by omega)
    rw [Nat.add_mul, Nat.one_mul] at this
    omega
  have := hall y (x * pixel_size fmt + j) hy hxp
  rwa [← Nat.add_assoc, ← Nat.add_assoc] at this

theorem effective_row_size_pos (fmt : bitmap_buffer_format) (w s : Nat) (h : s ≠ 0) :
    effective_row_size fmt w s = s := by
  simp [effective_row_size, h]

theorem effective_row_size_zero (fmt : bitmap_buffer_format) (w : Nat) :
    effective_row_size fmt w 0 = w * pixel_size fmt := by
  simp [effective_row_size]

theorem rows_total {h : Nat} (a : Nat) (hh : 0 < h) : (h - 1) * a + a = h * a := by
  obtain ⟨h', rfl⟩ : ∃ h', h = h' + 1 := ⟨h - 1, by omega⟩
  simp only [Nat.add_sub_cancel]; ring

theorem source_channel_rgba (buf : List Byte) (ip k : Nat)
    (h : ip + k < buf.length) : some (source_channel RGBA buf ip k) = buf[ip + k]? := by
  have hps : pixel_size RGBA = 4 := rfl
  simp only [source_channel, channel_offset, hps, show ¬ (k = 3 ∧ 4 = 3) by omega, if_false]
  exact some_getD_getElem? _ _ h

theorem pixel_index_lt {w h y x : Nat} (hy : y < h) (hx : x < w) : y * w + x < w * h := by
  have : y * w + w ≤ h * w := by
    have := Nat.mul_le_mul_right w (show y + 1 ≤ h by omega)
    rwa [Nat.add_mul, Nat.one_mul] at this
  rw [Nat.mul_comm w h]; omega

/-- Encoding a packed RGBA buffer with stride 0 or `width*4` yields the header followed
by the buffer. -/
theorem encode_rgba_packed (wb : Nat) (heap : Nat → Byte) (buf : List Byte) (w h s : Nat)
    (hw : 0 < w) (hh : 0 < h) (hs : s = 0 ∨ s = w * 4) (hbuf : buf.length = w * h * 4)
    (hfit : 12 + w * h * 4 < 2 ^ wb) :
    rgba_encode_bitmap_to_file_data wb heap (some buf) w h s RGBA true
      = Exec.returned ⟨some (file_header w h ++ buf), some (12 + w * h * 4)⟩ := by
  have hps : pixel_size RGBA = 4 := rfl
  have hrs : effective_row_size RGBA w s = w * 4 := by
    rcases hs with rfl | rfl
    · rfl
    · exact effective_row_size_pos _ _ _ (by omega)
  have hrow : (h - 1) * (w * 4) + w * 4 = w * h * 4 := by rw [rows_total _ hh]; ring
  obtain ⟨f, hf, hl, hd, hp⟩ := encode_spec wb heap buf w h s RGBA hw hh
    (by rcases hs with rfl | rfl
        · exact Or.inl rfl
        · exact Or.inr (le_refl _))
    (by rw [hrs, hps]; omega) (by omega) hfit
  rw [hf]
  have : f = file_header w h ++ buf := by
    apply file_ext f _ w h hw hl (by rw [List.length_append, length_file_header, hbuf])
    · intro i hi
      rw [hd i hi, List.getElem?_append_left (by rw [length_file_header]; exact hi)]
    · intro y x k hy hx hk
      have hq := pixel_index_lt hy hx
      rw [hp y x k hy hx hk, hrs, hps,
        List.getElem?_append_right (by rw [length_file_header]; omega), length_file_header]
      have e : y * (w * 4) + x * 4 = 4 * (y * w + x) := by ring
      rw [e, source_channel_rgba buf _ k (by omega)]
      congr 1; omega
  rw [this]

theorem source_channel_eq (fmt : bitmap_buffer_format) (buf : List Byte) (ip k : Nat)
    (hc : k < 3 ∨ pixel_size fmt = 4) (h : ip + channel_offset fmt k < buf.length) :
    some (source_channel fmt buf ip k) = buf[ip + channel_offset fmt k]? := by
  have hn : ¬ (k = 3 ∧ pixel_size fmt = 3) := by omega
  simp only [source_channel, hn, if_false]
  exact some_getD_getElem? _ _ h

theorem index_decomp_p (w h p i : Nat) (hw : 0 < w) (hp : 0 < p) (hi : i < w * h * p) :
    ∃ y x off, y < h ∧ x < w ∧ off < p ∧ i = (y * w + x) * p + off := by
  refine ⟨i / p / w, i / p % w, i % p, ?_, Nat.mod_lt _ hw, Nat.mod_lt _ hp, ?_⟩
  · rw [Nat.div_lt_iff_lt_mul hw, Nat.div_lt_iff_lt_mul hp, Nat.mul_comm h w]; exact hi
  · have h1 := Nat.div_add_mod (i / p) w
    rw [Nat.mul_comm w] at h1
    rw [h1]
    have h2 := Nat.div_add_mod i p
    rw [Nat.mul_comm p] at h2
    exact h2.symm

/-- Encode then decode with the same layout and a packed output gives the buffer back. -/
theorem round_trip_layout (wb : Nat) (heap heap2 : Nat → Byte) (fmt : bitmap_buffer_format)
    (w h a : Nat) (buf : List Byte) (hwb : 32 ≤ wb) (hw : 0 < w) (hh : 0 < h) (ha : a ≤ 1)
    (hW : w < 2 ^ 31 ∨ (wb = 32 ∧ w < 2 ^ 32)) (hH : h < 2 ^ 31 ∨ (wb = 32 ∧ h < 2 ^ 32))
    (hbuf : buf.length = w * h * pixel_size fmt) (hfit : 12 + w * h * 4 < 2 ^ wb) :
    ∃ f, rgba_encode_bitmap_to_file_data wb heap (some buf) w h 0 fmt true
          = Exec.returned ⟨some f, some (12 + w * h * 4)⟩
      ∧ rgba_decode_file_data_to_bitmap wb heap2 (some f) (12 + w * h * 4) fmt a
          true true true
          = Exec.returned ⟨some buf, some w, some h, some (w * h * pixel_size fmt)⟩ := by
  obtain ⟨hp0, hp4⟩ := pixel_size_le fmt
  have hrs := effective_row_size_zero fmt w
  have hrow : (h - 1) * (w * pixel_size fmt) + w * pixel_size fmt = w * h * pixel_size fmt := by
    rw [rows_total _ hh]; ring
  have hle : w * h * pixel_size fmt ≤ w * h * 4 := Nat.mul_le_mul_left _ hp4
  obtain ⟨f, hf, hl, hd, hp⟩ := encode_spec wb heap buf w h 0 fmt hw hh (Or.inl rfl)
    (by rw [hrs]; omega) (by omega) hfit
  have hwp : w * pixel_size fmt ≤ w * h * pixel_size fmt := mul_mul_le_of_pos _ hh
  have hS : decode_output_row_size wb w (pixel_size fmt) a = w * pixel_size fmt :=
    decode_output_row_size_packed wb w (pixel_size fmt) a ha (by omega)
  have e : w * pixel_size fmt * h = w * h * pixel_size fmt := by ring
  obtain ⟨m, hm, lm, gm⟩ := decode_spec wb heap2 f (12 + w * h * 4) fmt a w h hwb hd hW hH
    (le_refl _) (by omega) hfit (by rw [hS]) (by rw [hS, e]; omega)
  rw [hS] at hm lm gm
  rw [e] at hm lm
  refine ⟨f, hf, ?_⟩
  rw [hm]
  have hmb : m = buf := by
    apply List.ext_getElem?
    intro i
    by_cases hi : i < w * h * pixel_size fmt
    · obtain ⟨y, x, off, hy, hx, hoff, rfl⟩ := index_decomp_p w h (pixel_size fmt) i hw hp0 hi
      obtain ⟨k, hk, hc, rfl⟩ := channel_offset_surj fmt off hoff
      have g1 := gm y x k hy hx hk hc
      have e1 : y * (w * pixel_size fmt) + x * pixel_size fmt
          = (y * w + x) * pixel_size fmt := by ring
      rw [e1, hp y x k hy hx hk, hrs, e1] at g1
      rw [g1]
      exact source_channel_eq fmt buf _ k hc (by omega)
    · rw [List.getElem?_eq_none (by omega), List.getElem?_eq_none (by omega)]
  rw [hmb]

theorem decode_pixel_congr (fmt : bitmap_buffer_format) (d1 d2 : List Byte) (s : dec_state)
    (h : ∀ j, j < 4 → d1[s.in_ptr + j]? = d2[s.in_ptr + j]?) :
    decode_pixel fmt d1 s = decode_pixel fmt d2 s := by
  have h0 := h 0 (by omega)
  rw [Nat.add_zero] at h0
  simp only [decode_pixel, h0, h 1 (by omega), h 2 (by omega), h 3 (by omega)]

theorem decode_pixel_in_ptr (fmt : bitmap_buffer_format) (d : List Byte) (s s' : dec_state)
    (h : decode_pixel fmt d s = some s') : s'.in_ptr = s.in_ptr + 4 := by
  simp only [decode_pixel, bind, Option.bind_eq_some, pure, Option.some.injEq] at h
  obtain ⟨_, _, _, _, _, _, _, _, ⟨_, _⟩, _, rfl⟩ := h
  rfl

theorem decode_pixels_congr (fmt : bitmap_buffer_format) (d1 d2 : List Byte) (N : Nat)
    (hag : ∀ i, i < N → d1[i]? = d2[i]?) :
    ∀ (n x0 : Nat) (s : dec_state), s.in_ptr + 4 * n ≤ N →
      forLoop (fun _ st => decode_pixel fmt d1 st) n x0 s
        = forLoop (fun _ st => decode_pixel fmt d2 st) n x0 s := by
  intro n
  induction n with
  | zero => intro x0 s _; rfl
  | succ n ih =>
    intro x0 s hb
    have hc := decode_pixel_congr fmt d1 d2 s (fun j hj => hag _ (by omega))
    simp only [forLoop, hc]
    cases hd : decode_pixel fmt d2 s with
    | none => rfl
    | some s1 =>
      have := decode_pixel_in_ptr fmt d2 s s1 hd
      simp only [Option.some_bind]
      exact ih (x0 + 1) s1 (by omega)

theorem decode_pixels_in_ptr (fmt : bitmap_buffer_format) (d : List Byte) (n x0 : Nat)
    (s s' : dec_state) (h : forLoop (fun _ st => decode_pixel fmt d st) n x0 s = some s') :
    s'.in_ptr = s.in_ptr + 4 * n := by
  have := forLoop_invariant (fun _ st => decode_pixel fmt d st)
    (fun x t => t.in_ptr = s.in_ptr + 4 * (x - x0) ∧ x0 ≤ x)
    (by
      intro j t t' hb ⟨p1, p2⟩
      have := decode_pixel_in_ptr fmt d t t' hb
      exact ⟨by omega, by omega⟩)
    n x0 s s' ⟨by simp, le_refl _⟩ h
  rw [this.1]; congr 2; omega

theorem decode_rows_congr (wb : Nat) (fmt : bitmap_buffer_format) (d1 d2 : List Byte)
    (width S N : Nat) (hag : ∀ i, i < N → d1[i]? = d2[i]?) :
    ∀ (n y0 : Nat) (s : dec_state), s.in_ptr + 4 * (n * width) ≤ N →
      forLoop (decode_row wb fmt d1 width S) n y0 s
        = forLoop (decode_row wb fmt d2 width S) n y0 s := by
  intro n
  induction n with
  | zero => intro y0 s _; rfl
  | succ n ih =>
    intro y0 s hb
    have hmul : (n + 1) * width = n * width + width := by ring
    have hc : decode_row wb fmt d1 width S y0 s = decode_row wb fmt d2 width S y0 s :=
      decode_pixels_congr fmt d1 d2 N hag width 0 _ (by show s.in_ptr + 4 * width ≤ N; omega)
    simp only [forLoop, hc]
    cases hd : decode_row wb fmt d2 width S y0 s with
    | none => rfl
    | some s1 =>
      have := decode_pixels_in_ptr fmt d2 width 0 _ s1 hd
      simp only [] at this
      simp only [Option.some_bind]
      exact ih (y0 + 1) s1 (by omega)

/-- Decoding a well-formed file followed by trailing bytes runs exactly as decoding the
file alone. -/
theorem decode_trailing (wb : Nat) (heap : Nat → Byte) (f t : List Byte)
    (fmt : bitmap_buffer_format) (a W H : Nat) (hwb : 32 ≤ wb)
    (hhdr : ∀ i, i < 12 → f[i]? = (file_header W H)[i]?)
    (hW : W < 2 ^ 31 ∨ (wb = 32 ∧ W < 2 ^ 32)) (hH : H < 2 ^ 31 ∨ (wb = 32 ∧ H < 2 ^ 32))
    (hlen : f.length = 12 + W * H * 4) (htyp : f.length + t.length < 2 ^ wb) :
    rgba_decode_file_data_to_bitmap wb heap (some (f ++ t)) (f.length + t.length) fmt a
        true true true
      = rgba_decode_file_data_to_bitmap wb heap (some f) f.length fmt a true true true := by
  have hag : ∀ i, i < f.length → (f ++ t)[i]? = f[i]? :=
    fun i hi => List.getElem?_append_left hi
  obtain ⟨hm1, hw1, hh1⟩ := read_header f W H hhdr
  obtain ⟨hm2, hw2, hh2⟩ := read_header (f ++ t) W H
    (fun i hi => by rw [hag i (by omega), hhdr i hi])
  have hm := to_unsigned_to_int wb RGBA_BITMAP_MAGIC_NUMBER hwb (Or.inl (by decide))
  have hw := to_unsigned_to_int wb W hwb hW
  have hh := to_unsigned_to_int wb H hwb hH
  have e2 : umul wb (umul wb W H) 4 = W * H * 4 := by
    rw [@umul_eq wb W H (by omega), umul_eq (by omega)]
  have e3 : uadd wb 12 (W * H * 4) = 12 + W * H * 4 := uadd_eq (by omega)
  simp only [rgba_decode_file_data_to_bitmap, hm1, hw1, hh1, hm2, hw2, hh2, hm, hw, hh, e2, e3,
    Bool.true_eq_false, or_self, show ¬ f.length + t.length < 12 by omega,
    show ¬ f.length < 12 by omega, show ¬ f.length + t.length < 12 + W * H * 4 by omega,
    show ¬ f.length < 12 + W * H * 4 by omega, if_false, ne_eq, not_true_eq_false]
  have hmc : ∀ dst : List Byte, memcpy dst 0 (f ++ t) 12 (W * H * 4)
      = memcpy dst 0 f 12 (W * H * 4) := by
    intro dst
    unfold memcpy
    have e : ((f ++ t).drop 12).take (W * H * 4) = (f.drop 12).take (W * H * 4) := by
      rw [List.drop_append_of_le_length (by omega),
        List.take_append_of_le_length (by rw [List.length_drop]; omega)]
    simp only [e, List.length_append]
    by_cases hd : 0 + W * H * 4 ≤ dst.length
    · rw [if_pos ⟨hd, by omega⟩, if_pos ⟨hd, by omega⟩]
    · rw [if_neg (fun hc => hd hc.1), if_neg (fun hc => hd hc.1)]
  have hrows := decode_rows_congr wb fmt (f ++ t) f W
    (decode_output_row_size wb W (pixel_size fmt) a) f.length hag H 0
    ⟨12, 0, malloc heap (umul wb (decode_output_row_size wb W (pixel_size fmt) a) H)⟩
    (by show 12 + 4 * (H * W) ≤ f.length; rw [hlen, Nat.mul_comm H W]; omega)
  rw [hmc, hrows]

/-- A window of a list, given elementwise. -/
theorem take_drop_eq (l t : List Byte) (o : Nat)
    (h : ∀ i, i < t.length → l[o + i]? = t[i]?) :
    (l.drop o).take t.length = t := by
  apply List.ext_getElem?
  intro i
  by_cases hi : i < t.length
  · rw [List.getElem?_take_of_lt hi, List.getElem?_drop, h i hi]
  · rw [List.getElem?_eq_none (by rw [List.length_take]; omega),
      List.getElem?_eq_none (by omega)]

/-- The bytes of one decoded pixel, from the channelwise description of the output. -/
theorem decoded_pixel (fmt : bitmap_buffer_format) (data m : List Byte) (o q : Nat)
    (r g b al : Byte)
    (hm : ∀ k, k < 4 → (k < 3 ∨ pixel_size fmt = 4) →
      m[o + channel_offset fmt k]? = data[q + k]?)
    (h0 : data[q]? = some r) (h1 : data[q + 1]? = some g) (h2 : data[q + 2]? = some b)
    (h3 : data[q + 3]? = some al) :
    (m.drop o).take (pixel_size fmt) = pixel_bytes fmt (r, g, b, al) := by
  have k0 := hm 0 (by omega) (Or.inl (by omega))
  have k1 := hm 1 (by omega) (Or.inl (by omega))
  have k2 := hm 2 (by omega) (Or.inl (by omega))
  rw [Nat.add_zero, h0] at k0
  rw [h1] at k1
  rw [h2] at k2
  cases fmt
  case RGB =>
    simp only [channel_offset] at k0 k1 k2
    refine take_drop_eq m (pixel_bytes RGB (r, g, b, al)) o ?_
    intro i hi
    have hi3 : i < 3 := hi
    interval_cases i
    · exact k0
    · exact k1
    · exact k2
  case BGR =>
    simp only [channel_offset] at k0 k1 k2
    refine take_drop_eq m (pixel_bytes BGR (r, g, b, al)) o ?_
    intro i hi
    have hi3 : i < 3 := hi
    interval_cases i
    · exact k2
    · exact k1
    · exact k0
  all_goals
    have k3 := hm 3 (by omega) (Or.inr rfl)
    rw [h3] at k3
    simp only [channel_offset] at k0 k1 k2 k3
    norm_num at k0 k1 k2 k3
  case RGBA =>
    refine take_drop_eq m (pixel_bytes RGBA (r, g, b, al)) o ?_
    intro i hi
    have hi3 : i < 4 := hi
    interval_cases i
    · exact k0
    · exact k1
    · exact k2
    · exact k3
  case ABGR =>
    refine take_drop_eq m (pixel_bytes ABGR (r, g, b, al)) o ?_
    intro i hi
    have hi3 : i < 4 := hi
    interval_cases i
    · exact k3
    · exact k2
    · exact k1
    · exact k0
  case ARGB =>
    refine take_drop_eq m (pixel_bytes ARGB (r, g, b, al)) o ?_
    intro i hi
    have hi3 : i < 4 := hi
    interval_cases i
    · exact k3
    · exact k0
    · exact k1
    · exact k2
  case BGRA =>
    refine take_drop_eq m (pixel_bytes BGRA (r, g, b, al)) o ?_
    intro i hi
    have hi3 : i < 4 := hi
    interval_cases i
    · exact k2
    · exact k1
    · exact k0
    · exact k3

/-- A loop of three iterations, unrolled. -/
theorem forLoop_three {σ : Type} (body : Nat → σ → Option σ) (s s1 s2 s3 : σ)
    (h1 : body 0 s = some s1) (h2 : body 1 s1 = some s2) (h3 : body 2 s2 = some s3) :
    forLoop body 3 0 s = some s3 := by
  show (body 0 s).bind (fun t1 => (body 1 t1).bind (fun t2 => (body 2 t2).bind some)) = some s3
  rw [h1, Option.some_bind, h2, Option.some_bind, h3, Option.some_bind]

/-- A file `g` whose pixels are read back, channel by channel, from a bitmap holding the
pixels of the file `f` at the row offsets `O`: `g` is the leading part of `f` for a
four-byte layout, and for a three-byte layout exactly when every alpha byte of `f` is
0xFF. -/
theorem encode_of_decoded (fmt : bitmap_buffer_format) (f g m : List Byte) (W H : Nat)
    (O : Nat → Nat) (hW : 0 < W)
    (hf : ∀ i, i < 12 → f[i]? = (file_header W H)[i]?)
    (hL : 12 + W * H * 4 ≤ f.length)
    (lg : g.length = 12 + W * H * 4)
    (hg : ∀ i, i < 12 → g[i]? = (file_header W H)[i]?)
    (pg : ∀ y x k, y < H → x < W → k < 4 → g[12 + 4 * (y * W + x) + k]?
        = some (source_channel fmt m (O y + x * pixel_size fmt) k))
    (pm : ∀ y x k, y < H → x < W → k < 4 → (k < 3 ∨ pixel_size fmt = 4) →
        m[O y + x * pixel_size fmt + channel_offset fmt k]? = f[12 + 4 * (y * W + x) + k]?) :
    (pixel_size fmt = 4 → g = f.take (12 + W * H * 4))
    ∧ (pixel_size fmt = 3 →
        (g = f.take (12 + W * H * 4) ↔ ∀ q, q < W * H → f[12 + 4 * q + 3]? = some 0xFF)) := by
  have lt : (f.take (12 + W * H * 4)).length = 12 + W * H * 4 := by
    rw [List.length_take]; omega
  have hd : ∀ i, i < 12 → g[i]? = (f.take (12 + W * H * 4))[i]? := by
    intro i hi
    rw [List.getElem?_take_of_lt (by omega), hg i hi, hf i hi]
  have hcol : ∀ y x k, y < H → x < W → k < 4 → (k < 3 ∨ pixel_size fmt = 4) →
      g[12 + 4 * (y * W + x) + k]? = (f.take (12 + W * H * 4))[12 + 4 * (y * W + x) + k]? := by
    intro y x k hy hx hk hc
    have hq := pixel_index_lt (h := H) hy hx
    have hm := pm y x k hy hx hk hc
    have hin : O y + x * pixel_size fmt + channel_offset fmt k < m.length := by
      by_contra hcon
      rw [List.getElem?_eq_none (by omega), List.getElem?_eq_getElem (by omega)] at hm
      exact Option.noConfusion hm
    rw [pg y x k hy hx hk, source_channel_eq fmt m _ k hc hin, hm,
      List.getElem?_take_of_lt (by omega)]
  constructor
  · intro h4
    exact file_ext g _ W H hW lg lt hd
      (fun y x k hy hx hk => hcol y x k hy hx hk (Or.inr h4))
  · intro h3
    have halpha : ∀ y x, y < H → x < W → g[12 + 4 * (y * W + x) + 3]? = some 0xFF := by
      intro y x hy hx
      rw [pg y x 3 hy hx (by omega)]
      simp [source_channel, h3]
    constructor
    · intro hgf q hq
      have hy : q / W < H := by
        rw [Nat.div_lt_iff_lt_mul hW, Nat.mul_comm]; exact hq
      have hx : q % W < W := Nat.mod_lt _ hW
      have hqe : q / W * W + q % W = q := by
        have := Nat.div_add_mod q W
        rw [Nat.mul_comm] at this
        exact this
      have := halpha (q / W) (q % W) hy hx
      rw [hqe, hgf, List.getElem?_take_of_lt (by omega)] at this
      exact this
    · intro hall
      refine file_ext g _ W H hW lg lt hd (fun y x k hy hx hk => ?_)
      by_cases hk3 : k < 3
      · exact hcol y x k hy hx hk (Or.inl hk3)
      · have hk' : k = 3 := by omega
        subst hk'
        have hq := pixel_index_lt (h := H) hy hx
        rw [halpha y x hy hx, List.getElem?_take_of_lt (by omega), hall _ hq]

/-! ## Inversion of a successful decode -/

theorem decode_write_pixel_step (fmt : bitmap_buffer_format) (bitmap m : List Byte)
    (op op2 : Nat) (r g b a : Byte)
    (h : decode_write_pixel fmt bitmap op r g b a = some (m, op2)) :
    op + pixel_size fmt ≤ bitmap.length ∧ op2 = op + pixel_size fmt
      ∧ m.length = bitmap.length := by
  cases fmt
  case RGB | BGR =>
    simp only [decode_write_pixel, bind, Option.bind_eq_some, pure, Option.some.injEq,
      Prod.mk.injEq] at h
    obtain ⟨m1, h1, m2, h2, m3, h3, rfl, rfl⟩ := h
    obtain ⟨b1, l1, _⟩ := store_spec h1
    obtain ⟨b2, l2, _⟩ := store_spec h2
    obtain ⟨b3, l3, _⟩ := store_spec h3
    simp only [pixel_size, reduceCtorEq, or_self, or_false, or_true, false_or, if_true,
      if_false, true_and]
    exact ⟨by omega, by omega⟩
  all_goals
    simp only [decode_write_pixel, bind, Option.bind_eq_some, pure, Option.some.injEq,
      Prod.mk.injEq] at h
    obtain ⟨m1, h1, m2, h2, m3, h3, m4, h4, rfl, rfl⟩ := h
    obtain ⟨b1, l1, _⟩ := store_spec h1
    obtain ⟨b2, l2, _⟩ := store_spec h2
    obtain ⟨b3, l3, _⟩ := store_spec h3
    obtain ⟨b4, l4, _⟩ := store_spec h4
    simp only [pixel_size, reduceCtorEq, or_self, or_false, or_true, false_or, if_true,
      if_false, true_and]
    exact ⟨by omega, by omega⟩

theorem decode_pixel_step (fmt : bitmap_buffer_format) (d : List Byte) (s s2 : dec_state)
    (h : decode_pixel fmt d s = some s2) :
    s.output_ptr + pixel_size fmt ≤ s.bitmap.length
      ∧ s2.output_ptr = s.output_ptr + pixel_size fmt
      ∧ s2.bitmap.length = s.bitmap.length := by
  simp only [decode_pixel, bind, Option.bind_eq_some, pure, Option.some.injEq] at h
  obtain ⟨r, _, g, _, b, _, a, _, ⟨m, op2⟩, hw, rfl⟩ := h
  exact decode_write_pixel_step fmt s.bitmap m s.output_ptr op2 r g b a hw

/-- A successful run of the decoder's inner loop over at least one pixel wrote inside
the bitmap. -/
theorem decode_pixels_step (fmt : bitmap_buffer_format) (d : List Byte) (n x0 : Nat)
    (s s2 : dec_state)
    (h : forLoop (fun _ st => decode_pixel fmt d st) n x0 s = some s2) :
    s2.bitmap.length = s.bitmap.length
      ∧ (0 < n → s.output_ptr + n * pixel_size fmt ≤ s.bitmap.length) := by
  have := forLoop_invariant (fun _ st => decode_pixel fmt d st)
    (fun x t => t.bitmap.length = s.bitmap.length ∧ x0 ≤ x
      ∧ t.output_ptr = s.output_ptr + (x - x0) * pixel_size fmt
      ∧ (x0 < x → t.output_ptr ≤ s.bitmap.length))
    (by
      intro j t t2 hb ⟨p1, p2, p3, p4⟩
      obtain ⟨q1, q2, q3⟩ := decode_pixel_step fmt d t t2 hb
      have e : (j + 1 - x0) * pixel_size fmt = (j - x0) * pixel_size fmt + pixel_size fmt := by
        rw [show j + 1 - x0 = (j - x0) + 1 by omega]; ring
      refine ⟨by omega, by omega, by rw [q2, p3, e]; omega, fun _ => by omega⟩)
    n x0 s s2 ⟨rfl, le_refl _, by simp, fun hlt => by omega⟩ h
  obtain ⟨p1, _, p3, p4⟩ := this
  refine ⟨p1, fun hn => ?_⟩
  have := p4 (by omega)
  rw [p3, Nat.add_sub_cancel_left] at this
  exact this

/-- A successful run of the decoder's outer loop wrote every row inside the bitmap, at
the row offset computed in `size_t`. -/
theorem decode_rows_step (wb : Nat) (fmt : bitmap_buffer_format) (d : List Byte)
    (width S n y0 : Nat) (s s2 : dec_state) (hw : 0 < width)
    (h : forLoop (decode_row wb fmt d width S) n y0 s = some s2) :
    s2.bitmap.length = s.bitmap.length
      ∧ ∀ y, y0 ≤ y → y < y0 + n →
          umul wb y S + width * pixel_size fmt ≤ s.bitmap.length := by
  have := forLoop_invariant (decode_row wb fmt d width S)
    (fun j t => t.bitmap.length = s.bitmap.length
      ∧ ∀ y, y0 ≤ y → y < j → umul wb y S + width * pixel_size fmt ≤ s.bitmap.length)
    (by
      intro j t t2 hb ⟨p1, p2⟩
      obtain ⟨q1, q2⟩ := decode_pixels_step fmt d width 0 _ t2 hb
      simp only [] at q1 q2
      refine ⟨by omega, fun y hy0 hy => ?_⟩
      by_cases hyj : y < j
      · exact p2 y hy0 hyj
      · have : y = j := by omega
        subst this
        have := q2 hw
        omega)
    n y0 s s2 ⟨rfl, fun y h1 h2 => by omega⟩ h
  exact this

theorem umul_lt (wb a b : Nat) : umul wb a b < 2 ^ wb :=
  Nat.mod_lt _ (Nat.pow_pos (by omega))

/-- The wrapped offset of a sum of row indices. -/
theorem umul_add_rows (wb y d S : Nat) :
    umul wb (y + d) S = umul wb y S + umul wb d S
      ∨ umul wb (y + d) S + 2 ^ wb = umul wb y S + umul wb d S := by
  have h1 := umul_lt wb y S
  have h2 := umul_lt wb d S
  have e : umul wb (y + d) S = (umul wb y S + umul wb d S) % 2 ^ wb := by
    unfold umul
    rw [Nat.add_mul, Nat.add_mod]
  rw [e]
  by_cases h : umul wb y S + umul wb d S < 2 ^ wb
  · left; exact Nat.mod_eq_of_lt h
  · right
    have h3 : (umul wb y S + umul wb d S - 2 ^ wb) % 2 ^ wb
        = umul wb y S + umul wb d S - 2 ^ wb := Nat.mod_eq_of_lt (by omega)
    have h4 : (umul wb y S + umul wb d S) % 2 ^ wb
        = (umul wb y S + umul wb d S - 2 ^ wb) % 2 ^ wb := by
      rw [Nat.mod_eq_sub_mod (by omega)]
    omega

/-- Rows that all lie inside a block of `output_row_size × height` bytes (the product
taken in `size_t`) do not overlap. -/
theorem rows_disjoint (wb S H c : Nat)
    (hin : ∀ y, y < H → umul wb y S + c ≤ umul wb S H) :
    ∀ y y2, y < y2 → y2 < H →
      umul wb y S + c ≤ umul wb y2 S ∨ umul wb y2 S + c ≤ umul wb y S := by
  intro y y2 hy hy2
  have hA := umul_lt wb S H
  have i1 := hin (y2 - y) (by omega)
  have i2 := hin (H - (y2 - y)) (by omega)
  have i3 := hin y (by omega)
  have i4 := hin y2 hy2
  have s1 := umul_add_rows wb y (y2 - y) S
  rw [show y + (y2 - y) = y2 by omega] at s1
  have s2 := umul_add_rows wb (H - (y2 - y)) (y2 - y) S
  rw [show H - (y2 - y) + (y2 - y) = H by omega] at s2
  have e : umul wb H S = umul wb S H := by unfold umul; rw [Nat.mul_comm]
  rw [e] at s2
  omega

/-- The decoder's outer loop with the row offsets as computed in `size_t`: when every
row lies inside the bitmap and the rows do not overlap, the loop succeeds and every
pixel of every row is in place afterwards. -/
theorem decode_rows_wrapped (wb : Nat) (fmt : bitmap_buffer_format) (data : List Byte)
    (width S : Nat) :
    ∀ (n y0 : Nat) (s : dec_state),
      (∀ y, y0 ≤ y → y < y0 + n →
        umul wb y S + width * pixel_size fmt ≤ s.bitmap.length) →
      (∀ y y2, y0 ≤ y → y < y2 → y2 < y0 + n →
        umul wb y S + width * pixel_size fmt ≤ umul wb y2 S
          ∨ umul wb y2 S + width * pixel_size fmt ≤ umul wb y S) →
      s.in_ptr + 4 * (n * width) ≤ data.length →
      ∃ s2, forLoop (decode_row wb fmt data width S) n y0 s = some s2
        ∧ s2.bitmap.length = s.bitmap.length
        ∧ (∀ i, (∀ y, y0 ≤ y → y < y0 + n →
              i < umul wb y S ∨ umul wb y S + width * pixel_size fmt ≤ i) →
            s2.bitmap[i]? = s.bitmap[i]?)
        ∧ (∀ y x k, y < n → x < width → k < 4 → (k < 3 ∨ pixel_size fmt = 4) →
            s2.bitmap[umul wb (y0 + y) S + x * pixel_size fmt + channel_offset fmt k]?
              = data[s.in_ptr + 4 * (y * width + x) + k]?) := by
  intro n
  induction n with
  | zero =>
    intro y0 s _ _ _
    exact ⟨s, by simp [forLoop], rfl, fun _ _ => rfl, fun y x k hy _ _ _ => by omega⟩
  | succ n ih =>
    intro y0 s hin hdis hdata
    have hmul : (n + 1) * width = n * width + width := by ring
    obtain ⟨m1, h1, l1, u1, c1⟩ := decode_pixels_spec fmt data width 0
      ⟨s.in_ptr, umul wb y0 S, s.bitmap⟩
      (by show s.in_ptr + 4 * width ≤ data.length; omega)
      (hin y0 (le_refl _) (by omega))
    simp only [] at h1 l1 u1 c1
    obtain ⟨s2, hs2, l2, u2, c2⟩ := ih (y0 + 1)
      ⟨s.in_ptr + 4 * width, umul wb y0 S + width * pixel_size fmt, m1⟩
      (by
        intro y hy1 hy2
        show _ ≤ m1.length
        rw [l1]
        exact hin y (by omega) (by omega))
      (fun y y2 hy hlt hy2 => hdis y y2 (by omega) hlt (by omega))
      (by show s.in_ptr + 4 * width + 4 * (n * width) ≤ data.length; omega)
    simp only [] at l2 u2 c2
    refine ⟨s2, ?_, by omega, ?_, ?_⟩
    · simp only [forLoop, decode_row, h1, Option.some_bind, hs2]
    · intro i hi
      rw [u2 i (fun y hy1 hy2 => hi y (by omega) (by omega))]
      exact u1 i (hi y0 (le_refl _) (by omega))
    · intro y x k hy hx hk hc
      have hoff := channel_offset_lt fmt k hk hc
      have hxw : x * pixel_size fmt + pixel_size fmt ≤ width * pixel_size fmt := by
        have := Nat.mul_le_mul_right (pixel_size fmt) (show x + 1 ≤ width by omega)
        rwa [Nat.add_mul, Nat.one_mul] at this
      rcases Nat.eq_zero_or_pos y with h0 | hpos
      · subst h0
        rw [Nat.add_zero, u2 _ (fun y2 hy1 hy2 => by
          have := hdis y0 y2 (le_refl _) (by omega) (by omega)
          omega)]
        simpa using c1 x k hx hk hc
      · obtain ⟨y', rfl⟩ : ∃ y', y = y' + 1 := ⟨y - 1, by omega⟩
        have := c2 y' x k (by omega) hx hk hc
        have e1 : s.in_ptr + 4 * width + 4 * (y' * width + x) + k
            = s.in_ptr + 4 * ((y' + 1) * width + x) + k := by
          have : (y' + 1) * width = y' * width + width := by ring
          omega
        rw [e1, show y0 + 1 + y' = y0 + (y' + 1) by omega] at this
        exact this

/-- The encoder's per-pixel path with the row offsets as computed in `size_t`: when
every row it reads lies inside the source buffer, the call succeeds and every output
pixel holds the four channels of its source pixel. -/
theorem encode_wrapped (wb : Nat) (heap : Nat → Byte) (input : List Byte)
    (w h S : Nat) (fmt : bitmap_buffer_format)
    (hw : 0 < w) (hh : 0 < h) (hS : w * pixel_size fmt ≤ S)
    (hslow : ¬ (fmt = bitmap_buffer_format.RGBA ∧ S = umul wb w 4))
    (hrows : ∀ y, y < h → umul wb y S + w * pixel_size fmt ≤ input.length)
    (hfit : 12 + w * h * 4 < 2 ^ wb) :
    ∃ f, rgba_encode_bitmap_to_file_data wb heap (some input) w h S fmt true
        = Exec.returned ⟨some f, some (12 + w * h * 4)⟩
      ∧ f.length = 12 + w * h * 4
      ∧ (∀ i, i < 12 → f[i]? = (file_header w h)[i]?)
      ∧ (∀ y x k, y < h → x < w → k < 4 → f[12 + 4 * (y * w + x) + k]?
          = some (source_channel fmt input (umul wb y S + x * pixel_size fmt) k)) := by
  obtain ⟨hp, hp4⟩ := pixel_size_le fmt
  have hwh : w * 4 ≤ w * h * 4 := mul_mul_le_of_pos 4 hh
  have hwp : w * pixel_size fmt ≤ w * 4 := Nat.mul_le_mul_left _ hp4
  have hpw : pixel_size fmt * w < 2 ^ wb := by rw [Nat.mul_comm]; omega
  have e1 : umul wb (pixel_size fmt) w = w * pixel_size fmt := by
    rw [umul_eq hpw, Nat.mul_comm]
  have hwh2 : w * h < 2 ^ wb := by omega
  have e2 : umul wb (umul wb w h) 4 = w * h * 4 := by
    rw [umul_eq hwh2, umul_eq (by omega)]
  have e3 : uadd wb 12 (w * h * 4) = 12 + w * h * 4 := uadd_eq hfit
  have hS0 : S ≠ 0 := by
    have : 0 < w * pixel_size fmt := Nat.mul_pos hw hp
    omega
  have hchk : ¬ (S ≠ 0 ∧ S < w * pixel_size fmt) := by omega
  obtain ⟨f1, f2, f0, hf1, hf2, hf0, l0, g0, g0'⟩ :=
    write_header_spec (malloc heap (12 + w * h * 4)) w h (by rw [length_malloc]; omega)
  rw [length_malloc] at l0
  simp only [rgba_encode_bitmap_to_file_data, e1, e2, e3, hchk, if_false, hS0,
    show ¬ (true = false ∨ w = 0 ∨ h = 0) by simp; omega]
  simp only [bind, hf1, hf2, hf0, Option.some_bind]
  obtain ⟨s2, hs2, hop, hl2, gout, gpix⟩ := encode_rows_spec wb fmt input w S h 0 ⟨0, 12, f0⟩
    (fun y hy => by rw [Nat.zero_add]; exact hrows y hy)
    (by show 12 + 4 * (h * w) ≤ f0.length; rw [l0, Nat.mul_comm h w]; omega)
  simp only [] at hop hl2 gout gpix
  refine ⟨s2.rgba_file, ?_, by omega, ?_, ?_⟩
  · simp only [hslow, if_false, hs2, Option.map_some']
  · intro i hi
    rw [gout i (by omega), g0 i hi]
  · intro y x k hy hx hk
    have := gpix y x k hy hx hk
    rwa [Nat.zero_add] at this

/-- The row size holds a row as soon as the first row fits the bitmap of
`output_row_size × height` bytes: the alignment arithmetic can only wrap for a single
row, and then the bitmap is the wrapped row size itself. -/
theorem decode_output_row_size_ge (wb W p a H : Nat) (hwb : 32 ≤ wb) (ha : a < 2 ^ 32)
    (hp : p ≤ 4) (hH : 0 < H) (hfit : 12 + W * H * 4 < 2 ^ wb)
    (hrow : W * p ≤ umul wb (decode_output_row_size wb W p a) H) :
    W * p ≤ decode_output_row_size wb W p a := by
  have hpow : (2 : Nat) ^ 32 ≤ 2 ^ wb := Nat.pow_le_pow_right (by omega) hwb
  have hSlt := decode_output_row_size_lt wb W p a
  have hc4 : W * p ≤ W * 4 := Nat.mul_le_mul_left _ hp
  have hcH : W * 4 * H = W * H * 4 := by ring
  have h4H : W * 4 ≤ W * 4 * H := Nat.le_mul_of_pos_right _ hH
  have hc : W * p < 2 ^ wb := by omega
  by_cases hH1 : H = 1
  · subst hH1
    have e : umul wb (decode_output_row_size wb W p a) 1 = decode_output_row_size wb W p a := by
      unfold umul
      rw [Nat.mul_one, Nat.mod_eq_of_lt hSlt]
    rwa [e] at hrow
  · have h2 : W * 4 * 2 ≤ W * 4 * H := Nat.mul_le_mul_left _ (by omega)
    clear hrow hSlt
    unfold decode_output_row_size
    simp only [umul_eq hc]
    by_cases h1 : a > 1
    · rw [if_pos h1]
      by_cases hr : to_int (W * p % a) > 0
      · rw [if_pos hr]
        have hlt : W * p % a < a := Nat.mod_lt _ (by omega)
        have hle : W * p % a ≤ W * p := Nat.mod_le _ _
        have hr31 : W * p % a < 2 ^ 31 := by
          by_contra hcon
          unfold to_int at hr
          rw [Nat.mod_eq_of_lt (show W * p % a < 2 ^ 32 by omega), if_neg hcon] at hr
          omega
        rw [to_int_eq_of_lt hr31] at hr ⊢
        have e : ((a : Int) - ((W * p % a : Nat) : Int)) = ((a - W * p % a : Nat) : Int) := by
          omega
        rw [e, to_unsigned_natCast (by omega)]
        have hnw : W * p + (a - W * p % a) < 2 ^ wb := by
          by_cases hac : a ≤ W * p
          · omega
          · rw [Nat.mod_eq_of_lt (by omega)]
            omega
        rw [uadd_eq hnw]
        omega
      · rw [if_neg hr]
    · rw [if_neg h1]

/-- What a decode that returns a bitmap did: the dimensions it reports are the ones it
read, the bitmap has `output_row_size × height` bytes (the product taken in `size_t`),
every row lies inside it at its `size_t` row offset, the row size holds a row, and every
pixel is in place. -/
theorem decode_success (wb : Nat) (heap : Nat → Byte) (f : List Byte)
    (fmt : bitmap_buffer_format) (a W H : Nat) (m : List Byte) (sz : Option Nat)
    (hwb : 32 ≤ wb) (ha : a < 2 ^ 32) (hW0 : 0 < W) (hH0 : 0 < H)
    (hd : ∀ i, i < 12 → f[i]? = (file_header W H)[i]?)
    (hL : 12 + W * H * 4 ≤ f.length) (hLw : f.length < 2 ^ wb)
    (hdec : rgba_decode_file_data_to_bitmap wb heap (some f) f.length fmt a true true true
      = Exec.returned ⟨some m, some W, some H, sz⟩) :
    sz = some (umul wb (decode_output_row_size wb W (pixel_size fmt) a) H)
      ∧ m.length = umul wb (decode_output_row_size wb W (pixel_size fmt) a) H
      ∧ W * pixel_size fmt ≤ decode_output_row_size wb W (pixel_size fmt) a
      ∧ (∀ y, y < H → umul wb y (decode_output_row_size wb W (pixel_size fmt) a)
            + W * pixel_size fmt ≤ m.length)
      ∧ (∀ y x k, y < H → x < W → k < 4 → (k < 3 ∨ pixel_size fmt = 4) →
          m[umul wb y (decode_output_row_size wb W (pixel_size fmt) a) + x * pixel_size fmt
              + channel_offset fmt k]? = f[12 + 4 * (y * W + x) + k]?) := by
  obtain ⟨hp0, hp4⟩ := pixel_size_le fmt
  obtain ⟨hmagic, hrw, hrh⟩ := read_header f W H hd
  have hm := to_unsigned_to_int wb RGBA_BITMAP_MAGIC_NUMBER hwb (Or.inl (by decide))
  simp only [rgba_decode_file_data_to_bitmap, hmagic, hrw, hrh, hm, Bool.true_eq_false,
    or_self, show ¬ f.length < 12 by omega, if_false, ne_eq, not_true_eq_false] at hdec
  generalize to_unsigned wb (to_int (W % 2 ^ 32)) = W2 at hdec
  generalize to_unsigned wb (to_int (H % 2 ^ 32)) = H2 at hdec
  split at hdec
  · simp at hdec
  split at hdec
  · exact Exec.noConfusion hdec
  rename_i m0 hwr
  simp only [Exec.returned.injEq, decode_out.mk.injEq, Option.some.injEq] at hdec
  obtain ⟨rfl, rfl, rfl, hsz⟩ := hdec
  have hwh : W2 * H2 < 2 ^ wb := by omega
  have e2 : umul wb (umul wb W2 H2) 4 = W2 * H2 * 4 := by
    rw [umul_eq hwh, umul_eq (by omega)]
  have hwH : W2 * 4 ≤ W2 * H2 * 4 := mul_mul_le_of_pos 4 hH0
  have e5 : umul wb W2 4 = W2 * 4 := umul_eq (by omega)
  rw [e2, e5] at hwr
  generalize hS : decode_output_row_size wb W2 (pixel_size fmt) a = S at hwr hsz ⊢
  refine ⟨hsz.symm, ?_⟩
  by_cases hfast : fmt = bitmap_buffer_format.RGBA ∧ S = W2 * 4
  · obtain ⟨hfmt, hrow⟩ := hfast
    subst hfmt
    have hps : pixel_size bitmap_buffer_format.RGBA = 4 := rfl
    have eSH : umul wb S H2 = W2 * H2 * 4 := by
      rw [hrow, umul_eq (by rw [show W2 * 4 * H2 = W2 * H2 * 4 by ring]; omega)]; ring
    have hoff : ∀ y, y < H2 → umul wb y S = y * (W2 * 4) ∧ y * (W2 * 4) + W2 * 4 ≤ W2 * H2 * 4 := by
      intro y hy
      have h1 : y * (W2 * 4) + W2 * 4 ≤ H2 * (W2 * 4) := by
        have := Nat.mul_le_mul_right (W2 * 4) (show y + 1 ≤ H2 by omega)
        rwa [Nat.add_mul, Nat.one_mul] at this
      have h2 : H2 * (W2 * 4) = W2 * H2 * 4 := by ring
      rw [hrow, umul_eq (by omega)]
      exact ⟨rfl, by omega⟩
    rw [if_pos ⟨rfl, hrow⟩, eSH] at hwr
    obtain ⟨m2, hm2, lm, gm⟩ := memcpy_spec (malloc heap (W2 * H2 * 4)) 0 f 12 (W2 * H2 * 4)
      (by rw [length_malloc]; omega) (by omega)
    rw [hm2] at hwr
    simp only [Option.some.injEq] at hwr
    subst hwr
    rw [length_malloc] at lm
    rw [eSH, hps]
    refine ⟨lm, by omega, fun y hy => by rw [(hoff y hy).1, lm]; exact (hoff y hy).2, ?_⟩
    intro y x k hy hx hk _
    have hq := pixel_index_lt (h := H2) hy hx
    have e6 : y * (W2 * 4) + x * 4 + channel_offset bitmap_buffer_format.RGBA k
        = 4 * (y * W2 + x) + k := by
      have : y * (W2 * 4) = 4 * (y * W2) := by ring
      simp only [channel_offset]; omega
    rw [(hoff y hy).1, e6, gm, if_pos (by omega)]
    congr 1; omega
  · rw [if_neg hfast] at hwr
    cases hloop : forLoop (decode_row wb fmt f W2 S) H2 0 ⟨12, 0, malloc heap (umul wb S H2)⟩ with
    | none => rw [hloop] at hwr; exact Option.noConfusion hwr
    | some s2 =>
      rw [hloop, Option.map_some', Option.some.injEq] at hwr
      obtain ⟨l2, hin⟩ := decode_rows_step wb fmt f W2 S H2 0 _ s2 hW0 hloop
      simp only [length_malloc, Nat.zero_add] at l2 hin
      have hin2 : ∀ y, y < H2 → umul wb y S + W2 * pixel_size fmt ≤ umul wb S H2 :=
        fun y hy => hin y (Nat.zero_le _) hy
      have hdis := rows_disjoint wb S H2 (W2 * pixel_size fmt) hin2
      obtain ⟨s3, hs3, _, _, c3⟩ := decode_rows_wrapped wb fmt f W2 S H2 0
        ⟨12, 0, malloc heap (umul wb S H2)⟩
        (fun y _ hy => by
          show _ ≤ (malloc heap (umul wb S H2)).length
          rw [length_malloc]; exact hin2 y (by omega))
        (fun y y2 _ hlt hy2 => hdis y y2 hlt (by omega))
        (by show 12 + 4 * (H2 * W2) ≤ f.length; rw [Nat.mul_comm H2 W2]; omega)
      rw [hloop, Option.some.injEq] at hs3
      subst hs3
      subst hwr
      simp only [Nat.zero_add] at c3
      have hrow0 : W2 * pixel_size fmt ≤ umul wb S H2 := by
        have := hin2 0 hH0
        omega
      rw [← hS] at hrow0
      have hge := decode_output_row_size_ge wb W2 (pixel_size fmt) a H2 hwb ha hp4 hH0
        (by omega) hrow0
      rw [hS] at hge
      exact ⟨l2, hge, fun y hy => by rw [l2]; exact hin2 y hy, c3⟩

/-! ## The claims, continued -/

/-- C11: for every positive width and height and every packed RGBA buffer whose file size
is representable, the bulk-copy branch (layout RGBA, stride `width*4`) returns the header
followed by the buffer; the per-pixel loop returns the same file when the same rows are
supplied with layout RGBA and any larger stride, and the loop's RGBA case run with stride
`width*4` on the same header block leaves exactly what the `memcpy` leaves. -/
theorem C11_fast_slow_equivalence (wb : Nat) (heap1 heap2 : Nat → Byte)
    (buf padded : List Byte) (w h s : Nat) (hw : 0 < w) (hh : 0 < h)
    (hbuf : buf.length = w * h * 4) (hs : w * 4 < s)
    (hpad : (h - 1) * s + w * 4 ≤ padded.length) (hlenp : padded.length < 2 ^ wb)
    (hfit : 12 + w * h * 4 < 2 ^ wb)
    (hrows : ∀ y j, y < h → j < w * 4 → padded[y * s + j]? = buf[y * (w * 4) + j]?) :
    rgba_encode_bitmap_to_file_data wb heap1 (some buf) w h (w * 4) RGBA true
        = Exec.returned ⟨some (file_header w h ++ buf), some (12 + w * h * 4)⟩
      ∧ rgba_encode_bitmap_to_file_data wb heap2 (some padded) w h s RGBA true
        = Exec.returned ⟨some (file_header w h ++ buf), some (12 + w * h * 4)⟩
      ∧ ∀ f0 : List Byte, f0.length = 12 + w * h * 4 →
          (forLoop (encode_row wb RGBA buf w (w * 4)) h 0 ⟨0, 12, f0⟩).map
              (fun st => st.rgba_file)
            = memcpy f0 12 buf 0 (w * h * 4) := by
  have hps : pixel_size RGBA = 4 := rfl
  have hfast := encode_rgba_packed wb heap1 buf w h (w * 4) hw hh (Or.inr rfl) hbuf hfit
  have hrow : (h - 1) * (w * 4) + w * 4 = w * h * 4 := by rw [rows_total _ hh]; ring
  refine ⟨hfast, ?_, ?_⟩
  · obtain ⟨f1, f2, hf1, hf2, _, hall⟩ := encode_congr wb heap1 heap2 buf padded w h (w * 4) s
      RGBA hw hh (Or.inr (le_refl _)) (Or.inr (le_of_lt hs))
      (by rw [effective_row_size_pos _ _ _ (by omega), hps]; omega)
      (by rw [effective_row_size_pos _ _ _ (by omega), hps]; exact hpad)
      (by omega) hlenp hfit
    rw [hfast] at hf1
    simp only [Exec.returned.injEq, encode_out.mk.injEq, Option.some.injEq, and_true] at hf1
    rw [hf2, ← hall, ← hf1]
    intro y j hy hj
    rw [effective_row_size_pos _ _ _ (by omega), effective_row_size_pos _ _ _ (by omega)]
    rw [hps] at hj
    exact (hrows y j hy hj).symm
  · intro f0 hl0
    obtain ⟨s', hs', hop, hl', gout, gpix⟩ := encode_rows_spec wb RGBA buf w (w * 4) h 0
      ⟨0, 12, f0⟩
      (fun y hy => by
        have := mul_le_of_lt_pred (s := w * 4) hy
        rw [Nat.zero_add, umul_eq (by omega), hps]; omega)
      (by show 12 + 4 * (h * w) ≤ f0.length; rw [hl0, Nat.mul_comm h w]; omega)
    obtain ⟨m, hm, lm, gm⟩ := memcpy_spec f0 12 buf 0 (w * h * 4) (by omega) (by omega)
    simp only [] at hop hl' gout gpix
    rw [hs', hm, Option.map_some']
    congr 1
    apply List.ext_getElem?
    intro i
    rw [gm]
    by_cases hi : 12 ≤ i ∧ i < 12 + w * h * 4
    · rw [if_pos hi]
      obtain ⟨y, x, k, hy, hx, hk, hik⟩ := index_decomp w h (i - 12) hw (by omega)
      have hi' : i = 12 + 4 * (y * w + x) + k := by omega
      have hq := pixel_index_lt hy hx
      have hyle := mul_le_of_lt_pred (s := w * 4) hy
      rw [hi', gpix y x k hy hx hk, Nat.zero_add, umul_eq (by omega), hps]
      have e : y * (w * 4) + x * 4 = 4 * (y * w + x) := by ring
      rw [e, source_channel_rgba buf _ k (by omega)]
      congr 1; omega
    · rw [if_neg hi]
      exact gout i (by rw [Nat.mul_comm h w]; omega)


/-- C11, instance: a 1 × 2 RGBA image on a 64-bit platform, packed and with two padding
bytes per row (stride 6); the loop is also run on a zeroed 20-byte block. -/
theorem C11_fast_slow_equivalence_witness :
    rgba_encode_bitmap_to_file_data 64 (fun _ => 0) (some [1, 2, 3, 4, 5, 6, 7, 8]) 1 2 (1 * 4)
        RGBA true
        = Exec.returned ⟨some (file_header 1 2 ++ [1, 2, 3, 4, 5, 6, 7, 8]),
            some (12 + 1 * 2 * 4)⟩
      ∧ rgba_encode_bitmap_to_file_data 64 (fun _ => 0xAA)
          (some [1, 2, 3, 4, 0xEE, 0xEE, 5, 6, 7, 8]) 1 2 6 RGBA true
        = Exec.returned ⟨some (file_header 1 2 ++ [1, 2, 3, 4, 5, 6, 7, 8]),
            some (12 + 1 * 2 * 4)⟩
      ∧ (forLoop (encode_row 64 RGBA [1, 2, 3, 4, 5, 6, 7, 8] 1 (1 * 4)) 2 0
            ⟨0, 12, List.replicate 20 0⟩).map (fun st => st.rgba_file)
          = memcpy (List.replicate 20 0) 12 [1, 2, 3, 4, 5, 6, 7, 8] 0 (1 * 2 * 4) := by
  have h := C11_fast_slow_equivalence 64 (fun _ => 0) (fun _ => 0xAA) [1, 2, 3, 4, 5, 6, 7, 8]
    [1, 2, 3, 4, 0xEE, 0xEE, 5, 6, 7, 8] 1 2 6 (by decide) (by decide) (by decide) (by decide)
    (by decide) (by decide) (by decide)
    (by
      intro y j hy hj
      interval_cases y <;> interval_cases j <;> rfl)
  exact ⟨h.1, h.2.1, h.2.2 (List.replicate 20 0) (by decide)⟩

/-- C12 (amended): for every well-formed file `f` of exactly `12 + W×H×4` bytes whose
dimensions are below `2^31` (below `2^32` where `unsigned long` has 32 bits), every byte
sequence `t`, every target layout and every alignment, decoding `f ++ t` with length
`|f| + |t|` has exactly the outcome of decoding `f`; when the row size `S` the decoder
computes holds a row and `S × H` is representable, both calls succeed and return the same
bitmap, width `W`, height `H` and output size `S × H`. -/
theorem C12_trailing_bytes_ignored (wb : Nat) (heap : Nat → Byte) (f t : List Byte)
    (fmt : bitmap_buffer_format) (a W H : Nat) (hwb : 32 ≤ wb)
    (hhdr : f.take 12 = file_header W H)
    (hW : W < 2 ^ 31 ∨ (wb = 32 ∧ W < 2 ^ 32)) (hH : H < 2 ^ 31 ∨ (wb = 32 ∧ H < 2 ^ 32))
    (hlen : f.length = 12 + W * H * 4) (htyp : f.length + t.length < 2 ^ wb) :
    rgba_decode_file_data_to_bitmap wb heap (some (f ++ t)) (f.length + t.length) fmt a
        true true true
      = rgba_decode_file_data_to_bitmap wb heap (some f) f.length fmt a true true true
    ∧ (W * pixel_size fmt ≤ decode_output_row_size wb W (pixel_size fmt) a →
        decode_output_row_size wb W (pixel_size fmt) a * H < 2 ^ wb →
        ∃ m, rgba_decode_file_data_to_bitmap wb heap (some (f ++ t)) (f.length + t.length)
              fmt a true true true
              = Exec.returned ⟨some m, some W, some H,
                  some (decode_output_row_size wb W (pixel_size fmt) a * H)⟩
          ∧ rgba_decode_file_data_to_bitmap wb heap (some f) f.length fmt a true true true
              = Exec.returned ⟨some m, some W, some H,
                  some (decode_output_row_size wb W (pixel_size fmt) a * H)⟩) := by
  have hd : ∀ i, i < 12 → f[i]? = (file_header W H)[i]? := by
    intro i hi
    rw [← hhdr, List.getElem?_take_of_lt hi]
  have heq := decode_trailing wb heap f t fmt a W H hwb hd hW hH hlen htyp
  refine ⟨heq, fun hS1 hS2 => ?_⟩
  obtain ⟨m, hm, _, _⟩ := decode_spec wb heap f f.length fmt a W H hwb hd hW hH
    (by omega) (le_refl _) (by omega) hS1 hS2
  exact ⟨m, by rw [heq, hm], hm⟩

/-- C12, instance: the 20-byte file of a 1 × 2 image followed by three bytes, decoded to
BGR with alignment 4 on a 64-bit platform. -/
theorem C12_trailing_bytes_ignored_witness :
    rgba_decode_file_data_to_bitmap 64 (fun _ => 0)
        (some ([0x52, 0x47, 0x42, 0x41, 0, 0, 0, 1, 0, 0, 0, 2, 1, 2, 3, 4, 5, 6, 7, 8]
          ++ [9, 9, 9]))
        (([0x52, 0x47, 0x42, 0x41, 0, 0, 0, 1, 0, 0, 0, 2, 1, 2, 3, 4, 5, 6, 7, 8] :
          List Byte).length + ([9, 9, 9] : List Byte).length) BGR 4 true true true
      = rgba_decode_file_data_to_bitmap 64 (fun _ => 0)
        (some [0x52, 0x47, 0x42, 0x41, 0, 0, 0, 1, 0, 0, 0, 2, 1, 2, 3, 4, 5, 6, 7, 8])
        ([0x52, 0x47, 0x42, 0x41, 0, 0, 0, 1, 0, 0, 0, 2, 1, 2, 3, 4, 5, 6, 7, 8] :
          List Byte).length BGR 4 true true true :=
  (C12_trailing_bytes_ignored 64 (fun _ => 0)
    [0x52, 0x47, 0x42, 0x41, 0, 0, 0, 1, 0, 0, 0, 2, 1, 2, 3, 4, 5, 6, 7, 8] [9, 9, 9] BGR 4
    1 2 (by decide) (by decide) (Or.inl (by decide)) (Or.inl (by decide)) (by decide)
    (by decide)).1

/-- C12 (counterexample): with 32-bit `size_t`, the 20-byte file of a 1 × 2 image followed
by one trailing byte, decoded to RGB with alignment `2^31`: the row size is `2^31`, the
bitmap size `2^31 × 2` wraps to 0, and the first pixel is written outside the empty
block, so the call does not succeed. -/
theorem C12_counterexample :
    rgba_decode_file_data_to_bitmap 32 (fun _ => 0)
        (some ([0x52, 0x47, 0x42, 0x41, 0, 0, 0, 1, 0, 0, 0, 2, 1, 2, 3, 4, 5, 6, 7, 8]
          ++ [0xAA])) 21 RGB (2 ^ 31) true true true = Exec.undefined := by
  decide

/-- C13 (failing input): with 64-bit `unsigned long`, the 12-byte file whose width bytes
are `80 00 00 00` and whose height is 0 is decoded successfully, and the width reported
is 18446744071562067968 (0xFFFFFFFF80000000), not the big-endian value 2147483648 of the
four bytes. -/
theorem C13_decode_sign_extends_width :
    rgba_decode_file_data_to_bitmap 64 (fun _ => 0)
        (some [0x52, 0x47, 0x42, 0x41, 0x80, 0, 0, 0, 0, 0, 0, 0]) 12 RGBA 0 true true true
      = Exec.returned ⟨some [], some 18446744071562067968, some 0, some 0⟩
    ∧ be32_value [0x80, 0, 0, 0] = 2147483648
    ∧ ¬ (18446744071562067968 < 2 ^ 32) := by
  decide

/-- C14 (amended): the decoder signals its three failure causes in one and the same way.
On a length below 12, on a wrong magic, and on a length that is too short for the declared
`width × height × 4` payload, the call returns `NULL`, stores 0 in `*p_output_size` and
stores nothing in `*p_width` and `*p_height`. -/
theorem C14_decode_failures_identical (wb : Nat) (heap : Nat → Byte) (data : List Byte)
    (len : Nat) (fmt : bitmap_buffer_format) (a W H : Nat) (hwb : 32 ≤ wb)
    (h : len < 12
      ∨ (12 ≤ len ∧ len ≤ data.length ∧ data.take 4 ≠ [0x52, 0x47, 0x42, 0x41])
      ∨ (12 ≤ len ∧ data.take 12 = file_header W H
          ∧ (W < 2 ^ 31 ∨ (wb = 32 ∧ W < 2 ^ 32)) ∧ (H < 2 ^ 31 ∨ (wb = 32 ∧ H < 2 ^ 32))
          ∧ 12 + W * H * 4 < 2 ^ wb ∧ len < 12 + W * H * 4)) :
    rgba_decode_file_data_to_bitmap wb heap (some data) len fmt a true true true
      = Exec.returned ⟨none, none, none, some 0⟩ := by
  rcases h with h | ⟨h12, hlen, hne⟩ | ⟨h12, hhdr, hW, hH, hfit, hshort⟩
  · unfold rgba_decode_file_data_to_bitmap
    simp only [Bool.true_eq_false, or_self, if_false]
    rw [if_pos h]
  · exact decode_wrong_magic wb heap data len fmt a hwb h12 hlen hne
  · refine decode_truncated wb heap data len fmt a W H hwb h12 ?_ hW hH hfit hshort
    intro i hi
    rw [← hhdr, List.getElem?_take_of_lt hi]

/-- C14, instance: a 16-byte buffer that declares a 2 × 1 image. -/
theorem C14_decode_failures_identical_witness :
    rgba_decode_file_data_to_bitmap 64 (fun _ => 0)
        (some [0x52, 0x47, 0x42, 0x41, 0, 0, 0, 2, 0, 0, 0, 1, 1, 2, 3, 4]) 16 RGBA 0
        true true true
      = Exec.returned ⟨none, none, none, some 0⟩ :=
  C14_decode_failures_identical 64 (fun _ => 0)
    [0x52, 0x47, 0x42, 0x41, 0, 0, 0, 2, 0, 0, 0, 1, 1, 2, 3, 4] 16 RGBA 0 2 1 (by decide)
    (Or.inr (Or.inr ⟨by decide, by decide, Or.inl (by decide), Or.inl (by decide),
      by decide, by decide⟩))

/-- C14 (counterexample): an 11-byte buffer, a 12-byte buffer with a wrong magic and a
16-byte buffer that declares a 2 × 1 image give one and the same result; nothing that the
call returns or stores tells the three causes apart. -/
theorem C14_counterexample :
    rgba_decode_file_data_to_bitmap 64 (fun _ => 0)
        (some [0x52, 0x47, 0x42, 0x41, 0, 0, 0, 2, 0, 0, 0]) 11 RGBA 0 true true true
      = rgba_decode_file_data_to_bitmap 64 (fun _ => 0)
        (some [0x52, 0x47, 0x42, 0x40, 0, 0, 0, 2, 0, 0, 0, 1]) 12 RGBA 0 true true true
    ∧ rgba_decode_file_data_to_bitmap 64 (fun _ => 0)
        (some [0x52, 0x47, 0x42, 0x40, 0, 0, 0, 2, 0, 0, 0, 1]) 12 RGBA 0 true true true
      = rgba_decode_file_data_to_bitmap 64 (fun _ => 0)
        (some [0x52, 0x47, 0x42, 0x41, 0, 0, 0, 2, 0, 0, 0, 1, 1, 2, 3, 4]) 16 RGBA 0
        true true true := by
  decide

/-- C15 (failing inputs): with a non-null file buffer, `p_width` and `p_height`, every call
that passes `NULL` for `p_output_size` stores through that null pointer (the statement
`*p_output_size = 0` is not guarded): the call has undefined behaviour, whatever the
file contents, length, layout and alignment. -/
theorem C15_decode_null_output_size (wb : Nat) (heap : Nat → Byte) (data : List Byte)
    (len : Nat) (fmt : bitmap_buffer_format) (a : Nat) :
    rgba_decode_file_data_to_bitmap wb heap (some data) len fmt a true true false
      = Exec.undefined := by
  simp [rgba_decode_file_data_to_bitmap]

/-- C16 (amended): for every well-formed file with declared width `W` and height `H`
(below `2^31`, or below `2^32` where `unsigned long` has 32 bits), every target layout
with pixel size `p` and every alignment for which the computed row size `S` holds a row
(`W × p ≤ S`) and `S × H` is representable, the decoder succeeds, and for every pixel
`(x, y)` with file bytes `(r, g, b, a)` at `12 + 4×(y×W + x) .. +3` the `p` output bytes
at `y×S + x×p` are those bytes in the order of the layout: `(r,g,b,a)` for RGBA,
`(a,b,g,r)` for ABGR, `(a,r,g,b)` for ARGB, `(b,g,r,a)` for BGRA, `(r,g,b)` for RGB and
`(b,g,r)` for BGR. -/
theorem C16_decoder_pixel_reordering (wb : Nat) (heap : Nat → Byte) (data : List Byte)
    (fmt : bitmap_buffer_format) (a W H : Nat) (hwb : 32 ≤ wb)
    (hhdr : data.take 12 = file_header W H)
    (hW : W < 2 ^ 31 ∨ (wb = 32 ∧ W < 2 ^ 32)) (hH : H < 2 ^ 31 ∨ (wb = 32 ∧ H < 2 ^ 32))
    (hL : 12 + W * H * 4 ≤ data.length) (hLw : data.length < 2 ^ wb)
    (hS1 : W * pixel_size fmt ≤ decode_output_row_size wb W (pixel_size fmt) a)
    (hS2 : decode_output_row_size wb W (pixel_size fmt) a * H < 2 ^ wb) :
    ∃ m, rgba_decode_file_data_to_bitmap wb heap (some data) data.length fmt a true true true
        = Exec.returned ⟨some m, some W, some H,
            some (decode_output_row_size wb W (pixel_size fmt) a * H)⟩
      ∧ ∀ y x, y < H → x < W → ∃ r g b al,
          data[12 + 4 * (y * W + x)]? = some r
          ∧ data[12 + 4 * (y * W + x) + 1]? = some g
          ∧ data[12 + 4 * (y * W + x) + 2]? = some b
          ∧ data[12 + 4 * (y * W + x) + 3]? = some al
          ∧ y * decode_output_row_size wb W (pixel_size fmt) a + x * pixel_size fmt
              + pixel_size fmt ≤ m.length
          ∧ (m.drop (y * decode_output_row_size wb W (pixel_size fmt) a
                + x * pixel_size fmt)).take (pixel_size fmt)
              = pixel_bytes fmt (r, g, b, al) := by
  have hd : ∀ i, i < 12 → data[i]? = (file_header W H)[i]? := by
    intro i hi
    rw [← hhdr, List.getElem?_take_of_lt hi]
  obtain ⟨m, hm, hlen, hpix⟩ := decode_spec wb heap data data.length fmt a W H hwb hd hW hH
    hL (le_refl _) hLw hS1 hS2
  refine ⟨m, hm, fun y x hy hx => ?_⟩
  have hq : y * W + x < W * H := pixel_index_lt hy hx
  have g : ∀ k, k < 4 → data[12 + 4 * (y * W + x) + k]?
      = some (data.getD (12 + 4 * (y * W + x) + k) 0) := by
    intro k hk
    rw [List.getD_eq_getElem?_getD, List.getElem?_eq_getElem (by omega)]
    rfl
  refine ⟨_, _, _, _, g 0 (by omega), g 1 (by omega), g 2 (by omega), g 3 (by omega), ?_, ?_⟩
  · have h1 : x * pixel_size fmt + pixel_size fmt ≤ W * pixel_size fmt := by
      have := Nat.mul_le_mul_right (pixel_size fmt) (show x + 1 ≤ W by omega)
      rwa [Nat.add_mul, Nat.one_mul] at this
    have h2 : y * decode_output_row_size wb W (pixel_size fmt) a
        + decode_output_row_size wb W (pixel_size fmt) a
        ≤ H * decode_output_row_size wb W (pixel_size fmt) a := by
      have := Nat.mul_le_mul_right (decode_output_row_size wb W (pixel_size fmt) a)
        (show y + 1 ≤ H by omega)
      rwa [Nat.add_mul, Nat.one_mul] at this
    rw [hlen, Nat.mul_comm _ H]
    omega
  · exact decoded_pixel fmt data m _ _ _ _ _ _
      (fun k hk hk3 => hpix y x k hy hx hk hk3) (g 0 (by omega)) (g 1 (by omega))
      (g 2 (by omega)) (g 3 (by omega))

/-- C16, instance: the 20-byte file of a 1 × 2 image decoded to ABGR with alignment 8 on
a 64-bit platform; the row size is 8 and the pixel `(0, 1)` is stored at offset 8. -/
theorem C16_decoder_pixel_reordering_witness :
    ∃ m, rgba_decode_file_data_to_bitmap 64 (fun _ => 0)
          (some [0x52, 0x47, 0x42, 0x41, 0, 0, 0, 1, 0, 0, 0, 2, 1, 2, 3, 4, 5, 6, 7, 8])
          ([0x52, 0x47, 0x42, 0x41, 0, 0, 0, 1, 0, 0, 0, 2, 1, 2, 3, 4, 5, 6, 7, 8] :
            List Byte).length ABGR 8 true true true
        = Exec.returned ⟨some m, some 1, some 2,
            some (decode_output_row_size 64 1 (pixel_size ABGR) 8 * 2)⟩
      ∧ ∃ r g b al,
          ([0x52, 0x47, 0x42, 0x41, 0, 0, 0, 1, 0, 0, 0, 2, 1, 2, 3, 4, 5, 6, 7, 8] :
            List Byte)[12 + 4 * (1 * 1 + 0)]? = some r
          ∧ ([0x52, 0x47, 0x42, 0x41, 0, 0, 0, 1, 0, 0, 0, 2, 1, 2, 3, 4, 5, 6, 7, 8] :
            List Byte)[12 + 4 * (1 * 1 + 0) + 1]? = some g
          ∧ ([0x52, 0x47, 0x42, 0x41, 0, 0, 0, 1, 0, 0, 0, 2, 1, 2, 3, 4, 5, 6, 7, 8] :
            List Byte)[12 + 4 * (1 * 1 + 0) + 2]? = some b
          ∧ ([0x52, 0x47, 0x42, 0x41, 0, 0, 0, 1, 0, 0, 0, 2, 1, 2, 3, 4, 5, 6, 7, 8] :
            List Byte)[12 + 4 * (1 * 1 + 0) + 3]? = some al
          ∧ 1 * decode_output_row_size 64 1 (pixel_size ABGR) 8 + 0 * pixel_size ABGR
              + pixel_size ABGR ≤ m.length
          ∧ (m.drop (1 * decode_output_row_size 64 1 (pixel_size ABGR) 8
                + 0 * pixel_size ABGR)).take (pixel_size ABGR)
              = pixel_bytes ABGR (r, g, b, al) := by
  obtain ⟨m, hm, hpix⟩ := C16_decoder_pixel_reordering 64 (fun _ => 0)
    [0x52, 0x47, 0x42, 0x41, 0, 0, 0, 1, 0, 0, 0, 2, 1, 2, 3, 4, 5, 6, 7, 8] ABGR 8 1 2
    (by decide) (by decide) (Or.inl (by decide)) (Or.inl (by decide)) (by decide) (by decide)
    (by decide) (by decide)
  exact ⟨m, hm, hpix 1 0 (by decide) (by decide)⟩

/-- C16 (counterexample): with 32-bit `size_t`, the 24-byte file of a 1 × 3 image decoded
to RGBA with alignment `2^31 + 4`: the row size is `S = 2^31 + 4`, the bitmap size
`S × 3` wraps to `2^31 + 12`, the call succeeds, and the row offset `2 × S` of the third
row wraps to 8: the pixel `(0, 2)` is stored at offset 8, while offset `2 × S + 0 × 4`
lies outside the bitmap. -/
theorem C16_counterexample :
    ∃ m, rgba_decode_file_data_to_bitmap 32 (fun _ => 0)
          (some [0x52, 0x47, 0x42, 0x41, 0, 0, 0, 1, 0, 0, 0, 3,
            1, 2, 3, 4, 5, 6, 7, 8, 9, 10, 11, 12]) 24 RGBA 2147483652 true true true
          = Exec.returned ⟨some m, some 1, some 3, some 2147483660⟩
      ∧ decode_output_row_size 32 1 (pixel_size RGBA) 2147483652 = 2147483652
      ∧ m[2 * 2147483652 + 0 * 4]? = none
      ∧ m[8]? = some 9 := by
  have hS : decode_output_row_size 32 1 (pixel_size RGBA) 2147483652 = 2147483652 := by decide
  have hp : pixel_size RGBA = 4 := rfl
  have hS4 : decode_output_row_size 32 1 4 2147483652 = 2147483652 := by decide
  generalize hdata : ([0x52, 0x47, 0x42, 0x41, 0, 0, 0, 1, 0, 0, 0, 3,
            1, 2, 3, 4, 5, 6, 7, 8, 9, 10, 11, 12] : List Byte) = data
  have hlen : data.length = 24 := by rw [← hdata]; rfl
  have hhdr : ∀ i, i < 12 → data[i]? = (file_header 1 3)[i]? := by rw [← hdata]; decide
  have h20 : data[20]? = some 9 := by rw [← hdata]; rfl
  obtain ⟨hmagic, hrw, hrh⟩ := read_header data 1 3 hhdr
  have hm : to_unsigned 32 (to_int (RGBA_BITMAP_MAGIC_NUMBER % 2 ^ 32))
      = RGBA_BITMAP_MAGIC_NUMBER := by decide
  have hw : to_unsigned 32 (to_int (1 % 2 ^ 32)) = 1 := by decide
  have hh : to_unsigned 32 (to_int (3 % 2 ^ 32)) = 3 := by decide
  have e2 : uadd 32 12 (umul 32 (umul 32 1 3) 4) = 24 := by decide
  have e4 : umul 32 2147483652 3 = 2147483660 := by decide
  have e5 : umul 32 1 4 = 4 := by decide
  simp only [rgba_decode_file_data_to_bitmap, hmagic, hrw, hrh, hm, hw, hh, e2, hp, hS4, e4, e5,
    Bool.true_eq_false, or_self, show ¬ (24 < 12) by decide, show ¬ (24 < 24) by decide,
    if_false, ne_eq, not_true_eq_false, show ¬ ((2147483652 : Nat) = 4) by decide, and_false]
  have o0 : umul 32 0 2147483652 = 0 := by decide
  have o1 : umul 32 1 2147483652 = 2147483652 := by decide
  have o2 : umul 32 2 2147483652 = 8 := by decide
  obtain ⟨M, hM, hMl⟩ : ∃ M, malloc (fun _ => (0 : Byte)) 2147483660 = M ∧ M.length = 2147483660 :=
    ⟨_, rfl, length_malloc _ _⟩
  rw [hM]
  clear hM
  obtain ⟨m1, r1, l1, u1, c1⟩ := decode_pixels_spec RGBA data 1 0
    ⟨12, 0, M⟩ (by show 12 + 4 * 1 ≤ data.length; omega)
    (by show 0 + 1 * pixel_size RGBA ≤ M.length
        rw [hMl, hp]; omega)
  simp only [] at l1
  rw [hMl] at l1
  obtain ⟨m2, r2, l2, u2, c2⟩ := decode_pixels_spec RGBA data 1 0
    ⟨16, 2147483652, m1⟩ (by show 16 + 4 * 1 ≤ data.length; omega)
    (by show 2147483652 + 1 * pixel_size RGBA ≤ m1.length; rw [l1, hp]; omega)
  obtain ⟨m3, r3, l3, u3, c3⟩ := decode_pixels_spec RGBA data 1 0
    ⟨20, 8, m2⟩ (by show 20 + 4 * 1 ≤ data.length; omega)
    (by show 8 + 1 * pixel_size RGBA ≤ m2.length; rw [l2, l1, hp]; omega)
  simp only [] at l2 l3 r1 r2 r3 c3
  have hloop := forLoop_three (decode_row 32 RGBA data 1 2147483652) ⟨12, 0, M⟩ _ _ _
    (by simp only [decode_row, o0]; exact r1)
    (by simp only [decode_row, o1]; exact r2)
    (by simp only [decode_row, o2]; exact r3)
  simp only [hloop, Option.map_some', true_and]
  refine ⟨m3, rfl, ?_, ?_⟩
  · exact List.getElem?_eq_none (by rw [l3, l2, l1]; decide)
  · have := c3 0 0 (by omega) (by omega) (Or.inr rfl)
    simpa [channel_offset, h20] using this

/-- C17: for every layout, every positive width and height and every stride
`s ≥ width × pixel size` (source buffers that hold the rows, sizes representable), the
output pixel `(x, y)` is the same for two sources that agree on the bytes
`y*s + x*p .. y*s + x*p + p - 1`; hence the file is the same for two sources that differ
only in padding bytes, and it equals the file encoded with stride 0 from the packed
buffer that holds the same rows without padding. -/
theorem C17_encoder_stride (wb : Nat) (heap1 heap2 heap3 : Nat → Byte)
    (input input2 packed : List Byte) (w h s : Nat) (fmt : bitmap_buffer_format)
    (hw : 0 < w) (hh : 0 < h) (hs : w * pixel_size fmt ≤ s)
    (hbuf : (h - 1) * s + w * pixel_size fmt ≤ input.length)
    (hbuf2 : (h - 1) * s + w * pixel_size fmt ≤ input2.length)
    (hpk : packed.length = w * h * pixel_size fmt)
    (hlen : input.length < 2 ^ wb) (hlen2 : input2.length < 2 ^ wb)
    (hfit : 12 + w * h * 4 < 2 ^ wb) :
    ∃ f f2 g, rgba_encode_bitmap_to_file_data wb heap1 (some input) w h s fmt true
          = Exec.returned ⟨some f, some (12 + w * h * 4)⟩
      ∧ rgba_encode_bitmap_to_file_data wb heap2 (some input2) w h s fmt true
          = Exec.returned ⟨some f2, some (12 + w * h * 4)⟩
      ∧ rgba_encode_bitmap_to_file_data wb heap3 (some packed) w h 0 fmt true
          = Exec.returned ⟨some g, some (12 + w * h * 4)⟩
      ∧ (∀ y x, y < h → x < w →
          (∀ j, j < pixel_size fmt →
            input[y * s + x * pixel_size fmt + j]? = input2[y * s + x * pixel_size fmt + j]?) →
          ∀ k, k < 4 → f[12 + 4 * (y * w + x) + k]? = f2[12 + 4 * (y * w + x) + k]?)
      ∧ ((∀ y j, y < h → j < w * pixel_size fmt → input[y * s + j]? = input2[y * s + j]?) →
          f = f2)
      ∧ ((∀ y j, y < h → j < w * pixel_size fmt →
            packed[y * (w * pixel_size fmt) + j]? = input[y * s + j]?) → g = f) := by
  obtain ⟨hp0, hp4⟩ := pixel_size_le fmt
  have hs0 : s ≠ 0 := by
    have : 0 < w * pixel_size fmt := Nat.mul_pos hw hp0
    omega
  have he := effective_row_size_pos fmt w s hs0
  have he0 := effective_row_size_zero fmt w
  have hpk4 : w * h * pixel_size fmt ≤ w * h * 4 := Nat.mul_le_mul_left _ hp4
  obtain ⟨f, f2, hf, hf2, hloc, hall⟩ := encode_congr wb heap1 heap2 input input2 w h s s fmt
    hw hh (Or.inr hs) (Or.inr hs) (by rw [he]; exact hbuf) (by rw [he]; exact hbuf2)
    hlen hlen2 hfit
  obtain ⟨g, f', hg, hf', _, hallg⟩ := encode_congr wb heap3 heap1 packed input w h 0 s fmt
    hw hh (Or.inl rfl) (Or.inr hs)
    (by
      have : (h - 1) * (w * pixel_size fmt) + w * pixel_size fmt = w * h * pixel_size fmt := by
        rw [rows_total _ hh]; ring
      rw [he0, this, hpk])
    (by rw [he]; exact hbuf) (by omega) hlen hfit
  rw [hf] at hf'
  simp only [Exec.returned.injEq, encode_out.mk.injEq, Option.some.injEq, and_true] at hf'
  subst hf'
  rw [he] at hloc hall hallg
  rw [he0] at hallg
  exact ⟨f, f2, g, hf, hf2, hg, hloc, hall, hallg⟩


/-- C17, instance: a 1 × 2 BGR image with stride 5 on a 64-bit platform, two sources that
differ only in the padding bytes, and the packed 6-byte buffer. -/
theorem C17_encoder_stride_witness :
    ∃ f f2 g, rgba_encode_bitmap_to_file_data 64 (fun _ => 0)
            (some [1, 2, 3, 0xEE, 0xEE, 4, 5, 6]) 1 2 5 BGR true
          = Exec.returned ⟨some f, some (12 + 1 * 2 * 4)⟩
      ∧ rgba_encode_bitmap_to_file_data 64 (fun _ => 0)
            (some [1, 2, 3, 0x11, 0x22, 4, 5, 6]) 1 2 5 BGR true
          = Exec.returned ⟨some f2, some (12 + 1 * 2 * 4)⟩
      ∧ rgba_encode_bitmap_to_file_data 64 (fun _ => 0) (some [1, 2, 3, 4, 5, 6]) 1 2 0 BGR true
          = Exec.returned ⟨some g, some (12 + 1 * 2 * 4)⟩
      ∧ f[12 + 4 * (1 * 1 + 0) + 2]? = f2[12 + 4 * (1 * 1 + 0) + 2]?
      ∧ f = f2
      ∧ g = f := by
  obtain ⟨f, f2, g, hf, hf2, hg, hloc, hpad, hpk⟩ := C17_encoder_stride 64 (fun _ => 0)
    (fun _ => 0) (fun _ => 0) [1, 2, 3, 0xEE, 0xEE, 4, 5, 6] [1, 2, 3, 0x11, 0x22, 4, 5, 6]
    [1, 2, 3, 4, 5, 6] 1 2 5 BGR (by decide) (by decide) (by decide) (by decide) (by decide)
    (by decide) (by decide) (by decide) (by decide)
  refine ⟨f, f2, g, hf, hf2, hg, ?_, ?_, ?_⟩
  · exact hloc 1 0 (by decide) (by decide)
      (by
        intro j hj
        have hj3 : j < 3 := hj
        interval_cases j <;> rfl) 2 (by decide)
  · exact hpad (by
      intro y j hy hj
      have hj3 : j < 3 := hj
      interval_cases y <;> interval_cases j <;> rfl)
  · exact hpk (by
      intro y j hy hj
      have hj3 : j < 3 := hj
      interval_cases y <;> interval_cases j <;> rfl)

/-- C18 (amended): for each of the six layouts, every width and height that are positive
and below `2^31` (below `2^32` where `unsigned long` has 32 bits) and every packed buffer
of `width*height*size(L)` bytes whose file size `12 + width*height*4` is representable,
encoding with stride 0 succeeds, and decoding the result with the same layout and
alignment 0 or 1 succeeds, returns the buffer byte for byte, the same width and height,
and output size `width*height*size(L)`. -/
theorem C18_round_trip_all_layouts (wb : Nat) (heap heap2 heap3 : Nat → Byte)
    (fmt : bitmap_buffer_format) (w h : Nat) (buf : List Byte) (hwb : 32 ≤ wb)
    (hw : 0 < w) (hh : 0 < h)
    (hW : w < 2 ^ 31 ∨ (wb = 32 ∧ w < 2 ^ 32)) (hH : h < 2 ^ 31 ∨ (wb = 32 ∧ h < 2 ^ 32))
    (hbuf : buf.length = w * h * pixel_size fmt) (hfit : 12 + w * h * 4 < 2 ^ wb) :
    ∃ f, rgba_encode_bitmap_to_file_data wb heap (some buf) w h 0 fmt true
          = Exec.returned ⟨some f, some (12 + w * h * 4)⟩
      ∧ rgba_decode_file_data_to_bitmap wb heap2 (some f) (12 + w * h * 4) fmt 0
          true true true
          = Exec.returned ⟨some buf, some w, some h, some (w * h * pixel_size fmt)⟩
      ∧ rgba_decode_file_data_to_bitmap wb heap3 (some f) (12 + w * h * 4) fmt 1
          true true true
          = Exec.returned ⟨some buf, some w, some h, some (w * h * pixel_size fmt)⟩ := by
  obtain ⟨f, hf, h0⟩ := round_trip_layout wb heap heap2 fmt w h 0 buf hwb hw hh (by omega)
    hW hH hbuf hfit
  obtain ⟨f', hf', h1⟩ := round_trip_layout wb heap heap3 fmt w h 1 buf hwb hw hh (by omega)
    hW hH hbuf hfit
  rw [hf] at hf'
  simp only [Exec.returned.injEq, encode_out.mk.injEq, Option.some.injEq, and_true] at hf'
  subst hf'
  exact ⟨f, hf, h0, h1⟩

/-- C18, instance: a 2 × 1 BGR image on a 64-bit platform. -/
theorem C18_round_trip_all_layouts_witness :
    ∃ f, rgba_encode_bitmap_to_file_data 64 (fun _ => 0) (some [1, 2, 3, 4, 5, 6]) 2 1 0 BGR
          true = Exec.returned ⟨some f, some (12 + 2 * 1 * 4)⟩
      ∧ rgba_decode_file_data_to_bitmap 64 (fun _ => 7) (some f) (12 + 2 * 1 * 4) BGR 0
          true true true
          = Exec.returned ⟨some [1, 2, 3, 4, 5, 6], some 2, some 1, some (2 * 1 * pixel_size BGR)⟩
      ∧ rgba_decode_file_data_to_bitmap 64 (fun _ => 9) (some f) (12 + 2 * 1 * 4) BGR 1
          true true true
          = Exec.returned ⟨some [1, 2, 3, 4, 5, 6], some 2, some 1, some (2 * 1 * pixel_size BGR)⟩ :=
  C18_round_trip_all_layouts 64 (fun _ => 0) (fun _ => 7) (fun _ => 9) BGR 2 1
    [1, 2, 3, 4, 5, 6] (by decide) (by decide) (by decide) (Or.inl (by decide))
    (Or.inl (by decide)) (by decide) (by decide)

/-- C18 (counterexample): with 64-bit `unsigned long`, a `2^32` by 1 RGB bitmap (a packed
buffer of `3 * 2^32` bytes) is encoded successfully, but the header keeps only the low 32
bits of the width; decoding the file to RGB with alignment 1 succeeds with width 0 and an
empty bitmap of size 0, not the buffer of `3 * 2^32` bytes. -/
theorem C18_counterexample :
    ∃ f, rgba_encode_bitmap_to_file_data 64 (fun _ => 0)
          (some (List.replicate (3 * 2 ^ 32) 0)) (2 ^ 32) 1 0 RGB true
          = Exec.returned ⟨some f, some (12 + 2 ^ 34)⟩
      ∧ rgba_decode_file_data_to_bitmap 64 (fun _ => 0) (some f) (12 + 2 ^ 34) RGB 1
          true true true = Exec.returned ⟨some [], some 0, some 1, some 0⟩ := by
  obtain ⟨f, hf, hl, hd, _⟩ := encode_spec 64 (fun _ => 0) (List.replicate (3 * 2 ^ 32) 0)
    (2 ^ 32) 1 0 RGB (by decide) (by decide) (Or.inl rfl)
    (by rw [List.length_replicate]; decide) (by rw [List.length_replicate]; decide)
    (by decide)
  refine ⟨f, hf, ?_⟩
  have hhdr : file_header (2 ^ 32) 1 = file_header 0 1 := by decide
  rw [hhdr] at hd
  have hS : decode_output_row_size 64 0 (pixel_size RGB) 1 = 0 := by decide
  obtain ⟨m, hm, lm, _⟩ := decode_spec 64 (fun _ => 0) f (12 + 2 ^ 34) RGB 1 0 1 (by decide)
    hd (Or.inl (by decide)) (Or.inl (by decide)) (by decide) (by rw [hl]; decide) (by decide)
    (by rw [hS]; decide) (by rw [hS]; decide)
  rw [hS] at hm lm
  have : m = [] := List.length_eq_zero.mp (by simpa using lm)
  rw [hm, this]

/-- C19: for every well-formed file `f` with declared width `W > 0` and height `H > 0`,
every layout and every row alignment (an `unsigned int`), if decoding `f` yields a
bitmap `m` (and reports `W` and `H`), then with `S` the row size the decoder computed,
encoding any bitmap of the size of `m` that agrees with `m` on the pixel bytes of every
row (row `y` starts at `y × S` as computed in `size_t`; the padding bytes are
arbitrary) with dimensions `W × H`, stride `S` and the same layout succeeds; the result
is the first `12 + W×H×4` bytes of `f` for the four-byte layouts, and for RGB and BGR it
is so exactly when every alpha byte of `f` is 0xFF. -/
theorem C19_reverse_round_trip (wb : Nat) (heap heap2 : Nat → Byte) (f : List Byte)
    (fmt : bitmap_buffer_format) (a W H : Nat) (m : List Byte) (sz : Option Nat)
    (hwb : 32 ≤ wb) (ha : a < 2 ^ 32) (hW0 : 0 < W) (hH0 : 0 < H)
    (hhdr : f.take 12 = file_header W H)
    (hL : 12 + W * H * 4 ≤ f.length) (hLw : f.length < 2 ^ wb)
    (hdec : rgba_decode_file_data_to_bitmap wb heap (some f) f.length fmt a true true true
      = Exec.returned ⟨some m, some W, some H, sz⟩) :
    ∀ m2 : List Byte, m2.length = m.length →
      (∀ y j, y < H → j < W * pixel_size fmt →
        m2[umul wb y (decode_output_row_size wb W (pixel_size fmt) a) + j]?
          = m[umul wb y (decode_output_row_size wb W (pixel_size fmt) a) + j]?) →
      ∃ g, rgba_encode_bitmap_to_file_data wb heap2 (some m2) W H
            (decode_output_row_size wb W (pixel_size fmt) a) fmt true
          = Exec.returned ⟨some g, some (12 + W * H * 4)⟩
        ∧ (pixel_size fmt = 4 → g = f.take (12 + W * H * 4))
        ∧ (pixel_size fmt = 3 →
            (g = f.take (12 + W * H * 4)
              ↔ ∀ q, q < W * H → f[12 + 4 * q + 3]? = some 0xFF)) := by
  intro m2 l2 hagree
  obtain ⟨hp0, hp4⟩ := pixel_size_le fmt
  have hd : ∀ i, i < 12 → f[i]? = (file_header W H)[i]? := by
    intro i hi
    rw [← hhdr, List.getElem?_take_of_lt hi]
  obtain ⟨_, lm, hS1, hin, pm⟩ := decode_success wb heap f fmt a W H m sz hwb ha hW0 hH0 hd
    hL hLw hdec
  generalize decode_output_row_size wb W (pixel_size fmt) a = S at *
  have hS0 : S ≠ 0 := by
    have : 0 < W * pixel_size fmt := Nat.mul_pos hW0 hp0
    omega
  have pm2 : ∀ y x k, y < H → x < W → k < 4 → (k < 3 ∨ pixel_size fmt = 4) →
      m2[umul wb y S + x * pixel_size fmt + channel_offset fmt k]?
        = f[12 + 4 * (y * W + x) + k]? := by
    intro y x k hy hx hk hc
    have hoff := channel_offset_lt fmt k hk hc
    have hxw : x * pixel_size fmt + pixel_size fmt ≤ W * pixel_size fmt := by
      have := Nat.mul_le_mul_right (pixel_size fmt) (show x + 1 ≤ W by omega)
      rwa [Nat.add_mul, Nat.one_mul] at this
    have := hagree y (x * pixel_size fmt + channel_offset fmt k) hy (by omega)
    rw [← Nat.add_assoc] at this
    rw [this, pm y x k hy hx hk hc]
  have key : ∃ g, rgba_encode_bitmap_to_file_data wb heap2 (some m2) W H S fmt true
        = Exec.returned ⟨some g, some (12 + W * H * 4)⟩
      ∧ g.length = 12 + W * H * 4
      ∧ (∀ i, i < 12 → g[i]? = (file_header W H)[i]?)
      ∧ (∀ y x k, y < H → x < W → k < 4 → g[12 + 4 * (y * W + x) + k]?
          = some (source_channel fmt m2 (umul wb y S + x * pixel_size fmt) k)) := by
    by_cases hslow : fmt = bitmap_buffer_format.RGBA ∧ S = umul wb W 4
    · obtain ⟨hfmt, hrow⟩ := hslow
      subst hfmt
      have hps : pixel_size bitmap_buffer_format.RGBA = 4 := rfl
      have hwH : W * 4 ≤ W * H * 4 := mul_mul_le_of_pos 4 hH0
      rw [umul_eq (by omega)] at hrow
      have hSH : S * H = W * H * 4 := by rw [hrow]; ring
      have eSH : umul wb S H = S * H := umul_eq (by omega)
      have he := effective_row_size_pos bitmap_buffer_format.RGBA W S hS0
      have hrows : (H - 1) * S + S = S * H := by rw [rows_total _ hH0, Nat.mul_comm]
      obtain ⟨g, hg, lg, dg, pg⟩ := encode_spec wb heap2 m2 W H S bitmap_buffer_format.RGBA
        hW0 hH0 (Or.inr hS1) (by rw [he, l2, lm, eSH, hps]; omega)
        (by rw [l2, lm, eSH]; omega) (by omega)
      refine ⟨g, hg, lg, dg, fun y x k hy hx hk => ?_⟩
      have hy1 : y * S ≤ (H - 1) * S := mul_le_of_lt_pred hy
      rw [pg y x k hy hx hk, he, umul_eq (by omega)]
    · exact encode_wrapped wb heap2 m2 W H S fmt hW0 hH0 hS1 hslow
        (fun y hy => by rw [l2]; exact hin y hy) (by omega)
  obtain ⟨g, hg, lg, dg, pg⟩ := key
  exact ⟨g, hg, encode_of_decoded fmt f g m2 W H (fun y => umul wb y S) hW0 hd hL lg dg pg pm2⟩

/-- C19, instance: the 20-byte file of a 1 × 2 image with opaque pixels decoded to RGB
with alignment 4 on a 64-bit platform (row size 4, one padding byte per row); the bitmap
with other padding bytes, encoded with stride 4, gives the file back. -/
theorem C19_reverse_round_trip_witness :
    ∃ g, rgba_encode_bitmap_to_file_data 64 (fun _ => 0xAA)
            (some [1, 2, 3, 0x77, 5, 6, 7, 0x88]) 1 2
            (decode_output_row_size 64 1 (pixel_size RGB) 4) RGB true
          = Exec.returned ⟨some g, some (12 + 1 * 2 * 4)⟩
      ∧ g = ([0x52, 0x47, 0x42, 0x41, 0, 0, 0, 1, 0, 0, 0, 2, 1, 2, 3, 0xFF, 5, 6, 7, 0xFF] :
            List Byte).take (12 + 1 * 2 * 4) := by
  obtain ⟨g, hg, _, h3⟩ := C19_reverse_round_trip 64 (fun _ => 0) (fun _ => 0xAA)
    [0x52, 0x47, 0x42, 0x41, 0, 0, 0, 1, 0, 0, 0, 2, 1, 2, 3, 0xFF, 5, 6, 7, 0xFF] RGB 4 1 2
    [1, 2, 3, 0, 5, 6, 7, 0] (some 8)
    (by decide) (by decide) (by decide) (by decide) (by decide) (by decide) (by decide)
    (by decide) [1, 2, 3, 0x77, 5, 6, 7, 0x88] (by decide)
    (by
      intro y j hy hj
      have hj3 : j < 3 := hj
      interval_cases y <;> interval_cases j <;> rfl)
  refine ⟨g, hg, (h3 rfl).2 ?_⟩
  intro q hq
  have hq2 : q < 2 := hq
  interval_cases q <;> rfl

/-- C20 (failing input): with 32-bit `size_t`, the 28-byte file of a 2 × 2 image decoded
to BGRA with alignment `2^31`. The header and length checks pass (`12 + 2×2×4 = 28`, no
wrap) and the row size is `2^31`, but the allocation size `output_row_size × height`
wraps to 0, so the store of the first pixel, at index 0, lies outside the allocated
block: the call has undefined behaviour instead of staying in bounds. -/
theorem C20_decode_writes_out_of_bounds :
    rgba_decode_file_data_to_bitmap 32 (fun _ => 0)
        (some [0x52, 0x47, 0x42, 0x41, 0, 0, 0, 2, 0, 0, 0, 2,
          1, 2, 3, 4, 5, 6, 7, 8, 9, 10, 11, 12, 13, 14, 15, 16]) 28 BGRA (2 ^ 31)
        true true true = Exec.undefined
      ∧ uadd 32 12 (umul 32 (umul 32 2 2) 4) = 28
      ∧ 12 + 2 * 2 * 4 < 2 ^ 32
      ∧ decode_output_row_size 32 2 (pixel_size BGRA) (2 ^ 31) = 2 ^ 31
      ∧ umul 32 (decode_output_row_size 32 2 (pixel_size BGRA) (2 ^ 31)) 2 = 0
      ∧ (malloc (fun _ => (0 : Byte))
          (umul 32 (decode_output_row_size 32 2 (pixel_size BGRA) (2 ^ 31)) 2)).length = 0
      ∧ decode_pixel BGRA
          [0x52, 0x47, 0x42, 0x41, 0, 0, 0, 2, 0, 0, 0, 2,
            1, 2, 3, 4, 5, 6, 7, 8, 9, 10, 11, 12, 13, 14, 15, 16]
          ⟨12, umul 32 0 (2 ^ 31), []⟩ = none := by
  decide

end RgbaBitmap
